import Mathlib

/-!
Verification of the aho-corasick repository: a shallow embedding of the
builder (builder.go), the compiled trie and its matcher (trie.go), and the
persistence codec (stream.go), together with theorems settling the spec's
claims about them.

Go machine integers (int64 / uint32 ids, lengths and pattern counters) are
embedded as `Nat`: every value the program stores in them is a nonnegative
count bounded far below 2^63, so overflow never matters.  Go byte values are
embedded as `Nat` (with `< 256` hypotheses where the 256-wide compiled table
makes width matter).  Go slices become `List`, Go maps `byte -> *state`
become association lists in insertion order (a deterministic rendering of the
map; none of the computed values depend on iteration order).  Pointers to
states become their dense integer ids, with `Option` for possibly-nil links.
Loops whose termination rests on run-time invariants (failure chains) take
explicit fuel, always called with fuel `states.length`, which is shown
sufficient for built tries.
-/

set_option maxRecDepth 10000

namespace AhoCorasick

/-- The reserved sentinel id (`nilState` in trie.go); state ids are dense
indexes into the arena, `Nat` throughout. -/
def nilState : Nat := 0

/-- The root id (`rootState` in trie.go). -/
def rootState : Nat := 1

/-- Construction-time trie node: `state` in builder.go.  `trans` is the
byte-to-child map rendered as an association list in insertion order. -/
structure BState where
  value : Nat
  parent : Option Nat
  trans : List (Nat × Nat)
  dict : Nat
  failLink : Option Nat
  dictLink : Option Nat
  pattern : Nat
deriving Repr, DecidableEq

/-- A fresh node, as made by `addState` in builder.go. -/
def BState.mk0 (value : Nat) (parent : Option Nat) : BState :=
  { value := value, parent := parent, trans := [], dict := 0,
    failLink := none, dictLink := none, pattern := 0 }

/-- `TrieBuilder` of builder.go: the arena of states (a node's id is its
index) and the pattern counter. -/
structure TrieBuilder where
  states : List BState
  numPatterns : Nat
deriving Repr, DecidableEq

/-- Arena lookup; Go never indexes out of range, the default is junk. -/
def TrieBuilder.state (tb : TrieBuilder) (i : Nat) : BState :=
  tb.states.getD i (BState.mk0 0 none)

/-- In-place update of one node (Go mutates through the pointer). -/
def TrieBuilder.modifyState (tb : TrieBuilder) (i : Nat)
    (f : BState → BState) : TrieBuilder :=
  { tb with states := tb.states.set i (f (tb.state i)) }

/-- `NewTrieBuilder`: two fresh states; index 0 is the sentinel, index 1 the
root. -/
def newTrieBuilder : TrieBuilder :=
  { states := [BState.mk0 0 none, BState.mk0 0 none], numPatterns := 0 }

/-- `addState` in builder.go: appends a fresh node, returns its id. -/
def TrieBuilder.addState (tb : TrieBuilder) (value : Nat)
    (parent : Option Nat) : TrieBuilder × Nat :=
  ({ tb with states := tb.states ++ [BState.mk0 value parent] },
   tb.states.length)

/-- The descent loop of `AddPattern`: follow existing transitions, create
missing ones; returns the terminal state's id. -/
def addPatternLoop (tb : TrieBuilder) (s : Nat) :
    List Nat → TrieBuilder × Nat
  | [] => (tb, s)
  | c :: rest =>
    match ((tb.state s).trans).lookup c with
    | some t => addPatternLoop tb t rest
    | none =>
      let p := tb.addState c (some s)
      let tb2 := p.1.modifyState s
        (fun st => { st with trans := st.trans ++ [(c, p.2)] })
      addPatternLoop tb2 p.2 rest

/-- `AddPattern` of builder.go. -/
def TrieBuilder.addPattern (tb : TrieBuilder) (pat : List Nat) : TrieBuilder :=
  let r := addPatternLoop tb rootState pat
  let tb2 := r.1.modifyState r.2
    (fun st => { st with dict := pat.length, pattern := tb.numPatterns })
  { tb2 with numPatterns := tb.numPatterns + 1 }

/-- `AddPatterns` of builder.go. -/
def TrieBuilder.addPatterns (tb : TrieBuilder) (pats : List (List Nat)) :
    TrieBuilder :=
  pats.foldl TrieBuilder.addPattern tb

/-- The builder obtained from `NewTrieBuilder` by adding `pats` in order. -/
def builderOf (pats : List (List Nat)) : TrieBuilder :=
  newTrieBuilder.addPatterns pats

/-- The failure-chain search shared by `computeFailLinks`' inner loop and
`computeFailTransition` in builder.go: starting from an optional state,
follow `failLink` until a state with a transition on `c` is found (return
that transition's target), or the chain is exhausted (return the root).
Fuel only bounds the loop; for built tries `states.length` is ample. -/
def failSearch (tb : TrieBuilder) (c : Nat) :
    Option Nat → Nat → Nat
  | none, _ => rootState
  | some _, 0 => rootState
  | some f, fuel + 1 =>
    match ((tb.state f).trans).lookup c with
    | some t => t
    | none => failSearch tb c (tb.state f).failLink fuel

/-- `computeFailTransition` of builder.go: the chain search starting at `s`
itself. -/
def TrieBuilder.computeFailTransition (tb : TrieBuilder) (s : Nat)
    (c : Nat) : Nat :=
  failSearch tb c (some s) tb.states.length

/-- One child step of the BFS inner loop of `computeFailLinks`: enqueue the
child and set its fail link from the parent's fail chain (the byte used is
the child's incoming `value`, as in the source). -/
def failStep (s : Nat) :
    TrieBuilder × List Nat → Nat × Nat → TrieBuilder × List Nat
  | (tb, queue), (_, t) =>
    let fl := failSearch tb (tb.state t).value (tb.state s).failLink
      tb.states.length
    (tb.modifyState t (fun st => { st with failLink := some fl }),
     queue ++ [t])

/-- The BFS queue loop of `computeFailLinks`.  Each state is enqueued at most
once (the trie is a tree), so fuel `states.length` covers every pop. -/
def failLoop : TrieBuilder → List Nat → Nat → TrieBuilder
  | tb, _, 0 => tb
  | tb, [], _ => tb
  | tb, s :: rest, fuel + 1 =>
    let p := ((tb.state s).trans).foldl (failStep s) (tb, rest)
    failLoop p.1 p.2 fuel

/-- `computeFailLinks` of builder.go. -/
def TrieBuilder.computeFailLinks (tb : TrieBuilder) : TrieBuilder :=
  failLoop tb [rootState] tb.states.length

/-- The chain search of `computeDictLinks`: first state along the fail chain
with `dict > 0`, else none. -/
def dictSearch (tb : TrieBuilder) : Option Nat → Nat → Option Nat
  | none, _ => none
  | some _, 0 => none
  | some f, fuel + 1 =>
    if (tb.state f).dict > 0 then some f
    else dictSearch tb (tb.state f).failLink fuel

/-- The per-state loop of `computeDictLinks` (every state except the root). -/
def dictLoop : TrieBuilder → List Nat → TrieBuilder
  | tb, [] => tb
  | tb, i :: rest =>
    if i = rootState then dictLoop tb rest
    else
      dictLoop (tb.modifyState i (fun st =>
        { st with dictLink := dictSearch tb st.failLink tb.states.length }))
        rest

/-- `computeDictLinks` of builder.go. -/
def TrieBuilder.computeDictLinks (tb : TrieBuilder) : TrieBuilder :=
  dictLoop tb (List.range tb.states.length)

/-- `Trie` of trie.go.  `trans` and `failLink` are the build-time-only
arrays; `Build` fills and then nils them (empty lists here), and matching
never reads them. -/
structure Trie where
  failTrans : List (List Nat)
  trans : List (List Nat)
  failLink : List Nat
  dictLink : List Nat
  dict : List Nat
  pattern : List Nat
deriving Repr, DecidableEq

/-- `Build` of builder.go: run the two link passes, flatten every per-state
field into dense arrays, precompute the 256-wide total transition row of
every state, and discard the build-time arrays (`trie.failLink = nil`,
`trie.trans = nil` at the end of Build). -/
def TrieBuilder.build (tb : TrieBuilder) : Trie :=
  let tb1 := tb.computeFailLinks.computeDictLinks
  { dict := tb1.states.map (fun s => s.dict)
    pattern := tb1.states.map (fun s => s.pattern)
    dictLink := tb1.states.map (fun s => s.dictLink.getD 0)
    failTrans := (List.range tb1.states.length).map (fun i =>
      (List.range 256).map (fun c => tb1.computeFailTransition i c))
    trans := []
    failLink := [] }

/-- A reported occurrence: `Match` of match.go — start position (int64 in the
source, so `Int` here), pattern index, and the matched byte range of the
input (Go's field is named `match`, a keyword here). -/
structure Match where
  pos : Int
  pattern : Nat
  matched : List Nat
deriving Repr, DecidableEq

/-- The dictionary-link traversal inside `Walk`'s scan loop, generic in the
callback's closure state `σ` (Go callbacks close over mutable locals).  The
returned `Bool` is false when the callback aborted the whole walk.  Fuel
bounds the chain; built tries never exhaust `states.length`. -/
def dictChainLoop (tr : Trie) (fn : σ → Nat → Nat → Nat → σ × Bool)
    (i : Nat) : σ → Nat → Nat → σ × Bool
  | acc, _, 0 => (acc, true)
  | acc, u, fuel + 1 =>
    if u = nilState then (acc, true)
    else
      let r := fn acc i (tr.dict.getD u 0) (tr.pattern.getD u 0)
      if r.2 then dictChainLoop tr fn i r.1 (tr.dictLink.getD u 0) fuel
      else (r.1, false)

/-- The body of `Walk` at one state after an advance: the primary match
check, then the dictionary-link traversal.  Returns false when the callback
aborted. -/
def walkStateCalls (tr : Trie) (fn : σ → Nat → Nat → Nat → σ × Bool)
    (i : Nat) (s : Nat) (acc : σ) : σ × Bool :=
  if tr.dict.getD s 0 ≠ 0 ∨ tr.dictLink.getD s 0 ≠ nilState then
    if tr.dict.getD s 0 ≠ 0 then
      let r := fn acc i (tr.dict.getD s 0) (tr.pattern.getD s 0)
      if r.2 then
        dictChainLoop tr fn i r.1 (tr.dictLink.getD s 0) tr.dictLink.length
      else (r.1, false)
    else dictChainLoop tr fn i acc (tr.dictLink.getD s 0) tr.dictLink.length
  else (acc, true)

/-- The scan loop of `Walk` in trie.go: left-to-right, one precomputed
transition per byte; `i` is the current input position. -/
def walkLoop (tr : Trie) (fn : σ → Nat → Nat → Nat → σ × Bool) :
    List Nat → Nat → Nat → σ → σ
  | [], _, _, acc => acc
  | c :: rest, i, s, acc =>
    let s1 := (tr.failTrans.getD s []).getD c 0
    let r := walkStateCalls tr fn i s1 acc
    if r.2 then walkLoop tr fn rest (i + 1) s1 r.1 else r.1

/-- `Walk` of trie.go, generic in the callback's closure state. -/
def Trie.walk (tr : Trie) (input : List Nat)
    (fn : σ → Nat → Nat → Nat → σ × Bool) (acc : σ) : σ :=
  walkLoop tr fn input 0 rootState acc

/-- `Match` of trie.go: collect every reported occurrence.  The callback
computes `pos = end - n + 1` (int64 arithmetic) and slices
`input[pos : pos+n]`. -/
def Trie.matchAll (tr : Trie) (input : List Nat) : List Match :=
  tr.walk input (fun acc e n p =>
    (acc ++ [{ pos := (e : Int) - (n : Int) + 1, pattern := p,
               matched := (input.drop (e + 1 - n)).take n }], true)) []

/-- `MatchFirst` of trie.go: the callback stores a `Match` built by the
composite literal `&Match{pos: pos, match: input[pos:pos+n]}` — the
`pattern` field is not listed, so Go zero-initializes it to 0 — and stops
the walk; `nil` (here `none`) when no match was reported. -/
def Trie.matchFirst (tr : Trie) (input : List Nat) : Option Match :=
  tr.walk input (fun _ e n _ =>
    (some { pos := (e : Int) - (n : Int) + 1, pattern := 0,
            matched := (input.drop (e + 1 - n)).take n }, false)) none

/-- `Walk` with a pure per-match predicate, recording the sequence of
callback invocations actually made (each as an (end, length, patternIndex)
triple).  This is the observable call trace of `Walk` for that callback. -/
def Trie.walkTrace (tr : Trie) (input : List Nat)
    (f : Nat × Nat × Nat → Bool) : List (Nat × Nat × Nat) :=
  tr.walk input (fun acc e n p => (acc ++ [(e, n, p)], f (e, n, p))) []

/-- The full emission sequence of `Walk` (an always-true callback). -/
def Trie.emissions (tr : Trie) (input : List Nat) : List (Nat × Nat × Nat) :=
  tr.walkTrace input (fun _ => true)

/-! ### Persistence codec (stream.go)

`Encode` writes through a gzip writer and `Decode` reads through a gzip
reader; gzip is an external library used as a faithful byte channel, so the
codec is embedded at the level of the uncompressed payload it writes and
parses.  Every integer is written as a fixed-width 64-bit little-endian
word (`binary.Write`/`binary.Read` with `binary.LittleEndian`). -/

/-- The `k` little-endian base-256 digits of `n` (the wire image of one
`k`-byte integer field; `k = 8` throughout). -/
def natLE : Nat → Nat → List Nat
  | 0, _ => []
  | k + 1, n => n % 256 :: natLE k (n / 256)

/-- Read back a little-endian digit list. -/
def fromLEBytes : List Nat → Nat
  | [] => 0
  | b :: bs => b + 256 * fromLEBytes bs

/-- One 64-bit little-endian word. -/
def toLE8 (n : Nat) : List Nat := natLE 8 n

/-- A consecutive run of 64-bit words. -/
def wordsToBytes (ws : List Nat) : List Nat :=
  ws.foldr (fun w acc => toLE8 w ++ acc) []

/-- `encoder.encode` of stream.go: the four array lengths, then the `dict`
array, the flattened `failTrans` grid (row-major, 256 ids per state), the
`dictLink` array and the `pattern` array.  The build-time-only `trans` and
`failLink` arrays are not written (their writes are commented out in the
source). -/
def encodeTrie (tr : Trie) : List Nat :=
  toLE8 tr.dict.length ++ toLE8 tr.failTrans.length ++
  toLE8 tr.dictLink.length ++ toLE8 tr.pattern.length ++
  wordsToBytes tr.dict ++
  (tr.failTrans.foldr (fun row acc => wordsToBytes row ++ acc) []) ++
  wordsToBytes tr.dictLink ++
  wordsToBytes tr.pattern

/-- `binary.Read` of one 64-bit word: fails (like an `io.EOF`) when fewer
than 8 bytes remain. -/
def readU64 (bs : List Nat) : Option (Nat × List Nat) :=
  if 8 ≤ bs.length then some (fromLEBytes (bs.take 8), bs.drop 8) else none

/-- `binary.Read` of a run of `k` 64-bit words. -/
def readWords : Nat → List Nat → Option (List Nat × List Nat)
  | 0, bs => some ([], bs)
  | k + 1, bs =>
    match readU64 bs with
    | none => none
    | some (w, rest) =>
      match readWords k rest with
      | none => none
      | some (ws, rest2) => some (w :: ws, rest2)

/-- `decoder.decode` of stream.go: read the four lengths, then each array;
the flat `failTrans` run is reshaped into 256-wide rows
(`copy(failTrans[i][:], flat[i*256:(i+1)*256])`).  Any truncation fails the
whole decode; the build-time arrays come back absent (`nil`). -/
def decodeTrie (bs : List Nat) : Option Trie :=
  match readU64 bs with
  | none => none
  | some (dictLen, bs1) =>
    match readU64 bs1 with
    | none => none
    | some (failTransLen, bs2) =>
      match readU64 bs2 with
      | none => none
      | some (dictLinkLen, bs3) =>
        match readU64 bs3 with
        | none => none
        | some (patternLen, bs4) =>
          match readWords dictLen bs4 with
          | none => none
          | some (dict, bs5) =>
            match readWords (failTransLen * 256) bs5 with
            | none => none
            | some (flatFailTrans, bs6) =>
              match readWords dictLinkLen bs6 with
              | none => none
              | some (dictLink, bs7) =>
                match readWords patternLen bs7 with
                | none => none
                | some (pattern, _) =>
                  some { failTrans := (List.range failTransLen).map
                           (fun i => (flatFailTrans.drop (i * 256)).take 256),
                         dictLink := dictLink, dict := dict,
                         pattern := pattern, trans := [], failLink := [] }

/-! ### Pure emission semantics of the walk

`Walk`'s observable behavior is captured by a pure emission list: the
(end, length, patternIndex) triples it would report with a never-aborting
callback.  Any callback then sees exactly a stop-truncated fold of that
list. -/

/-- The states visited by the dictionary-link chain starting at `u`
(inclusive), up to the sentinel. -/
def chainStates (tr : Trie) : Nat → Nat → List Nat
  | _, 0 => []
  | u, fuel + 1 =>
    if u = nilState then []
    else u :: chainStates tr (tr.dictLink.getD u 0) fuel

/-- The triples reported at one scan position `i` in state `s`: the primary
match, then one per accepting state along the dictionary-link chain. -/
def stateEmits (tr : Trie) (i : Nat) (s : Nat) : List (Nat × Nat × Nat) :=
  (if tr.dict.getD s 0 ≠ 0 then [(i, tr.dict.getD s 0, tr.pattern.getD s 0)]
   else []) ++
  (chainStates tr (tr.dictLink.getD s 0) tr.dictLink.length).map
    (fun u => (i, tr.dict.getD u 0, tr.pattern.getD u 0))

/-- The full emission list of the scan loop from position `i`, state `s`. -/
def emitFrom (tr : Trie) : List Nat → Nat → Nat → List (Nat × Nat × Nat)
  | [], _, _ => []
  | c :: rest, i, s =>
    let s1 := (tr.failTrans.getD s []).getD c 0
    stateEmits tr i s1 ++ emitFrom tr rest (i + 1) s1

/-- Feed a list of triples to a callback, stopping after the first `false`
(that triple's state update is kept, nothing after it is consumed); the
bool is `false` iff the callback aborted. -/
def foldStopB (fn : σ → Nat → Nat → Nat → σ × Bool) :
    σ → List (Nat × Nat × Nat) → σ × Bool
  | acc, [] => (acc, true)
  | acc, (e, n, p) :: ts =>
    let r := fn acc e n p
    if r.2 then foldStopB fn r.1 ts else (r.1, false)

/-- Like `foldStopB` but returning only the final closure state. -/
def foldStop (fn : σ → Nat → Nat → Nat → σ × Bool)
    (acc : σ) (l : List (Nat × Nat × Nat)) : σ :=
  (foldStopB fn acc l).1

/-- The prefix of `l` up to and including the first element on which `f` is
false. -/
def stopAfterFalse (f : Nat × Nat × Nat → Bool) : List (Nat × Nat × Nat) →
    List (Nat × Nat × Nat)
  | [] => []
  | x :: xs => if f x then x :: stopAfterFalse f xs else [x]

theorem foldStopB_append (fn : σ → Nat → Nat → Nat → σ × Bool) (acc : σ)
    (l1 l2 : List (Nat × Nat × Nat)) :
    foldStopB fn acc (l1 ++ l2) =
      (if (foldStopB fn acc l1).2 then foldStopB fn (foldStopB fn acc l1).1 l2
       else foldStopB fn acc l1) := by
  induction l1 generalizing acc with
  | nil => simp [foldStopB]
  | cons x xs ih =>
    obtain ⟨e, n, p⟩ := x
    simp only [List.cons_append, foldStopB]
    by_cases h : (fn acc e n p).2 <;> simp [h, ih]

theorem dictChainLoop_eq_foldStopB (tr : Trie)
    (fn : σ → Nat → Nat → Nat → σ × Bool) (i : Nat) (acc : σ) (u : Nat)
    (fuel : Nat) :
    dictChainLoop tr fn i acc u fuel =
      foldStopB fn acc ((chainStates tr u fuel).map
        (fun v => (i, tr.dict.getD v 0, tr.pattern.getD v 0))) := by
  induction fuel generalizing acc u with
  | zero => simp [dictChainLoop, chainStates, foldStopB]
  | succ fuel ih =>
    by_cases hu : u = nilState
    · simp [dictChainLoop, chainStates, hu, foldStopB]
    · simp only [dictChainLoop, chainStates, hu, if_neg, List.map_cons,
        foldStopB]
      by_cases h : (fn acc i (tr.dict.getD u 0) (tr.pattern.getD u 0)).2 <;>
        simp [h, ih]

theorem chainStates_nilState (tr : Trie) (fuel : Nat) :
    chainStates tr nilState fuel = [] := by
  cases fuel <;> simp [chainStates]

theorem walkStateCalls_eq_foldStopB (tr : Trie)
    (fn : σ → Nat → Nat → Nat → σ × Bool) (i : Nat) (s : Nat) (acc : σ) :
    walkStateCalls tr fn i s acc = foldStopB fn acc (stateEmits tr i s) := by
  have hchain : ∀ a : σ,
      dictChainLoop tr fn i a (tr.dictLink.getD s 0) tr.dictLink.length =
        foldStopB fn a
          ((chainStates tr (tr.dictLink.getD s 0) tr.dictLink.length).map
            (fun v => (i, tr.dict.getD v 0, tr.pattern.getD v 0))) :=
    fun a => dictChainLoop_eq_foldStopB tr fn i a _ _
  unfold walkStateCalls stateEmits
  by_cases hd : tr.dict.getD s 0 = 0
  · by_cases hl : tr.dictLink.getD s 0 = nilState
    · rw [if_neg (by push_neg; exact ⟨hd, hl⟩), if_neg (not_not_intro hd),
        List.nil_append, hl, chainStates_nilState]
      rfl
    · rw [if_pos (Or.inr hl), if_neg (not_not_intro hd),
        if_neg (not_not_intro hd), List.nil_append]
      exact hchain acc
  · rw [if_pos (Or.inl hd), if_pos hd, if_pos hd, List.singleton_append]
    simp only [foldStopB]
    by_cases h : (fn acc i (tr.dict.getD s 0) (tr.pattern.getD s 0)).2
    · rw [if_pos h, if_pos h, hchain]
    · rw [if_neg h, if_neg h]

/-- Master lemma: the scan loop with any callback is the stop-truncated fold
of the pure emission list. -/
theorem walkLoop_eq_foldStop (tr : Trie)
    (fn : σ → Nat → Nat → Nat → σ × Bool) (input : List Nat) (i : Nat)
    (s : Nat) (acc : σ) :
    walkLoop tr fn input i s acc = foldStop fn acc (emitFrom tr input i s) := by
  induction input generalizing i s acc with
  | nil => simp [walkLoop, emitFrom, foldStop, foldStopB]
  | cons c rest ih =>
    simp only [walkLoop, emitFrom, foldStop, foldStopB_append,
      walkStateCalls_eq_foldStopB, ih]
    rw [apply_ite Prod.fst]

/-- `walk` with any callback and initial closure state. -/
theorem walk_eq_foldStop (tr : Trie) (input : List Nat)
    (fn : σ → Nat → Nat → Nat → σ × Bool) (acc : σ) :
    tr.walk input fn acc = foldStop fn acc (emitFrom tr input 0 rootState) :=
  walkLoop_eq_foldStop tr fn input 0 rootState acc

theorem emissions_eq_emitFrom (tr : Trie) (input : List Nat) :
    tr.emissions input = emitFrom tr input 0 rootState := by
  have h : ∀ (l : List (Nat × Nat × Nat)) (acc : List (Nat × Nat × Nat)),
      foldStop (fun acc e n p => (acc ++ [(e, n, p)], true)) acc l =
        acc ++ l := by
    intro l
    induction l with
    | nil => intro acc; simp [foldStop, foldStopB]
    | cons x xs ih =>
      intro acc
      obtain ⟨e, n, p⟩ := x
      simp [foldStop, foldStopB] at ih ⊢
      simpa using ih (acc ++ [(e, n, p)])
  simpa [Trie.emissions, Trie.walkTrace, walk_eq_foldStop] using
    h (emitFrom tr input 0 rootState) []

theorem walkTrace_eq_stopAfterFalse (tr : Trie) (input : List Nat)
    (f : Nat × Nat × Nat → Bool) :
    tr.walkTrace input f = stopAfterFalse f (tr.emissions input) := by
  have h : ∀ (l acc : List (Nat × Nat × Nat)),
      foldStop (fun acc e n p => (acc ++ [(e, n, p)], f (e, n, p))) acc l =
        acc ++ stopAfterFalse f l := by
    intro l
    induction l with
    | nil => intro acc; simp [foldStop, foldStopB, stopAfterFalse]
    | cons x xs ih =>
      intro acc
      obtain ⟨e, n, p⟩ := x
      by_cases hf : f (e, n, p)
      · simp [foldStop, foldStopB, stopAfterFalse, hf] at ih ⊢
        simpa using ih (acc ++ [(e, n, p)])
      · simp [foldStop, foldStopB, stopAfterFalse, hf]
  rw [emissions_eq_emitFrom]
  simpa [Trie.walkTrace, walk_eq_foldStop] using
    h (emitFrom tr input 0 rootState) []

/-- The `Match` value `Match`'s callback builds from one reported triple. -/
def tripleToMatch (input : List Nat) (t : Nat × Nat × Nat) : Match :=
  { pos := (t.1 : Int) - (t.2.1 : Int) + 1, pattern := t.2.2,
    matched := (input.drop (t.1 + 1 - t.2.1)).take t.2.1 }

/-- The `Match` value `MatchFirst`'s callback builds (no `pattern` field in
the composite literal, so it is the zero value 0). -/
def tripleToFirst (input : List Nat) (t : Nat × Nat × Nat) : Match :=
  { pos := (t.1 : Int) - (t.2.1 : Int) + 1, pattern := 0,
    matched := (input.drop (t.1 + 1 - t.2.1)).take t.2.1 }

theorem foldStop_always_true (g : Nat → Nat → Nat → β)
    (l : List (Nat × Nat × Nat)) (acc : List β) :
    foldStop (fun a e n p => (a ++ [g e n p], true)) acc l =
      acc ++ l.map (fun t => g t.1 t.2.1 t.2.2) := by
  induction l generalizing acc with
  | nil => simp [foldStop, foldStopB]
  | cons x xs ih =>
    obtain ⟨e, n, p⟩ := x
    simp only [foldStop, foldStopB, List.map_cons] at ih ⊢
    simp only [if_true]
    rw [ih (acc ++ [g e n p]), List.append_assoc, List.singleton_append]

theorem foldStop_first_only (g : Nat → Nat → Nat → β)
    (l : List (Nat × Nat × Nat)) :
    foldStop (fun _ e n p => (some (g e n p), false))
        (none : Option β) l = l.head?.map (fun t => g t.1 t.2.1 t.2.2) := by
  cases l with
  | nil => rfl
  | cons x xs => obtain ⟨e, n, p⟩ := x; rfl

theorem matchAll_eq_emissions (tr : Trie) (input : List Nat) :
    tr.matchAll input = (tr.emissions input).map (tripleToMatch input) := by
  rw [Trie.matchAll, walk_eq_foldStop, ← emissions_eq_emitFrom]
  exact foldStop_always_true
    (fun e n p => Match.mk ((e : Int) - (n : Int) + 1) p
      ((input.drop (e + 1 - n)).take n)) _ _

theorem matchFirst_eq_emissions (tr : Trie) (input : List Nat) :
    tr.matchFirst input =
      (tr.emissions input).head?.map (tripleToFirst input) := by
  rw [Trie.matchFirst, walk_eq_foldStop, ← emissions_eq_emitFrom]
  exact foldStop_first_only
    (fun e n _ => Match.mk ((e : Int) - (n : Int) + 1) 0
      ((input.drop (e + 1 - n)).take n)) _

/-! ### Codec roundtrip lemmas -/

theorem natLE_length (k n : Nat) : (natLE k n).length = k := by
  induction k generalizing n with
  | zero => rfl
  | succ k ih => simp [natLE, ih]

theorem fromLEBytes_natLE (k n : Nat) :
    fromLEBytes (natLE k n) = n % 256 ^ k := by
  induction k generalizing n with
  | zero => simp [natLE, fromLEBytes, Nat.mod_one]
  | succ k ih =>
    simp only [natLE, fromLEBytes, ih]
    rw [pow_succ', Nat.mod_mul]

theorem toLE8_length (n : Nat) : (toLE8 n).length = 8 := natLE_length 8 n

theorem readU64_toLE8 (n : Nat) (h : n < 2 ^ 64) (rest : List Nat) :
    readU64 (toLE8 n ++ rest) = some (n, rest) := by
  have hlen : (toLE8 n).length = 8 := toLE8_length n
  have h256 : (256 : Nat) ^ 8 = 2 ^ 64 := by norm_num
  rw [readU64, if_pos (by simp [hlen])]
  rw [← hlen, List.take_left, List.drop_left, toLE8, fromLEBytes_natLE,
    h256, Nat.mod_eq_of_lt h]

theorem readWords_wordsToBytes (ws : List Nat) (h : ∀ w ∈ ws, w < 2 ^ 64)
    (rest : List Nat) :
    readWords ws.length (wordsToBytes ws ++ rest) = some (ws, rest) := by
  induction ws with
  | nil => simp [readWords, wordsToBytes]
  | cons w ws ih =>
    have hw : w < 2 ^ 64 := h w (by simp)
    have hws : ∀ x ∈ ws, x < 2 ^ 64 := fun x hx => h x (by simp [hx])
    simp only [List.length_cons, readWords, wordsToBytes, List.foldr_cons,
      List.append_assoc]
    rw [readU64_toLE8 w hw]
    have hih := ih hws
    rw [wordsToBytes] at hih
    dsimp only
    rw [hih]

theorem wordsToBytes_append (l1 l2 : List Nat) :
    wordsToBytes (l1 ++ l2) = wordsToBytes l1 ++ wordsToBytes l2 := by
  induction l1 with
  | nil => simp [wordsToBytes]
  | cons w ws ih => simp [wordsToBytes, List.foldr_cons] at ih ⊢; simp [ih]

theorem foldr_rows_eq_wordsToBytes_flatten (rows : List (List Nat)) :
    rows.foldr (fun row acc => wordsToBytes row ++ acc) [] =
      wordsToBytes rows.flatten := by
  induction rows with
  | nil => simp [wordsToBytes]
  | cons r rows ih => simp [List.flatten, wordsToBytes_append, ih]

theorem flatten_length_of_rows (rows : List (List Nat))
    (h : ∀ r ∈ rows, r.length = 256) :
    rows.flatten.length = rows.length * 256 := by
  induction rows with
  | nil => simp
  | cons r rows ih =>
    have hr : r.length = 256 := h r (by simp)
    have := ih (fun x hx => h x (by simp [hx]))
    simp [List.flatten, hr, this, Nat.succ_mul, Nat.add_comm]

theorem reshape_flatten (rows : List (List Nat))
    (h : ∀ r ∈ rows, r.length = 256) :
    (List.range rows.length).map
        (fun i => (rows.flatten.drop (i * 256)).take 256) = rows := by
  induction rows with
  | nil => simp
  | cons r rows ih =>
    have hr : r.length = 256 := h r (by simp)
    have hrec := ih (fun x hx => h x (by simp [hx]))
    have h0 : ((r ++ rows.flatten).drop (0 * 256)).take 256 = r := by
      rw [Nat.zero_mul, List.drop_zero, ← hr, List.take_left]
    have hfun : ∀ i : Nat,
        ((r ++ rows.flatten).drop ((i + 1) * 256)).take 256 =
          (rows.flatten.drop (i * 256)).take 256 := by
      intro i
      have h1 : (i + 1) * 256 = r.length + i * 256 := by rw [hr]; ring
      rw [h1, List.drop_append]
    have hmap : (List.range rows.length).map
        ((fun i => ((r ++ rows.flatten).drop (i * 256)).take 256) ∘ Nat.succ) =
          rows := by
      refine Eq.trans (List.map_congr_left ?_) hrec
      intro i _
      simpa [Function.comp, Nat.succ_eq_add_one] using hfun i
    simp only [List.length_cons, List.range_succ_eq_map, List.map_cons,
      List.map_map, List.flatten]
    rw [show ((r ++ rows.flatten).drop (0 * 256)).take 256 = r from h0, hmap]

/-- The codec roundtrip at the payload level: decoding an encoded trie
succeeds and reproduces it exactly, provided the build-time arrays are
already absent (as `Build` leaves them) and every stored number fits the
64-bit wire width. -/
theorem decodeTrie_encodeTrie (tr : Trie)
    (hrows : ∀ r ∈ tr.failTrans, r.length = 256)
    (hftv : ∀ r ∈ tr.failTrans, ∀ w ∈ r, w < 2 ^ 64)
    (hdv : ∀ w ∈ tr.dict, w < 2 ^ 64)
    (hdlv : ∀ w ∈ tr.dictLink, w < 2 ^ 64)
    (hpv : ∀ w ∈ tr.pattern, w < 2 ^ 64)
    (hl1 : tr.dict.length < 2 ^ 64) (hl2 : tr.failTrans.length < 2 ^ 64)
    (hl3 : tr.dictLink.length < 2 ^ 64) (hl4 : tr.pattern.length < 2 ^ 64)
    (htr : tr.trans = []) (hfl : tr.failLink = []) :
    decodeTrie (encodeTrie tr) = some tr := by
  have hflat : ∀ w ∈ tr.failTrans.flatten, w < 2 ^ 64 := by
    intro w hw
    obtain ⟨r, hr, hwr⟩ := List.mem_flatten.mp hw
    exact hftv r hr w hwr
  have hflen : tr.failTrans.flatten.length = tr.failTrans.length * 256 :=
    flatten_length_of_rows tr.failTrans hrows
  rw [encodeTrie, foldr_rows_eq_wordsToBytes_flatten]
  rw [decodeTrie]
  rw [List.append_assoc, List.append_assoc, List.append_assoc,
    List.append_assoc, List.append_assoc, List.append_assoc]
  rw [readU64_toLE8 _ hl1]
  dsimp only
  rw [readU64_toLE8 _ hl2]
  dsimp only
  rw [readU64_toLE8 _ hl3]
  dsimp only
  rw [readU64_toLE8 _ hl4]
  dsimp only
  rw [readWords_wordsToBytes _ hdv]
  dsimp only
  rw [show tr.failTrans.length * 256 = tr.failTrans.flatten.length from
    hflen.symm]
  rw [readWords_wordsToBytes _ hflat]
  dsimp only
  rw [readWords_wordsToBytes _ hdlv]
  dsimp only
  have hlast : readWords tr.pattern.length (wordsToBytes tr.pattern) =
      some (tr.pattern, []) := by
    have := readWords_wordsToBytes tr.pattern hpv []
    simpa using this
  rw [hlast]
  dsimp only
  rw [reshape_flatten tr.failTrans hrows]
  cases tr with
  | mk ft t fl dl d p =>
    simp only at htr hfl ⊢
    rw [htr, hfl]

/-! ### Shape facts about the link passes and `build` -/

theorem modifyState_length (tb : TrieBuilder) (i : Nat)
    (f : BState → BState) :
    (tb.modifyState i f).states.length = tb.states.length := by
  simp [TrieBuilder.modifyState]

theorem failStep_foldl_length (s : Nat) (l : List (Nat × Nat)) :
    ∀ p : TrieBuilder × List Nat,
      (l.foldl (failStep s) p).1.states.length = p.1.states.length := by
  induction l with
  | nil => intro p; rfl
  | cons x xs ih =>
    intro p
    obtain ⟨tb, q⟩ := p
    obtain ⟨c, t⟩ := x
    rw [List.foldl_cons, ih]
    simp [failStep, modifyState_length]

theorem failLoop_length : ∀ (fuel : Nat) (tb : TrieBuilder)
    (queue : List Nat),
    (failLoop tb queue fuel).states.length = tb.states.length := by
  intro fuel
  induction fuel with
  | zero => intro tb queue; cases queue <;> rfl
  | succ fuel ih =>
    intro tb queue
    cases queue with
    | nil => rfl
    | cons s rest =>
      rw [failLoop, ih]
      exact failStep_foldl_length s _ _

theorem computeFailLinks_length (tb : TrieBuilder) :
    tb.computeFailLinks.states.length = tb.states.length :=
  failLoop_length tb.states.length tb [rootState]

theorem dictLoop_length : ∀ (l : List Nat) (tb : TrieBuilder),
    (dictLoop tb l).states.length = tb.states.length := by
  intro l
  induction l with
  | nil => intro tb; rfl
  | cons i rest ih =>
    intro tb
    by_cases hi : i = rootState
    · rw [dictLoop, if_pos hi]; exact ih tb
    · rw [dictLoop, if_neg hi, ih]; exact modifyState_length tb i _

theorem computeDictLinks_length (tb : TrieBuilder) :
    tb.computeDictLinks.states.length = tb.states.length :=
  dictLoop_length _ tb

theorem build_dict_length (tb : TrieBuilder) :
    tb.build.dict.length = tb.states.length := by
  simp [TrieBuilder.build, computeDictLinks_length, computeFailLinks_length]

theorem build_pattern_length (tb : TrieBuilder) :
    tb.build.pattern.length = tb.states.length := by
  simp [TrieBuilder.build, computeDictLinks_length, computeFailLinks_length]

theorem build_dictLink_length (tb : TrieBuilder) :
    tb.build.dictLink.length = tb.states.length := by
  simp [TrieBuilder.build, computeDictLinks_length, computeFailLinks_length]

theorem build_failTrans_length (tb : TrieBuilder) :
    tb.build.failTrans.length = tb.states.length := by
  simp [TrieBuilder.build, computeDictLinks_length, computeFailLinks_length]

theorem build_failTrans_rows (tb : TrieBuilder) :
    ∀ r ∈ tb.build.failTrans, r.length = 256 := by
  intro r hr
  simp only [TrieBuilder.build, List.mem_map] at hr
  obtain ⟨i, _, rfl⟩ := hr
  simp

/-! ### Claim theorems: C3, C6, C8 and the C2 divergence -/

/-- C3: for every compiled automaton, `Decode(Encode(a))` succeeds and
yields an automaton whose `Match` results are identical to `a`'s for every
input, even though the on-wire layout omits the build-time-only arrays (the
sparse trie transitions and the raw failure links — `Build` already
discards them, and the decoded trie leaves them empty as well).  The bounds
say every stored count fits the 64-bit wire width, which holds for any
automaton a Go program can build. -/
theorem claim_C3_roundtrip (tb : TrieBuilder)
    (hftv : ∀ r ∈ tb.build.failTrans, ∀ w ∈ r, w < 2 ^ 64)
    (hdv : ∀ w ∈ tb.build.dict, w < 2 ^ 64)
    (hdlv : ∀ w ∈ tb.build.dictLink, w < 2 ^ 64)
    (hpv : ∀ w ∈ tb.build.pattern, w < 2 ^ 64)
    (hst : tb.states.length < 2 ^ 64) :
    ∃ tr2 : Trie, decodeTrie (encodeTrie tb.build) = some tr2 ∧
      ∀ input : List Nat, tr2.matchAll input = tb.build.matchAll input := by
  refine ⟨tb.build, ?_, fun _ => rfl⟩
  refine decodeTrie_encodeTrie tb.build (build_failTrans_rows tb) hftv hdv
    hdlv hpv ?_ ?_ ?_ ?_ rfl rfl
  · rw [build_dict_length]; exact hst
  · rw [build_failTrans_length]; exact hst
  · rw [build_dictLink_length]; exact hst
  · rw [build_pattern_length]; exact hst

/-- Witness for C3 at the automaton built from the single pattern [1]. -/
theorem claim_C3_roundtrip_witness :
    ∃ tr2 : Trie, decodeTrie (encodeTrie (builderOf [[1]]).build) = some tr2 ∧
      ∀ input : List Nat,
        tr2.matchAll input = (builderOf [[1]]).build.matchAll input :=
  claim_C3_roundtrip (builderOf [[1]]) (by decide) (by decide) (by decide)
    (by decide) (by decide)

/-- C6: if the callback returns false for some reported match, the walk
terminates immediately — with any callback (closure state `σ`) the result
is the fold of the emission list that stops at the first false, and the
sequence of callback invocations actually made is the emission sequence
truncated at (and including) the first refused match, so no later position
and no remaining dictionary-link match at the same position is reported. -/
theorem claim_C6_early_stop (tr : Trie) (input : List Nat) :
    (∀ {σ : Type} (fn : σ → Nat → Nat → Nat → σ × Bool) (acc : σ),
       tr.walk input fn acc = foldStop fn acc (tr.emissions input)) ∧
    (∀ f : Nat × Nat × Nat → Bool,
       tr.walkTrace input f = stopAfterFalse f (tr.emissions input)) :=
  ⟨fun fn acc => by
      rw [walk_eq_foldStop, emissions_eq_emitFrom],
   fun f => walkTrace_eq_stopAfterFalse tr input f⟩

theorem emitFrom_eq_nil (tr : Trie)
    (hd : ∀ s, tr.dict.getD s 0 = 0)
    (hl : ∀ s, tr.dictLink.getD s 0 = 0) :
    ∀ (input : List Nat) (i : Nat) (s : Nat),
      emitFrom tr input i s = [] := by
  intro input
  induction input with
  | nil => intro i s; rfl
  | cons c rest ih =>
    intro i s
    rw [emitFrom]
    have hse : ∀ j u, stateEmits tr j u = [] := by
      intro j u
      rw [stateEmits, hd u, hl u]
      have h0 : chainStates tr 0 tr.dictLink.length = [] :=
        chainStates_nilState tr _
      rw [h0]
      simp
    rw [hse, ih]
    rfl

/-- C8: matching is total and error-free in the degenerate cases — an
automaton built from zero patterns reports no matches on any input, and an
empty input reports no matches for any pattern set. -/
theorem claim_C8_degenerate :
    (∀ input : List Nat, (newTrieBuilder.build).matchAll input = []) ∧
    (∀ pats : List (List Nat), ((builderOf pats).build).matchAll [] = []) := by
  constructor
  · intro input
    have hzero : ∀ (s : Nat), ([0, 0] : List Nat).getD s 0 = 0 := by
      intro s; rcases s with _ | _ | s <;> simp [List.getD]
    have hd : ∀ s, (newTrieBuilder.build).dict.getD s 0 = 0 := by
      intro s
      rw [show (newTrieBuilder.build).dict = [0, 0] from rfl]
      exact hzero s
    have hl : ∀ s, (newTrieBuilder.build).dictLink.getD s 0 = 0 := by
      intro s
      rw [show (newTrieBuilder.build).dictLink = [0, 0] from rfl]
      exact hzero s
    rw [matchAll_eq_emissions, emissions_eq_emitFrom,
      emitFrom_eq_nil _ hd hl]
    rfl
  · intro pats
    rfl

/-- C2 (divergence witness): at patterns [1] (index 0) and [2] (index 1)
and input [2], the first element of `Match` carries pattern index 1, but
`MatchFirst` returns a `Match` whose `pattern` field is 0 — the composite
literal in `MatchFirst` never assigns it, so the claimed equality of
(start, patternIndex) with `Match`'s first element fails. -/
theorem claim_C2_matchFirst_bug :
    ((builderOf [[1], [2]]).build.matchAll [2]).map
        (fun m => (m.pos, m.pattern)) = [((0 : Int), 1)] ∧
    (builderOf [[1], [2]]).build.matchFirst [2] =
      some { pos := 0, pattern := 0, matched := [2] } := by
  decide

/-! ### Primitive arena-access lemmas -/

theorem state_modify_self (tb : TrieBuilder) (i : Nat)
    (f : BState → BState) (hi : i < tb.states.length) :
    (tb.modifyState i f).state i = f (tb.state i) := by
  unfold TrieBuilder.modifyState TrieBuilder.state
  rw [List.getD_eq_getElem?_getD, List.getElem?_set_self hi]
  rfl

theorem state_modify_ne (tb : TrieBuilder) (i j : Nat)
    (f : BState → BState) (h : i ≠ j) :
    (tb.modifyState i f).state j = tb.state j := by
  unfold TrieBuilder.modifyState TrieBuilder.state
  rw [List.getD_eq_getElem?_getD, List.getElem?_set_ne h,
    ← List.getD_eq_getElem?_getD]

theorem modify_numPatterns (tb : TrieBuilder) (i : Nat)
    (f : BState → BState) :
    (tb.modifyState i f).numPatterns = tb.numPatterns := rfl

theorem addState_fst_state_lt (tb : TrieBuilder) (v : Nat)
    (pr : Option Nat) (i : Nat) (hi : i < tb.states.length) :
    (tb.addState v pr).1.state i = tb.state i := by
  unfold TrieBuilder.addState TrieBuilder.state
  exact List.getD_append _ _ _ _ hi

theorem addState_fst_state_new (tb : TrieBuilder) (v : Nat)
    (pr : Option Nat) :
    (tb.addState v pr).1.state tb.states.length = BState.mk0 v pr := by
  unfold TrieBuilder.addState TrieBuilder.state
  rw [List.getD_eq_getElem?_getD, List.getElem?_concat_length]
  rfl

theorem addState_fst_length (tb : TrieBuilder) (v : Nat)
    (pr : Option Nat) :
    (tb.addState v pr).1.states.length = tb.states.length + 1 := by
  simp [TrieBuilder.addState]

theorem addState_snd (tb : TrieBuilder) (v : Nat) (pr : Option Nat) :
    (tb.addState v pr).2 = tb.states.length := rfl

theorem state_of_ge (tb : TrieBuilder) (i : Nat)
    (hi : tb.states.length ≤ i) : tb.state i = BState.mk0 0 none :=
  List.getD_eq_default _ _ hi

/-! ### Association-list lookup lemmas -/

theorem lookup_append_some {l1 l2 : List (Nat × Nat)} {c : Nat}
    {t : Nat} (h : l1.lookup c = some t) :
    (l1 ++ l2).lookup c = some t := by
  induction l1 with
  | nil => simp [List.lookup] at h
  | cons x xs ih =>
    obtain ⟨k, v⟩ := x
    by_cases hk : c = k
    · simp [List.lookup, hk] at h ⊢; exact h
    · simp only [List.lookup, List.cons_append] at h ⊢
      rw [show (c == k) = false from by simp [hk]] at h ⊢
      exact ih h

theorem lookup_append_none {l1 l2 : List (Nat × Nat)} {c : Nat}
    (h : l1.lookup c = none) : (l1 ++ l2).lookup c = l2.lookup c := by
  induction l1 with
  | nil => simp
  | cons x xs ih =>
    obtain ⟨k, v⟩ := x
    by_cases hk : c = k
    · simp [List.lookup, hk] at h
    · simp only [List.lookup, List.cons_append] at h ⊢
      rw [show (c == k) = false from by simp [hk]] at h ⊢
      exact ih h

theorem lookup_none_not_key {l : List (Nat × Nat)} {c : Nat}
    (h : l.lookup c = none) : c ∉ l.map Prod.fst := by
  induction l with
  | nil => simp
  | cons x xs ih =>
    obtain ⟨k, v⟩ := x
    by_cases hk : c = k
    · simp [List.lookup, hk] at h
    · simp only [List.lookup] at h
      rw [show (c == k) = false from by simp [hk]] at h
      simpa [hk] using ih h

theorem lookup_mem {l : List (Nat × Nat)} {c : Nat} {t : Nat}
    (h : l.lookup c = some t) : (c, t) ∈ l := by
  induction l with
  | nil => simp [List.lookup] at h
  | cons x xs ih =>
    obtain ⟨k, v⟩ := x
    by_cases hk : c = k
    · simp [List.lookup, hk] at h
      simp [hk, h]
    · simp only [List.lookup] at h
      rw [show (c == k) = false from by simp [hk]] at h
      simp [ih h]

theorem mem_lookup_of_nodup {l : List (Nat × Nat)} {c : Nat}
    {t : Nat} (hn : (l.map Prod.fst).Nodup) (h : (c, t) ∈ l) :
    l.lookup c = some t := by
  induction l with
  | nil => simp at h
  | cons x xs ih =>
    obtain ⟨k, v⟩ := x
    simp only [List.map_cons, List.nodup_cons] at hn
    rcases List.mem_cons.mp h with heq | hmem
    · cases heq
      simp [List.lookup]
    · by_cases hk : c = k
      · exact absurd (hk ▸ (List.mem_map.mpr ⟨(c, t), hmem, rfl⟩)) hn.1
      · simp only [List.lookup]
        rw [show (c == k) = false from by simp [hk]]
        exact ih hn.2 hmem

/-! ### Builder well-formedness

Structural invariants of the arena established by construction and
untouched by the link passes (which only write `failLink` / `dictLink`). -/

structure WF (tb : TrieBuilder) : Prop where
  len2 : 2 ≤ tb.states.length
  state0_trans : (tb.state 0).trans = []
  state0_dict : (tb.state 0).dict = 0
  root_parent : (tb.state 1).parent = none
  root_dict : (tb.state 1).dict = 0
  keys_nodup : ∀ i, (((tb.state i).trans).map Prod.fst).Nodup
  edge_lo : ∀ i c t, ((tb.state i).trans).lookup c = some t → 2 ≤ t
  edge_hi : ∀ i c t, ((tb.state i).trans).lookup c = some t →
    t < tb.states.length
  edge_mono : ∀ i c t, ((tb.state i).trans).lookup c = some t → i < t
  edge_parent : ∀ i c t, ((tb.state i).trans).lookup c = some t →
    (tb.state t).parent = some i
  edge_value : ∀ i c t, ((tb.state i).trans).lookup c = some t →
    (tb.state t).value = c
  parent_edge : ∀ t, 2 ≤ t → t < tb.states.length →
    ∃ p, (tb.state t).parent = some p ∧ p < t ∧ p ≠ 0 ∧
      ((tb.state p).trans).lookup (tb.state t).value = some t

theorem newTrieBuilder_state_ge (i : Nat) :
    newTrieBuilder.state (i + 2) = BState.mk0 0 none :=
  state_of_ge _ _ (by simp [newTrieBuilder])

theorem newTrieBuilder_trans (i : Nat) :
    (newTrieBuilder.state i).trans = [] := by
  rcases i with _ | _ | i
  · rfl
  · rfl
  · rw [newTrieBuilder_state_ge]; rfl

theorem WF_new : WF newTrieBuilder := by
  have htr := newTrieBuilder_trans
  refine ⟨by simp [newTrieBuilder], rfl, rfl, rfl, rfl, ?_, ?_, ?_, ?_, ?_, ?_, ?_⟩
  · intro i; rw [htr i]; simp
  · intro i c t h; rw [htr i] at h; simp [List.lookup] at h
  · intro i c t h; rw [htr i] at h; simp [List.lookup] at h
  · intro i c t h; rw [htr i] at h; simp [List.lookup] at h
  · intro i c t h; rw [htr i] at h; simp [List.lookup] at h
  · intro i c t h; rw [htr i] at h; simp [List.lookup] at h
  · intro t h2 hlt
    simp [newTrieBuilder] at hlt
    omega

/-! ### The node-creating step of `addPatternLoop` -/

/-- The `none` branch of `addPatternLoop`: create a fresh child of `s` via
byte `c` and register the edge. -/
def extendStep (tb : TrieBuilder) (s : Nat) (c : Nat) : TrieBuilder :=
  (tb.addState c (some s)).1.modifyState s
    (fun st => { st with trans := st.trans ++ [(c, (tb.addState c (some s)).2)] })

theorem addPatternLoop_cons_some {tb : TrieBuilder} {s : Nat} {c : Nat}
    {t : Nat} (rest : List Nat)
    (h : ((tb.state s).trans).lookup c = some t) :
    addPatternLoop tb s (c :: rest) = addPatternLoop tb t rest := by
  rw [addPatternLoop, h]

theorem addPatternLoop_cons_none {tb : TrieBuilder} {s : Nat} {c : Nat}
    (rest : List Nat) (h : ((tb.state s).trans).lookup c = none) :
    addPatternLoop tb s (c :: rest) =
      addPatternLoop (extendStep tb s c) tb.states.length rest := by
  rw [addPatternLoop, h]
  rfl

theorem extendStep_length (tb : TrieBuilder) (s : Nat) (c : Nat) :
    (extendStep tb s c).states.length = tb.states.length + 1 := by
  simp [extendStep, modifyState_length, addState_fst_length]

theorem extendStep_numPatterns (tb : TrieBuilder) (s : Nat) (c : Nat) :
    (extendStep tb s c).numPatterns = tb.numPatterns := rfl

theorem extendStep_state_s (tb : TrieBuilder) (s : Nat) (c : Nat)
    (hslen : s < tb.states.length) :
    (extendStep tb s c).state s =
      { tb.state s with
        trans := (tb.state s).trans ++ [(c, tb.states.length)] } := by
  unfold extendStep
  rw [state_modify_self _ s _
      (show s < (tb.addState c (some s)).1.states.length by
        rw [addState_fst_length]; omega),
    addState_fst_state_lt _ _ _ _ hslen]
  rfl

theorem extendStep_state_new (tb : TrieBuilder) (s : Nat) (c : Nat)
    (hslen : s < tb.states.length) :
    (extendStep tb s c).state tb.states.length = BState.mk0 c (some s) := by
  unfold extendStep
  rw [state_modify_ne _ s tb.states.length _ (show s ≠ tb.states.length by omega),
    addState_fst_state_new]

theorem extendStep_state_other (tb : TrieBuilder) (s : Nat) (c : Nat)
    (j : Nat) (hjs : j ≠ s) (hjn : j ≠ tb.states.length) :
    (extendStep tb s c).state j = tb.state j := by
  by_cases hj : j < tb.states.length
  · unfold extendStep
    rw [state_modify_ne _ _ _ _ (Ne.symm hjs), addState_fst_state_lt _ _ _ _ hj]
  · have h1 : tb.states.length ≤ j := by omega
    have h2 : (extendStep tb s c).states.length ≤ j := by
      rw [extendStep_length]; omega
    rw [state_of_ge _ _ h2, state_of_ge _ _ h1]

theorem extendStep_lookup_s (tb : TrieBuilder) (s : Nat) (c : Nat)
    (hslen : s < tb.states.length)
    (hlook : ((tb.state s).trans).lookup c = none) (c' : Nat) :
    (((extendStep tb s c).state s).trans).lookup c' =
      if c' = c then some tb.states.length
      else ((tb.state s).trans).lookup c' := by
  rw [extendStep_state_s _ _ _ hslen]
  by_cases hc : c' = c
  · subst hc
    rw [if_pos rfl, lookup_append_none hlook]
    simp [List.lookup]
  · rw [if_neg hc]
    cases ho : ((tb.state s).trans).lookup c' with
    | some t => exact lookup_append_some ho
    | none =>
      rw [lookup_append_none ho]
      simp only [List.lookup]
      rw [show (c' == c) = false from by simp [hc]]

/-- Every lookup in the extended builder: either an old edge, or the new
edge `(s, c) → n`. -/
theorem extendStep_lookup_cases (tb : TrieBuilder) (s : Nat) (c : Nat)
    (hslen : s < tb.states.length)
    (hlook : ((tb.state s).trans).lookup c = none)
    {i c' t : Nat}
    (h : (((extendStep tb s c).state i).trans).lookup c' = some t) :
    ((tb.state i).trans).lookup c' = some t ∨
      (i = s ∧ c' = c ∧ t = tb.states.length) := by
  by_cases his : i = s
  · subst his
    rw [extendStep_lookup_s _ _ _ hslen hlook] at h
    by_cases hc : c' = c
    · right
      rw [if_pos hc] at h
      exact ⟨rfl, hc, (Option.some_inj.mp h).symm⟩
    · left
      rw [if_neg hc] at h
      exact h
  · by_cases hin : i = tb.states.length
    · subst hin
      rw [extendStep_state_new _ _ _ hslen] at h
      simp [BState.mk0, List.lookup] at h
    · left
      rw [extendStep_state_other _ _ _ _ his hin] at h
      exact h

theorem extendStep_WF (tb : TrieBuilder) (s : Nat) (c : Nat)
    (h : WF tb) (hs0 : s ≠ 0) (hslen : s < tb.states.length)
    (hlook : ((tb.state s).trans).lookup c = none) :
    WF (extendStep tb s c) := by
  have hlen2 := h.len2
  have hn2 : 2 ≤ tb.states.length := hlen2
  constructor
  case len2 => rw [extendStep_length]; omega
  case state0_trans =>
    rw [extendStep_state_other _ _ _ 0 (Ne.symm hs0)
      (show (0 : Nat) ≠ tb.states.length by omega)]
    exact h.state0_trans
  case state0_dict =>
    rw [extendStep_state_other _ _ _ 0 (Ne.symm hs0)
      (show (0 : Nat) ≠ tb.states.length by omega)]
    exact h.state0_dict
  case root_parent =>
    by_cases hs1 : s = 1
    · subst hs1
      rw [extendStep_state_s _ _ _ hslen]
      exact h.root_parent
    · rw [extendStep_state_other _ _ _ 1 (Ne.symm hs1)
        (show (1 : Nat) ≠ tb.states.length by omega)]
      exact h.root_parent
  case root_dict =>
    by_cases hs1 : s = 1
    · subst hs1
      rw [extendStep_state_s _ _ _ hslen]
      exact h.root_dict
    · rw [extendStep_state_other _ _ _ 1 (Ne.symm hs1)
        (show (1 : Nat) ≠ tb.states.length by omega)]
      exact h.root_dict
  case keys_nodup =>
    intro i
    by_cases his : i = s
    · subst his
      rw [extendStep_state_s _ _ _ hslen]
      simp only [List.map_append, List.map_cons, List.map_nil]
      rw [List.nodup_append]
      refine ⟨h.keys_nodup i, List.nodup_singleton _, ?_⟩
      intro a ha hb
      simp at hb
      subst hb
      exact lookup_none_not_key hlook ha
    · by_cases hin : i = tb.states.length
      · subst hin
        rw [extendStep_state_new _ _ _ hslen]
        simp [BState.mk0]
      · rw [extendStep_state_other _ _ _ _ his hin]
        exact h.keys_nodup i
  case edge_lo =>
    intro i c' t hl
    rcases extendStep_lookup_cases tb s c hslen hlook hl with hold | ⟨_, _, ht⟩
    · exact h.edge_lo i c' t hold
    · omega
  case edge_hi =>
    intro i c' t hl
    rw [extendStep_length]
    rcases extendStep_lookup_cases tb s c hslen hlook hl with hold | ⟨_, _, ht⟩
    · have := h.edge_hi i c' t hold; omega
    · omega
  case edge_mono =>
    intro i c' t hl
    rcases extendStep_lookup_cases tb s c hslen hlook hl with hold | ⟨hi, _, ht⟩
    · exact h.edge_mono i c' t hold
    · subst hi; omega
  case edge_parent =>
    intro i c' t hl
    rcases extendStep_lookup_cases tb s c hslen hlook hl with hold | ⟨hi, hc, ht⟩
    · have hp := h.edge_parent i c' t hold
      have ht2 := h.edge_lo i c' t hold
      have ht3 := h.edge_hi i c' t hold
      have hmono := h.edge_mono i c' t hold
      by_cases hts : t = s
      · subst hts
        rw [extendStep_state_s _ _ _ hslen]
        exact hp
      · rw [extendStep_state_other _ _ _ _ hts (by omega)]
        exact hp
    · subst hi; subst hc; subst ht
      rw [extendStep_state_new _ _ _ hslen]
      rfl
  case edge_value =>
    intro i c' t hl
    rcases extendStep_lookup_cases tb s c hslen hlook hl with hold | ⟨hi, hc, ht⟩
    · have hv := h.edge_value i c' t hold
      have ht3 := h.edge_hi i c' t hold
      by_cases hts : t = s
      · subst hts
        rw [extendStep_state_s _ _ _ hslen]
        exact hv
      · rw [extendStep_state_other _ _ _ _ hts (by omega)]
        exact hv
    · subst hi; subst hc; subst ht
      rw [extendStep_state_new _ _ _ hslen]
      rfl
  case parent_edge =>
    intro t h2 hlt
    rw [extendStep_length] at hlt
    by_cases htn : t = tb.states.length
    · subst htn
      refine ⟨s, ?_, hslen, hs0, ?_⟩
      · rw [extendStep_state_new _ _ _ hslen]; rfl
      · rw [extendStep_state_new _ _ _ hslen]
        rw [show (BState.mk0 c (some s)).value = c from rfl]
        rw [extendStep_lookup_s _ _ _ hslen hlook, if_pos rfl]
    · have htl : t < tb.states.length := by omega
      obtain ⟨p, hpar, hplt, hp0, hpl⟩ := h.parent_edge t h2 htl
      have hval : ((extendStep tb s c).state t).value = (tb.state t).value := by
        by_cases hts : t = s
        · subst hts; rw [extendStep_state_s _ _ _ hslen]
        · rw [extendStep_state_other _ _ _ _ hts htn]
      have hpar2 : ((extendStep tb s c).state t).parent = some p := by
        by_cases hts : t = s
        · subst hts; rw [extendStep_state_s _ _ _ hslen]; exact hpar
        · rw [extendStep_state_other _ _ _ _ hts htn]; exact hpar
      refine ⟨p, hpar2, hplt, hp0, ?_⟩
      rw [hval]
      by_cases hps : p = s
      · subst hps
        rw [extendStep_lookup_s _ _ _ hslen hlook]
        have : (tb.state t).value ≠ c := by
          intro he
          rw [he] at hpl
          rw [hpl] at hlook
          exact Option.noConfusion hlook
        rw [if_neg this]
        exact hpl
      · rw [extendStep_state_other _ _ _ _ hps (by omega)]
        exact hpl

theorem state_modify_cases (tb : TrieBuilder) (i : Nat) (f : BState → BState)
    (j : Nat) :
    (tb.modifyState i f).state j =
      if i = j ∧ i < tb.states.length then f (tb.state i) else tb.state j := by
  by_cases h1 : i = j
  · subst h1
    by_cases h2 : i < tb.states.length
    · rw [state_modify_self _ _ _ h2, if_pos ⟨rfl, h2⟩]
    · rw [if_neg (by tauto)]
      unfold TrieBuilder.modifyState TrieBuilder.state
      rw [List.getD_eq_getElem?_getD, List.getElem?_set]
      simp only [if_pos rfl, if_neg h2]
      rw [List.getD_eq_default _ _ (show tb.states.length ≤ i by omega)]
      rfl
  · rw [if_neg (by tauto), state_modify_ne _ _ _ _ h1]

/-- `WF` only constrains `states`; any builder with the same arena is as
well-formed. -/
theorem WF_of_states_eq {tb tb' : TrieBuilder} (h : tb.states = tb'.states)
    (hw : WF tb) : WF tb' := by
  have hs : ∀ j, tb'.state j = tb.state j := by
    intro j; unfold TrieBuilder.state; rw [h]
  have hl : tb'.states.length = tb.states.length := by rw [h]
  refine ⟨?_, ?_, ?_, ?_, ?_, ?_, ?_, ?_, ?_, ?_, ?_, ?_⟩
  · rw [hl]; exact hw.len2
  · rw [hs]; exact hw.state0_trans
  · rw [hs]; exact hw.state0_dict
  · rw [hs]; exact hw.root_parent
  · rw [hs]; exact hw.root_dict
  · intro i; rw [hs]; exact hw.keys_nodup i
  · intro i c t hlk; rw [hs] at hlk; exact hw.edge_lo i c t hlk
  · intro i c t hlk; rw [hs] at hlk; rw [hl]; exact hw.edge_hi i c t hlk
  · intro i c t hlk; rw [hs] at hlk; exact hw.edge_mono i c t hlk
  · intro i c t hlk; rw [hs] at hlk; rw [hs]; exact hw.edge_parent i c t hlk
  · intro i c t hlk; rw [hs] at hlk; rw [hs]; exact hw.edge_value i c t hlk
  · intro t h2 hlt
    rw [hl] at hlt
    obtain ⟨p, hp⟩ := hw.parent_edge t h2 hlt
    exact ⟨p, by rw [hs]; exact hp.1, hp.2.1, hp.2.2.1, by
      rw [hs, hs]; exact hp.2.2.2⟩

/-- `WF` is preserved by any per-state update that does not touch the
`trans`, `parent` or `value` fields (nor state 0). -/
theorem WF_modify (tb : TrieBuilder) (i : Nat) (f : BState → BState)
    (h : WF tb) (hi0 : i ≠ 0)
    (htr : ∀ st, (f st).trans = st.trans)
    (hpar : ∀ st, (f st).parent = st.parent)
    (hval : ∀ st, (f st).value = st.value)
    (hrd : i = 1 → (f (tb.state 1)).dict = 0) :
    WF (tb.modifyState i f) := by
  have hT : ∀ j, ((tb.modifyState i f).state j).trans = (tb.state j).trans := by
    intro j
    rw [state_modify_cases]
    by_cases hc : i = j ∧ i < tb.states.length
    · rw [if_pos hc, htr, hc.1]
    · rw [if_neg hc]
  have hP : ∀ j, ((tb.modifyState i f).state j).parent =
      (tb.state j).parent := by
    intro j
    rw [state_modify_cases]
    by_cases hc : i = j ∧ i < tb.states.length
    · rw [if_pos hc, hpar, hc.1]
    · rw [if_neg hc]
  have hV : ∀ j, ((tb.modifyState i f).state j).value = (tb.state j).value := by
    intro j
    rw [state_modify_cases]
    by_cases hc : i = j ∧ i < tb.states.length
    · rw [if_pos hc, hval, hc.1]
    · rw [if_neg hc]
  have hL : (tb.modifyState i f).states.length = tb.states.length :=
    modifyState_length tb i f
  refine ⟨?_, ?_, ?_, ?_, ?_, ?_, ?_, ?_, ?_, ?_, ?_, ?_⟩
  · rw [hL]; exact h.len2
  · rw [state_modify_ne _ _ _ _ hi0]; exact h.state0_trans
  · rw [state_modify_ne _ _ _ _ hi0]; exact h.state0_dict
  · rw [hP]; exact h.root_parent
  · rw [state_modify_cases]
    by_cases hc : i = 1 ∧ i < tb.states.length
    · rw [if_pos hc, hc.1]
      exact hrd hc.1
    · rw [if_neg hc]; exact h.root_dict
  · intro j; rw [hT]; exact h.keys_nodup j
  · intro j c t hlk; rw [hT] at hlk; exact h.edge_lo j c t hlk
  · intro j c t hlk; rw [hT] at hlk; rw [hL]; exact h.edge_hi j c t hlk
  · intro j c t hlk; rw [hT] at hlk; exact h.edge_mono j c t hlk
  · intro j c t hlk; rw [hT] at hlk; rw [hP]; exact h.edge_parent j c t hlk
  · intro j c t hlk; rw [hT] at hlk; rw [hV]; exact h.edge_value j c t hlk
  · intro t h2 hlt
    rw [hL] at hlt
    obtain ⟨p, hp1, hp2, hp3, hp4⟩ := h.parent_edge t h2 hlt
    exact ⟨p, by rw [hP]; exact hp1, hp2, hp3, by rw [hT, hV]; exact hp4⟩

theorem addPatternLoop_wf : ∀ (pat : List Nat) (tb : TrieBuilder) (s : Nat),
    WF tb → s ≠ 0 → s < tb.states.length →
    WF (addPatternLoop tb s pat).1 ∧
    (addPatternLoop tb s pat).2 ≠ 0 ∧
    (addPatternLoop tb s pat).2 < (addPatternLoop tb s pat).1.states.length ∧
    tb.states.length ≤ (addPatternLoop tb s pat).1.states.length ∧
    (addPatternLoop tb s pat).1.numPatterns = tb.numPatterns ∧
    (pat = [] ∨ 2 ≤ (addPatternLoop tb s pat).2) := by
  intro pat
  induction pat with
  | nil =>
    intro tb s h hs0 hslen
    exact ⟨h, hs0, hslen, le_rfl, rfl, Or.inl rfl⟩
  | cons c rest ih =>
    intro tb s h hs0 hslen
    have hterm : ∀ (tb' : TrieBuilder) (s' : Nat), 2 ≤ s' →
        (rest = [] ∨ 2 ≤ (addPatternLoop tb' s' rest).2) →
        2 ≤ (addPatternLoop tb' s' rest).2 := by
      intro tb' s' h2 hd
      rcases hd with hnil | hge
      · subst hnil; exact h2
      · exact hge
    cases hl : ((tb.state s).trans).lookup c with
    | some t =>
      rw [addPatternLoop_cons_some rest hl]
      have h2t : 2 ≤ t := h.edge_lo s c t hl
      have hrec := ih tb t h (by omega) (h.edge_hi s c t hl)
      exact ⟨hrec.1, hrec.2.1, hrec.2.2.1, hrec.2.2.2.1, hrec.2.2.2.2.1,
        Or.inr (hterm tb t h2t hrec.2.2.2.2.2)⟩
    | none =>
      rw [addPatternLoop_cons_none rest hl]
      have hwf2 := extendStep_WF tb s c h hs0 hslen hl
      have hlen := extendStep_length tb s c
      have hn2 : 2 ≤ tb.states.length := h.len2
      have hrec := ih (extendStep tb s c) tb.states.length hwf2
        (by omega) (by omega)
      refine ⟨hrec.1, hrec.2.1, hrec.2.2.1, ?_, ?_, ?_⟩
      · have h4 := hrec.2.2.2.1
        omega
      · rw [hrec.2.2.2.2.1, extendStep_numPatterns]
      · exact Or.inr (hterm _ _ hn2 hrec.2.2.2.2.2)

theorem addPattern_eq (tb : TrieBuilder) (pat : List Nat) :
    tb.addPattern pat =
      { states := ((addPatternLoop tb rootState pat).1.modifyState
          (addPatternLoop tb rootState pat).2
          (fun st =>
            { st with dict := pat.length, pattern := tb.numPatterns })).states,
        numPatterns := tb.numPatterns + 1 } := rfl

theorem addPattern_length (tb : TrieBuilder) (pat : List Nat) :
    (tb.addPattern pat).states.length =
      (addPatternLoop tb rootState pat).1.states.length := by
  rw [addPattern_eq]
  dsimp only
  exact modifyState_length (addPatternLoop tb rootState pat).1
    (addPatternLoop tb rootState pat).2 _

theorem addPattern_wf (tb : TrieBuilder) (pat : List Nat) (h : WF tb) :
    WF (tb.addPattern pat) ∧
    tb.states.length ≤ (tb.addPattern pat).states.length ∧
    (tb.addPattern pat).numPatterns = tb.numPatterns + 1 := by
  have hroot : (1 : Nat) < tb.states.length := by have := h.len2; omega
  have hloop := addPatternLoop_wf pat tb rootState h (by norm_num [rootState])
    (by rw [rootState]; exact hroot)
  have hwm := WF_modify (addPatternLoop tb rootState pat).1
    (addPatternLoop tb rootState pat).2
    (fun st => { st with dict := pat.length, pattern := tb.numPatterns })
    hloop.1 hloop.2.1 (fun st => rfl) (fun st => rfl) (fun st => rfl)
    (by
      intro h1
      rcases hloop.2.2.2.2.2 with hnil | hge
      · subst hnil; rfl
      · omega)
  have hstates : ((addPatternLoop tb rootState pat).1.modifyState
      (addPatternLoop tb rootState pat).2
      (fun st =>
        { st with dict := pat.length, pattern := tb.numPatterns })).states =
      (tb.addPattern pat).states := by
    rw [addPattern_eq]
  refine ⟨WF_of_states_eq hstates hwm, ?_, rfl⟩
  rw [addPattern_length]
  exact hloop.2.2.2.1

theorem addPatterns_wf : ∀ (pats : List (List Nat)) (tb : TrieBuilder),
    WF tb → WF (tb.addPatterns pats) := by
  intro pats
  induction pats with
  | nil => intro tb h; exact h
  | cons p ps ih =>
    intro tb h
    rw [TrieBuilder.addPatterns, List.foldl_cons]
    exact ih (tb.addPattern p) (addPattern_wf tb p h).1

theorem builderOf_wf (pats : List (List Nat)) : WF (builderOf pats) :=
  addPatterns_wf pats newTrieBuilder WF_new

/-! ### The link passes only write the link fields -/

theorem failStep_eq (s : Nat) (tb : TrieBuilder) (q : List Nat) (c t : Nat) :
    failStep s (tb, q) (c, t) =
      (tb.modifyState t (fun st =>
        { st with failLink := some (failSearch tb (tb.state t).value
          (tb.state s).failLink tb.states.length) }), q ++ [t]) := rfl

theorem failStep_foldl_field {α : Type} (g : BState → α)
    (hg : ∀ (st : BState) (v : Option Nat), g { st with failLink := v } = g st)
    (s : Nat) (l : List (Nat × Nat)) :
    ∀ (p : TrieBuilder × List Nat) (j : Nat),
      g ((l.foldl (failStep s) p).1.state j) = g (p.1.state j) := by
  induction l with
  | nil => intro p j; rfl
  | cons x xs ih =>
    intro p j
    obtain ⟨tb, q⟩ := p
    obtain ⟨c, t⟩ := x
    rw [List.foldl_cons, ih, failStep_eq]
    rw [state_modify_cases]
    by_cases hc : t = j ∧ t < tb.states.length
    · rw [if_pos hc, hg, hc.1]
    · rw [if_neg hc]

theorem failLoop_field {α : Type} (g : BState → α)
    (hg : ∀ (st : BState) (v : Option Nat), g { st with failLink := v } = g st) :
    ∀ (fuel : Nat) (tb : TrieBuilder) (queue : List Nat) (j : Nat),
      g ((failLoop tb queue fuel).state j) = g (tb.state j) := by
  intro fuel
  induction fuel with
  | zero => intro tb queue j; cases queue <;> rfl
  | succ fuel ih =>
    intro tb queue j
    cases queue with
    | nil => rfl
    | cons s rest =>
      rw [failLoop, ih]
      exact failStep_foldl_field g hg s _ _ j

theorem computeFailLinks_field {α : Type} (g : BState → α)
    (hg : ∀ (st : BState) (v : Option Nat), g { st with failLink := v } = g st)
    (tb : TrieBuilder) (j : Nat) :
    g (tb.computeFailLinks.state j) = g (tb.state j) :=
  failLoop_field g hg _ tb _ j

theorem dictLoop_field {α : Type} (g : BState → α)
    (hg : ∀ (st : BState) (v : Option Nat), g { st with dictLink := v } = g st) :
    ∀ (l : List Nat) (tb : TrieBuilder) (j : Nat),
      g ((dictLoop tb l).state j) = g (tb.state j) := by
  intro l
  induction l with
  | nil => intro tb j; rfl
  | cons i rest ih =>
    intro tb j
    by_cases hi : i = rootState
    · rw [dictLoop, if_pos hi, ih]
    · rw [dictLoop, if_neg hi, ih]
      rw [state_modify_cases]
      by_cases hc : i = j ∧ i < tb.states.length
      · rw [if_pos hc, hg, hc.1]
      · rw [if_neg hc]

theorem computeDictLinks_field {α : Type} (g : BState → α)
    (hg : ∀ (st : BState) (v : Option Nat), g { st with dictLink := v } = g st)
    (tb : TrieBuilder) (j : Nat) :
    g (tb.computeDictLinks.state j) = g (tb.state j) :=
  dictLoop_field g hg _ tb j

/-- The builder after both link passes, as used by `Build`. -/
def linked (tb : TrieBuilder) : TrieBuilder :=
  tb.computeFailLinks.computeDictLinks

theorem linked_length (tb : TrieBuilder) :
    (linked tb).states.length = tb.states.length := by
  rw [linked, computeDictLinks_length, computeFailLinks_length]

theorem linked_trans (tb : TrieBuilder) (j : Nat) :
    ((linked tb).state j).trans = (tb.state j).trans := by
  rw [linked, computeDictLinks_field (fun st => st.trans) (fun _ _ => rfl),
    computeFailLinks_field (fun st => st.trans) (fun _ _ => rfl)]

theorem linked_parent (tb : TrieBuilder) (j : Nat) :
    ((linked tb).state j).parent = (tb.state j).parent := by
  rw [linked, computeDictLinks_field (fun st => st.parent) (fun _ _ => rfl),
    computeFailLinks_field (fun st => st.parent) (fun _ _ => rfl)]

theorem linked_value (tb : TrieBuilder) (j : Nat) :
    ((linked tb).state j).value = (tb.state j).value := by
  rw [linked, computeDictLinks_field (fun st => st.value) (fun _ _ => rfl),
    computeFailLinks_field (fun st => st.value) (fun _ _ => rfl)]

theorem linked_dict (tb : TrieBuilder) (j : Nat) :
    ((linked tb).state j).dict = (tb.state j).dict := by
  rw [linked, computeDictLinks_field (fun st => st.dict) (fun _ _ => rfl),
    computeFailLinks_field (fun st => st.dict) (fun _ _ => rfl)]

theorem linked_pattern (tb : TrieBuilder) (j : Nat) :
    ((linked tb).state j).pattern = (tb.state j).pattern := by
  rw [linked, computeDictLinks_field (fun st => st.pattern) (fun _ _ => rfl),
    computeFailLinks_field (fun st => st.pattern) (fun _ _ => rfl)]

theorem linked_failLink (tb : TrieBuilder) (j : Nat) :
    ((linked tb).state j).failLink = (tb.computeFailLinks.state j).failLink := by
  rw [linked, computeDictLinks_field (fun st => st.failLink) (fun _ _ => rfl)]

/-- `WF` transfers along pointwise equality of the structural fields. -/
theorem WF_transfer {tb tb' : TrieBuilder}
    (hl : tb'.states.length = tb.states.length)
    (hT : ∀ j, (tb'.state j).trans = (tb.state j).trans)
    (hP : ∀ j, (tb'.state j).parent = (tb.state j).parent)
    (hV : ∀ j, (tb'.state j).value = (tb.state j).value)
    (hD : ∀ j, (tb'.state j).dict = (tb.state j).dict)
    (hw : WF tb) : WF tb' := by
  refine ⟨?_, ?_, ?_, ?_, ?_, ?_, ?_, ?_, ?_, ?_, ?_, ?_⟩
  · rw [hl]; exact hw.len2
  · rw [hT]; exact hw.state0_trans
  · rw [hD]; exact hw.state0_dict
  · rw [hP]; exact hw.root_parent
  · rw [hD]; exact hw.root_dict
  · intro i; rw [hT]; exact hw.keys_nodup i
  · intro i c t hlk; rw [hT] at hlk; exact hw.edge_lo i c t hlk
  · intro i c t hlk; rw [hT] at hlk; rw [hl]; exact hw.edge_hi i c t hlk
  · intro i c t hlk; rw [hT] at hlk; exact hw.edge_mono i c t hlk
  · intro i c t hlk; rw [hT] at hlk; rw [hP]; exact hw.edge_parent i c t hlk
  · intro i c t hlk; rw [hT] at hlk; rw [hV]; exact hw.edge_value i c t hlk
  · intro t h2 hlt
    rw [hl] at hlt
    obtain ⟨p, hp1, hp2, hp3, hp4⟩ := hw.parent_edge t h2 hlt
    exact ⟨p, by rw [hP]; exact hp1, hp2, hp3, by rw [hT, hV]; exact hp4⟩

theorem linked_wf (tb : TrieBuilder) (h : WF tb) : WF (linked tb) :=
  WF_transfer (linked_length tb) (linked_trans tb) (linked_parent tb)
    (linked_value tb) (linked_dict tb) h

/-- `build` in terms of `linked`. -/
theorem build_eq (tb : TrieBuilder) :
    tb.build =
      { dict := (linked tb).states.map (fun s => s.dict)
        pattern := (linked tb).states.map (fun s => s.pattern)
        dictLink := (linked tb).states.map (fun s => s.dictLink.getD 0)
        failTrans := (List.range (linked tb).states.length).map (fun i =>
          (List.range 256).map (fun c => (linked tb).computeFailTransition i c))
        trans := []
        failLink := [] } := rfl

/-! ### Totality and range of the compiled transition table (C9) -/

theorem failSearch_valid (tb : TrieBuilder) (h : WF tb) (c : Nat) :
    ∀ (fuel : Nat) (os : Option Nat),
      1 ≤ failSearch tb c os fuel ∧
        failSearch tb c os fuel < tb.states.length := by
  have hroot : (1 : Nat) < tb.states.length := by have := h.len2; omega
  intro fuel
  induction fuel with
  | zero =>
    intro os
    cases os with
    | none => exact ⟨le_refl 1, hroot⟩
    | some f => exact ⟨le_refl 1, hroot⟩
  | succ fuel ih =>
    intro os
    cases os with
    | none => exact ⟨le_refl 1, hroot⟩
    | some f =>
      cases hl : ((tb.state f).trans).lookup c with
      | some t =>
        have h1 := h.edge_lo f c t hl
        have h2 := h.edge_hi f c t hl
        rw [failSearch, hl]
        show 1 ≤ t ∧ t < tb.states.length
        omega
      | none =>
        rw [failSearch, hl]
        exact ih (tb.state f).failLink

theorem build_failTrans_entry (tb : TrieBuilder) (s c : Nat)
    (hs : s < tb.states.length) (hc : c < 256) :
    (tb.build.failTrans.getD s []).getD c 0 =
      (linked tb).computeFailTransition s c := by
  rw [build_eq]
  have hlen : (linked tb).states.length = tb.states.length := linked_length tb
  have h1 : ((List.range (linked tb).states.length).map (fun i =>
      (List.range 256).map (fun c => (linked tb).computeFailTransition i c))).getD
        s [] =
      (List.range 256).map (fun c => (linked tb).computeFailTransition s c) := by
    rw [List.getD_eq_getElem?_getD, List.getElem?_map,
      List.getElem?_range (by omega)]
    rfl
  rw [h1]
  rw [List.getD_eq_getElem?_getD, List.getElem?_map, List.getElem?_range hc]
  rfl

/-- The sequence of states the scan loop passes through (after each
advance), starting at `s`. -/
def scanStates (tr : Trie) : List Nat → Nat → List Nat
  | [], _ => []
  | c :: rest, s =>
    ((tr.failTrans.getD s []).getD c 0) ::
      scanStates tr rest ((tr.failTrans.getD s []).getD c 0)

/-- C9: for every built automaton the compiled transition table is total
and valid — each of the 256 entries of each state's row is a real state id
(at least 1, the root, and within the arena) — and consequently no
traversal from the root ever reaches the sentinel id 0: every state in the
scan trajectory is a real state. -/
theorem claim_C9_totality (pats : List (List Nat)) (s c : Nat)
    (hs : s < (builderOf pats).states.length) (hc : c < 256) :
    (1 ≤ ((builderOf pats).build.failTrans.getD s []).getD c 0 ∧
      ((builderOf pats).build.failTrans.getD s []).getD c 0 <
        (builderOf pats).states.length) ∧
    ∀ (input : List Nat), (∀ b ∈ input, b < 256) →
      ∀ x ∈ scanStates ((builderOf pats).build) input rootState,
        1 ≤ x ∧ x < (builderOf pats).states.length := by
  have hw : WF (builderOf pats) := builderOf_wf pats
  have hwL : WF (linked (builderOf pats)) := linked_wf _ hw
  have hlen : (linked (builderOf pats)).states.length =
      (builderOf pats).states.length := linked_length _
  have hentry : ∀ s' c', s' < (builderOf pats).states.length → c' < 256 →
      1 ≤ ((builderOf pats).build.failTrans.getD s' []).getD c' 0 ∧
        ((builderOf pats).build.failTrans.getD s' []).getD c' 0 <
          (builderOf pats).states.length := by
    intro s' c' hs' hc'
    rw [build_failTrans_entry _ _ _ hs' hc', TrieBuilder.computeFailTransition]
    have := failSearch_valid (linked (builderOf pats)) hwL c'
      (linked (builderOf pats)).states.length (some s')
    omega
  refine ⟨hentry s c hs hc, ?_⟩
  intro input
  have hgen : ∀ (inp : List Nat), (∀ b ∈ inp, b < 256) →
      ∀ s', 1 ≤ s' → s' < (builderOf pats).states.length →
      ∀ x ∈ scanStates ((builderOf pats).build) inp s',
        1 ≤ x ∧ x < (builderOf pats).states.length := by
    intro inp
    induction inp with
    | nil => intro _ s' _ _ x hx; simp [scanStates] at hx
    | cons b rest ih =>
      intro hin s' h1 h2 x hx
      have hb : b < 256 := hin b (by simp)
      have hrest : ∀ y ∈ rest, y < 256 := fun y hy => hin y (by simp [hy])
      have hnext := hentry s' b h2 hb
      rw [scanStates] at hx
      rcases List.mem_cons.mp hx with hx1 | hx2
      · subst hx1; exact hnext
      · exact ih hrest _ hnext.1 hnext.2 x hx2
  intro hin
  exact hgen input hin rootState (le_refl 1)
    (by have := hw.len2; rw [rootState]; omega)

/-- Witness for C9 at the automaton of the single pattern [1], state 1,
byte 0, scanning the input [1, 0]. -/
theorem claim_C9_totality_witness :
    (1 ≤ ((builderOf [[1]]).build.failTrans.getD 1 []).getD 0 0 ∧
      ((builderOf [[1]]).build.failTrans.getD 1 []).getD 0 0 <
        (builderOf [[1]]).states.length) ∧
    ∀ (input : List Nat), (∀ b ∈ input, b < 256) →
      ∀ x ∈ scanStates ((builderOf [[1]]).build) input rootState,
        1 ≤ x ∧ x < (builderOf [[1]]).states.length :=
  claim_C9_totality [[1]] 1 0 (by decide) (by decide)

/-! ### Word semantics of the trie: descending along transitions -/

/-- Follow existing transitions from state `s` along the word `w`. -/
def descend (tb : TrieBuilder) : Nat → List Nat → Option Nat
  | s, [] => some s
  | s, c :: w =>
    match ((tb.state s).trans).lookup c with
    | some t => descend tb t w
    | none => none

/-- The state spelling the word `w` from the root, when present. -/
def reach (tb : TrieBuilder) (w : List Nat) : Option Nat :=
  descend tb rootState w

theorem state_ext {tb tb' : TrieBuilder} (h : tb.states = tb'.states)
    (j : Nat) : tb.state j = tb'.state j := by
  unfold TrieBuilder.state
  rw [h]

theorem descend_trans_congr {tb tb' : TrieBuilder}
    (h : ∀ j, ((tb'.state j).trans) = ((tb.state j).trans)) :
    ∀ (pat : List Nat) (s : Nat), descend tb' s pat = descend tb s pat := by
  intro pat
  induction pat with
  | nil => intro s; rfl
  | cons c rest ih =>
    intro s
    rw [descend, descend, h s]
    cases ((tb.state s).trans).lookup c with
    | some t => exact ih t
    | none => rfl

theorem addPatternLoop_of_descend :
    ∀ (pat : List Nat) (tb : TrieBuilder) (s t : Nat),
      descend tb s pat = some t → addPatternLoop tb s pat = (tb, t) := by
  intro pat
  induction pat with
  | nil =>
    intro tb s t h
    rw [descend] at h
    cases h
    rfl
  | cons c rest ih =>
    intro tb s t h
    rw [descend] at h
    cases hl : ((tb.state s).trans).lookup c with
    | some u =>
      rw [hl] at h
      rw [addPatternLoop_cons_some rest hl]
      exact ih tb u t h
    | none => rw [hl] at h; exact absurd h (by simp)

theorem extendStep_lookup_mono (tb : TrieBuilder) (s : Nat) (c : Nat)
    (hslen : s < tb.states.length)
    (hlook : ((tb.state s).trans).lookup c = none)
    {i c' : Nat} {t : Nat}
    (h : ((tb.state i).trans).lookup c' = some t) :
    (((extendStep tb s c).state i).trans).lookup c' = some t := by
  by_cases his : i = s
  · subst his
    rw [extendStep_lookup_s _ _ _ hslen hlook]
    by_cases hc : c' = c
    · subst hc; rw [h] at hlook; exact absurd hlook (by simp)
    · rw [if_neg hc]; exact h
  · by_cases hin : i = tb.states.length
    · subst hin
      rw [state_of_ge tb _ (le_refl _)] at h
      simp [BState.mk0, List.lookup] at h
    · rw [extendStep_state_other _ _ _ _ his hin]
      exact h

theorem addPatternLoop_lookup_mono :
    ∀ (pat : List Nat) (tb : TrieBuilder) (s : Nat), WF tb → s ≠ 0 →
      s < tb.states.length →
      ∀ i c t, ((tb.state i).trans).lookup c = some t →
        (((addPatternLoop tb s pat).1.state i).trans).lookup c = some t := by
  intro pat
  induction pat with
  | nil => intro tb s _ _ _ i c t h; exact h
  | cons b rest ih =>
    intro tb s hw hs0 hslen i c t h
    cases hl : ((tb.state s).trans).lookup b with
    | some u =>
      rw [addPatternLoop_cons_some rest hl]
      exact ih tb u hw (by have := hw.edge_lo s b u hl; omega)
        (hw.edge_hi s b u hl) i c t h
    | none =>
      rw [addPatternLoop_cons_none rest hl]
      have hwf2 := extendStep_WF tb s b hw hs0 hslen hl
      have hn2 : 2 ≤ tb.states.length := hw.len2
      refine ih (extendStep tb s b) tb.states.length hwf2 (by omega)
        (by rw [extendStep_length]; omega) i c t ?_
      exact extendStep_lookup_mono tb s b hslen hl h

theorem addPatternLoop_descend :
    ∀ (pat : List Nat) (tb : TrieBuilder) (s : Nat), WF tb → s ≠ 0 →
      s < tb.states.length →
      descend (addPatternLoop tb s pat).1 s pat =
        some (addPatternLoop tb s pat).2 := by
  intro pat
  induction pat with
  | nil => intro tb s _ _ _; rfl
  | cons b rest ih =>
    intro tb s hw hs0 hslen
    cases hl : ((tb.state s).trans).lookup b with
    | some u =>
      rw [addPatternLoop_cons_some rest hl]
      have hu0 : u ≠ 0 := by have := hw.edge_lo s b u hl; omega
      have hulen := hw.edge_hi s b u hl
      have hpath := addPatternLoop_lookup_mono rest tb u hw hu0 hulen s b u hl
      rw [descend, hpath]
      exact ih tb u hw hu0 hulen
    | none =>
      rw [addPatternLoop_cons_none rest hl]
      have hwf2 := extendStep_WF tb s b hw hs0 hslen hl
      have hn2 : 2 ≤ tb.states.length := hw.len2
      have hnew : (((extendStep tb s b).state s).trans).lookup b =
          some tb.states.length := by
        rw [extendStep_lookup_s _ _ _ hslen hl, if_pos rfl]
      have hpath := addPatternLoop_lookup_mono rest (extendStep tb s b)
        tb.states.length hwf2 (by omega)
        (by rw [extendStep_length]; omega) s b tb.states.length hnew
      rw [descend, hpath]
      exact ih (extendStep tb s b) tb.states.length hwf2 (by omega)
        (by rw [extendStep_length]; omega)

/-- `addPattern` leaves every state's `trans` as the loop left it. -/
theorem addPattern_trans (tb : TrieBuilder) (pat : List Nat) (j : Nat) :
    ((tb.addPattern pat).state j).trans =
      (((addPatternLoop tb rootState pat).1.modifyState
        (addPatternLoop tb rootState pat).2
        (fun st =>
          { st with dict := pat.length, pattern := tb.numPatterns })).state
            j).trans := by
  rw [state_ext ((congrArg TrieBuilder.states (addPattern_eq tb pat)))]
  rfl

theorem addPattern_state (tb : TrieBuilder) (pat : List Nat) (j : Nat) :
    (tb.addPattern pat).state j =
      ((addPatternLoop tb rootState pat).1.modifyState
        (addPatternLoop tb rootState pat).2
        (fun st =>
          { st with dict := pat.length, pattern := tb.numPatterns })).state
            j := by
  rw [state_ext ((congrArg TrieBuilder.states (addPattern_eq tb pat)))]
  rfl

theorem addPattern_numPatterns (tb : TrieBuilder) (pat : List Nat) :
    (tb.addPattern pat).numPatterns = tb.numPatterns + 1 := rfl

/-- C7: re-adding a byte pattern identical to one previously added revisits
the same terminal trie state without creating any state (the descent loop
returns the builder unchanged), overwrites that state's pattern index with
the current (larger) counter value, and still increments the counter, so
the previously assigned index is no longer stored anywhere at that
state. -/
theorem claim_C7_duplicate (tb : TrieBuilder) (p : List Nat) (h : WF tb) :
    addPatternLoop (tb.addPattern p) rootState p =
      (tb.addPattern p, (addPatternLoop tb rootState p).2) ∧
    ((tb.addPattern p).addPattern p).states.length =
      (tb.addPattern p).states.length ∧
    (((tb.addPattern p).addPattern p).state
        (addPatternLoop tb rootState p).2).pattern = tb.numPatterns + 1 ∧
    ((tb.addPattern p).state (addPatternLoop tb rootState p).2).pattern =
      tb.numPatterns ∧
    ((tb.addPattern p).addPattern p).numPatterns = tb.numPatterns + 2 ∧
    (((tb.addPattern p).addPattern p).state
        (addPatternLoop tb rootState p).2).pattern ≠ tb.numPatterns := by
  have hroot1 : (rootState : Nat) ≠ 0 := by norm_num [rootState]
  have hrootlen : (rootState : Nat) < tb.states.length := by
    have := h.len2; rw [rootState]; omega
  have hloop1 := addPatternLoop_wf p tb rootState h hroot1 hrootlen
  have ht1len : (addPatternLoop tb rootState p).2 <
      (addPatternLoop tb rootState p).1.states.length := hloop1.2.2.1
  have hTr : ∀ j, (((tb.addPattern p).state j).trans) =
      (((addPatternLoop tb rootState p).1.state j).trans) := by
    intro j
    rw [addPattern_trans, state_modify_cases]
    by_cases hc : (addPatternLoop tb rootState p).2 = j ∧
        (addPatternLoop tb rootState p).2 <
          (addPatternLoop tb rootState p).1.states.length
    · rw [if_pos hc]
      rw [hc.1]
    · rw [if_neg hc]
  have hdesc1 : descend (addPatternLoop tb rootState p).1 rootState p =
      some (addPatternLoop tb rootState p).2 :=
    addPatternLoop_descend p tb rootState h hroot1 hrootlen
  have hdesc : descend (tb.addPattern p) rootState p =
      some (addPatternLoop tb rootState p).2 := by
    rw [descend_trans_congr hTr p rootState]
    exact hdesc1
  have hsecond := addPatternLoop_of_descend p (tb.addPattern p) rootState
    (addPatternLoop tb rootState p).2 hdesc
  have hlen1 : (tb.addPattern p).states.length =
      (addPatternLoop tb rootState p).1.states.length :=
    addPattern_length tb p
  have ht1len' : (addPatternLoop tb rootState p).2 <
      (tb.addPattern p).states.length := by omega
  have hE : ((tb.addPattern p).state (addPatternLoop tb rootState p).2).pattern
      = tb.numPatterns := by
    rw [addPattern_state,
      state_modify_self _ _ _ ht1len]
  have hD : (((tb.addPattern p).addPattern p).state
      (addPatternLoop tb rootState p).2).pattern =
        (tb.addPattern p).numPatterns := by
    rw [addPattern_state (tb.addPattern p) p, hsecond]
    rw [state_modify_self _ _ _ ht1len']
  refine ⟨hsecond, ?_, ?_, hE, ?_, ?_⟩
  · rw [addPattern_length (tb.addPattern p) p, hsecond]
  · rw [hD, addPattern_numPatterns]
  · rw [addPattern_numPatterns, addPattern_numPatterns]
  · rw [hD, addPattern_numPatterns]
    omega

/-- Witness for C7 at the builder holding the single pattern [5],
re-adding [5]. -/
theorem claim_C7_duplicate_witness :
    addPatternLoop ((builderOf [[5]]).addPattern [5]) rootState [5] =
      ((builderOf [[5]]).addPattern [5],
        (addPatternLoop (builderOf [[5]]) rootState [5]).2) ∧
    (((builderOf [[5]]).addPattern [5]).addPattern [5]).states.length =
      ((builderOf [[5]]).addPattern [5]).states.length ∧
    ((((builderOf [[5]]).addPattern [5]).addPattern [5]).state
        (addPatternLoop (builderOf [[5]]) rootState [5]).2).pattern =
      (builderOf [[5]]).numPatterns + 1 ∧
    (((builderOf [[5]]).addPattern [5]).state
        (addPatternLoop (builderOf [[5]]) rootState [5]).2).pattern =
      (builderOf [[5]]).numPatterns ∧
    (((builderOf [[5]]).addPattern [5]).addPattern [5]).numPatterns =
      (builderOf [[5]]).numPatterns + 2 ∧
    ((((builderOf [[5]]).addPattern [5]).addPattern [5]).state
        (addPatternLoop (builderOf [[5]]) rootState [5]).2).pattern ≠
      (builderOf [[5]]).numPatterns :=
  claim_C7_duplicate (builderOf [[5]]) [5] (builderOf_wf [[5]])

/-! ### The link passes never read the `pattern` field -/

/-- Per-state agreement on every field except `pattern`. -/
def EqNoPat (a b : BState) : Prop :=
  a.value = b.value ∧ a.parent = b.parent ∧ a.trans = b.trans ∧
    a.dict = b.dict ∧ a.failLink = b.failLink ∧ a.dictLink = b.dictLink

/-- Builders agreeing everywhere except possibly in `pattern` fields. -/
def BuilderEqNoPat (tb tb' : TrieBuilder) : Prop :=
  tb.states.length = tb'.states.length ∧
    ∀ j, EqNoPat (tb.state j) (tb'.state j)

theorem failSearch_congr {tb tb' : TrieBuilder} (h : BuilderEqNoPat tb tb')
    (c : Nat) : ∀ (fuel : Nat) (os : Option Nat),
      failSearch tb c os fuel = failSearch tb' c os fuel := by
  intro fuel
  induction fuel with
  | zero => intro os; cases os <;> rfl
  | succ fuel ih =>
    intro os
    cases os with
    | none => rfl
    | some f =>
      rw [failSearch, failSearch, (h.2 f).2.2.1, (h.2 f).2.2.2.2.1]
      cases ((tb'.state f).trans).lookup c with
      | some t => rfl
      | none => exact ih _

theorem modify_eqNoPat {tb tb' : TrieBuilder} (h : BuilderEqNoPat tb tb')
    (i : Nat) (f f' : BState → BState)
    (hf : ∀ a b, EqNoPat a b → EqNoPat (f a) (f' b)) :
    BuilderEqNoPat (tb.modifyState i f) (tb'.modifyState i f') := by
  refine ⟨by rw [modifyState_length, modifyState_length]; exact h.1, ?_⟩
  intro j
  rw [state_modify_cases, state_modify_cases]
  by_cases hc : i = j ∧ i < tb.states.length
  · rw [if_pos hc, if_pos (by rw [← h.1]; exact hc)]
    exact hf _ _ (h.2 i)
  · rw [if_neg hc, if_neg (by rw [← h.1]; exact hc)]
    exact h.2 j

theorem failStep_foldl_congr {tb tb' : TrieBuilder} (s : Nat)
    (l : List (Nat × Nat)) :
    ∀ (q : List Nat), BuilderEqNoPat tb tb' →
      BuilderEqNoPat (l.foldl (failStep s) (tb, q)).1
          (l.foldl (failStep s) (tb', q)).1 ∧
        (l.foldl (failStep s) (tb, q)).2 = (l.foldl (failStep s) (tb', q)).2 := by
  induction l generalizing tb tb' with
  | nil => intro q h; exact ⟨h, rfl⟩
  | cons x xs ih =>
    intro q h
    obtain ⟨c, t⟩ := x
    rw [List.foldl_cons, List.foldl_cons, failStep_eq, failStep_eq]
    have hval : (tb.state t).value = (tb'.state t).value := (h.2 t).1
    have hfl : (tb.state s).failLink = (tb'.state s).failLink :=
      (h.2 s).2.2.2.2.1
    have hsearch : failSearch tb (tb.state t).value (tb.state s).failLink
        tb.states.length =
        failSearch tb' (tb'.state t).value (tb'.state s).failLink
          tb'.states.length := by
      rw [hval, hfl, h.1]
      exact failSearch_congr h _ _ _
    refine ih _ (modify_eqNoPat h t _ _ ?_)
    intro a b hab
    obtain ⟨h1, h2, h3, h4, h5, h6⟩ := hab
    exact ⟨h1, h2, h3, h4, by simp only [hsearch], h6⟩

theorem failLoop_congr : ∀ (fuel : Nat) {tb tb' : TrieBuilder}
    (queue : List Nat), BuilderEqNoPat tb tb' →
      BuilderEqNoPat (failLoop tb queue fuel) (failLoop tb' queue fuel) := by
  intro fuel
  induction fuel with
  | zero => intro tb tb' queue h; cases queue <;> exact h
  | succ fuel ih =>
    intro tb tb' queue h
    cases queue with
    | nil => exact h
    | cons s rest =>
      rw [failLoop, failLoop]
      have htr : (tb.state s).trans = (tb'.state s).trans := (h.2 s).2.2.1
      rw [htr]
      have hfold := failStep_foldl_congr s ((tb'.state s).trans) rest h
      rw [← hfold.2]
      exact ih _ hfold.1

theorem computeFailLinks_congr {tb tb' : TrieBuilder}
    (h : BuilderEqNoPat tb tb') :
    BuilderEqNoPat tb.computeFailLinks tb'.computeFailLinks := by
  unfold TrieBuilder.computeFailLinks
  rw [h.1]
  exact failLoop_congr _ _ h

theorem dictSearch_congr {tb tb' : TrieBuilder} (h : BuilderEqNoPat tb tb') :
    ∀ (fuel : Nat) (os : Option Nat),
      dictSearch tb os fuel = dictSearch tb' os fuel := by
  intro fuel
  induction fuel with
  | zero => intro os; cases os <;> rfl
  | succ fuel ih =>
    intro os
    cases os with
    | none => rfl
    | some f =>
      rw [dictSearch, dictSearch, (h.2 f).2.2.2.1, (h.2 f).2.2.2.2.1]
      by_cases hd : (tb'.state f).dict > 0
      · rw [if_pos hd, if_pos hd]
      · rw [if_neg hd, if_neg hd]
        exact ih _

theorem dictLoop_congr : ∀ (l : List Nat) {tb tb' : TrieBuilder},
    BuilderEqNoPat tb tb' →
      BuilderEqNoPat (dictLoop tb l) (dictLoop tb' l) := by
  intro l
  induction l with
  | nil => intro tb tb' h; exact h
  | cons i rest ih =>
    intro tb tb' h
    by_cases hi : i = rootState
    · rw [dictLoop, if_pos hi, dictLoop, if_pos hi]; exact ih h
    · rw [dictLoop, if_neg hi, dictLoop, if_neg hi]
      refine ih (modify_eqNoPat h i _ _ ?_)
      intro a b hab
      obtain ⟨h1, h2, h3, h4, h5, h6⟩ := hab
      refine ⟨h1, h2, h3, h4, h5, ?_⟩
      rw [h5, h.1, dictSearch_congr h]

theorem linked_congr {tb tb' : TrieBuilder} (h : BuilderEqNoPat tb tb') :
    BuilderEqNoPat (linked tb) (linked tb') := by
  unfold linked TrieBuilder.computeDictLinks
  have h1 := computeFailLinks_congr h
  rw [h1.1]
  exact dictLoop_congr _ h1

/-! ### Insertion only writes `trans`, `dict`, `pattern` -/

theorem extendStep_link_field {α : Type} (g : BState → α)
    (hmk : ∀ v pr, g (BState.mk0 v pr) = g (BState.mk0 0 none))
    (htr : ∀ st x, g { st with trans := x } = g st)
    (tb : TrieBuilder) (s c : Nat) (hslen : s < tb.states.length) (j : Nat) :
    g ((extendStep tb s c).state j) = g (tb.state j) := by
  by_cases hjs : j = s
  · subst hjs
    rw [extendStep_state_s _ _ _ hslen]
    exact htr _ _
  · by_cases hjn : j = tb.states.length
    · subst hjn
      rw [extendStep_state_new _ _ _ hslen, state_of_ge _ _ (le_refl _)]
      exact hmk _ _
    · rw [extendStep_state_other _ _ _ _ hjs hjn]

theorem addPatternLoop_link_field {α : Type} (g : BState → α)
    (hmk : ∀ v pr, g (BState.mk0 v pr) = g (BState.mk0 0 none))
    (htr : ∀ st x, g { st with trans := x } = g st) :
    ∀ (pat : List Nat) (tb : TrieBuilder) (s : Nat), WF tb → s ≠ 0 →
      s < tb.states.length →
      ∀ j, g ((addPatternLoop tb s pat).1.state j) = g (tb.state j) := by
  intro pat
  induction pat with
  | nil => intro tb s _ _ _ j; rfl
  | cons b rest ih =>
    intro tb s hw hs0 hslen j
    cases hl : ((tb.state s).trans).lookup b with
    | some u =>
      rw [addPatternLoop_cons_some rest hl]
      exact ih tb u hw (by have := hw.edge_lo s b u hl; omega)
        (hw.edge_hi s b u hl) j
    | none =>
      rw [addPatternLoop_cons_none rest hl]
      have hwf2 := extendStep_WF tb s b hw hs0 hslen hl
      have hn2 : 2 ≤ tb.states.length := hw.len2
      rw [ih (extendStep tb s b) tb.states.length hwf2 (by omega)
        (by rw [extendStep_length]; omega) j]
      exact extendStep_link_field g hmk htr tb s b hslen j

theorem addPattern_link_field {α : Type} (g : BState → α)
    (hmk : ∀ v pr, g (BState.mk0 v pr) = g (BState.mk0 0 none))
    (htr : ∀ st x, g { st with trans := x } = g st)
    (hdp : ∀ st a b, g { st with dict := a, pattern := b } = g st)
    (tb : TrieBuilder) (pat : List Nat) (h : WF tb) (j : Nat) :
    g ((tb.addPattern pat).state j) = g (tb.state j) := by
  have hroot1 : (rootState : Nat) ≠ 0 := by norm_num [rootState]
  have hrootlen : (rootState : Nat) < tb.states.length := by
    have := h.len2; rw [rootState]; omega
  rw [addPattern_state tb pat j]
  rw [state_modify_cases]
  by_cases hc : (addPatternLoop tb rootState pat).2 = j ∧
      (addPatternLoop tb rootState pat).2 <
        (addPatternLoop tb rootState pat).1.states.length
  · rw [if_pos hc, hdp, hc.1]
    exact addPatternLoop_link_field g hmk htr pat tb rootState h hroot1
      hrootlen j
  · rw [if_neg hc]
    exact addPatternLoop_link_field g hmk htr pat tb rootState h hroot1
      hrootlen j

theorem addPatterns_link_field {α : Type} (g : BState → α)
    (hmk : ∀ v pr, g (BState.mk0 v pr) = g (BState.mk0 0 none))
    (htr : ∀ st x, g { st with trans := x } = g st)
    (hdp : ∀ st a b, g { st with dict := a, pattern := b } = g st) :
    ∀ (pats : List (List Nat)) (tb : TrieBuilder), WF tb →
      ∀ j, g ((tb.addPatterns pats).state j) = g (tb.state j) := by
  intro pats
  induction pats with
  | nil => intro tb _ j; rfl
  | cons p ps ih =>
    intro tb hw j
    rw [TrieBuilder.addPatterns, List.foldl_cons]
    have h1 := ih (tb.addPattern p) (addPattern_wf tb p hw).1 j
    rw [show (tb.addPattern p).addPatterns ps =
      ps.foldl TrieBuilder.addPattern (tb.addPattern p) from rfl] at h1
    rw [h1]
    exact addPattern_link_field g hmk htr hdp tb p hw j

theorem newTrieBuilder_state (j : Nat) :
    newTrieBuilder.state j = BState.mk0 0 none := by
  rcases j with _ | _ | j
  · rfl
  · rfl
  · exact newTrieBuilder_state_ge j

theorem builderOf_failLink (pats : List (List Nat)) (j : Nat) :
    ((builderOf pats).state j).failLink = none := by
  have := addPatterns_link_field (fun st => st.failLink)
    (fun _ _ => rfl) (fun _ _ => rfl) (fun _ _ _ => rfl) pats
    newTrieBuilder WF_new j
  rw [builderOf, this, newTrieBuilder_state]
  rfl

theorem builderOf_dictLink (pats : List (List Nat)) (j : Nat) :
    ((builderOf pats).state j).dictLink = none := by
  have := addPatterns_link_field (fun st => st.dictLink)
    (fun _ _ => rfl) (fun _ _ => rfl) (fun _ _ _ => rfl) pats
    newTrieBuilder WF_new j
  rw [builderOf, this, newTrieBuilder_state]
  rfl

/-! ### Dictionary links always point at accepting states -/

theorem dictSearch_accepting (tb : TrieBuilder) :
    ∀ (fuel : Nat) (os : Option Nat) (f : Nat),
      dictSearch tb os fuel = some f → (tb.state f).dict > 0 := by
  intro fuel
  induction fuel with
  | zero =>
    intro os f h
    cases os with
    | none => exact absurd h (by simp [dictSearch])
    | some g => exact absurd h (by simp [dictSearch])
  | succ fuel ih =>
    intro os f h
    cases os with
    | none => exact absurd h (by simp [dictSearch])
    | some g =>
      rw [dictSearch] at h
      by_cases hd : (tb.state g).dict > 0
      · rw [if_pos hd] at h
        cases h
        exact hd
      · rw [if_neg hd] at h
        exact ih _ f h

theorem dictLoop_dict_stable (tb : TrieBuilder) (l : List Nat) (j : Nat) :
    ((dictLoop tb l).state j).dict = (tb.state j).dict :=
  dictLoop_field (fun st => st.dict) (fun _ _ => rfl) l tb j

theorem dictLoop_acc : ∀ (l : List Nat) (tb : TrieBuilder),
    (∀ j u, (tb.state j).dictLink = some u → (tb.state u).dict > 0) →
    ∀ j u, ((dictLoop tb l).state j).dictLink = some u →
      ((dictLoop tb l).state u).dict > 0 := by
  intro l
  induction l with
  | nil => intro tb h j u hl; exact h j u hl
  | cons i rest ih =>
    intro tb h j u hl
    by_cases hi : i = rootState
    · rw [dictLoop, if_pos hi] at hl ⊢
      exact ih tb h j u hl
    · rw [dictLoop, if_neg hi] at hl ⊢
      refine ih _ ?_ j u hl
      intro j' u' hl'
      rw [state_modify_cases] at hl'
      have hdict : ∀ v, ((tb.modifyState i (fun st =>
          { st with dictLink := dictSearch tb st.failLink tb.states.length
          })).state v).dict = (tb.state v).dict := by
        intro v
        rw [state_modify_cases]
        by_cases hc : i = v ∧ i < tb.states.length
        · rw [if_pos hc, hc.1]
        · rw [if_neg hc]
      rw [hdict]
      by_cases hc : i = j' ∧ i < tb.states.length
      · rw [if_pos hc] at hl'
        exact dictSearch_accepting tb _ _ u' hl'
      · rw [if_neg hc] at hl'
        exact h j' u' hl'

theorem built_dictLink_acc (pats : List (List Nat)) :
    ∀ j u, ((linked (builderOf pats)).state j).dictLink = some u →
      ((linked (builderOf pats)).state u).dict > 0 := by
  intro j u h
  unfold linked TrieBuilder.computeDictLinks at h ⊢
  refine dictLoop_acc _ _ ?_ j u h
  intro j' u' hl'
  rw [computeFailLinks_field (fun st => st.dictLink) (fun _ _ => rfl)] at hl'
  rw [builderOf_dictLink] at hl'
  exact absurd hl' (by simp)

/-! ### Pointwise access to the built arrays -/

theorem states_map_getD {α : Type} (tb : TrieBuilder) (f : BState → α)
    (d : α) (j : Nat) (hj : j < tb.states.length) :
    (tb.states.map f).getD j d = f (tb.state j) := by
  rw [List.getD_eq_getElem?_getD, List.getElem?_map,
    List.getElem?_eq_getElem hj]
  simp [TrieBuilder.state, List.getD_eq_getElem?_getD,
    List.getElem?_eq_getElem hj]

theorem build_dict_getD (tb : TrieBuilder) (j : Nat)
    (hj : j < tb.states.length) :
    tb.build.dict.getD j 0 = ((linked tb).state j).dict := by
  rw [congrArg Trie.dict (build_eq tb)]
  exact states_map_getD _ _ _ _ (by rw [linked_length]; omega)

theorem build_pattern_getD (tb : TrieBuilder) (j : Nat)
    (hj : j < tb.states.length) :
    tb.build.pattern.getD j 0 = ((linked tb).state j).pattern := by
  rw [congrArg Trie.pattern (build_eq tb)]
  exact states_map_getD _ _ _ _ (by rw [linked_length]; omega)

theorem build_dictLink_getD (tb : TrieBuilder) (j : Nat)
    (hj : j < tb.states.length) :
    tb.build.dictLink.getD j 0 = ((linked tb).state j).dictLink.getD 0 := by
  rw [congrArg Trie.dictLink (build_eq tb)]
  exact states_map_getD _ _ _ _ (by rw [linked_length]; omega)

theorem build_failTrans_row (tb : TrieBuilder) (s : Nat)
    (hs : s < tb.states.length) :
    tb.build.failTrans.getD s [] =
      (List.range 256).map (fun c => (linked tb).computeFailTransition s c) := by
  rw [congrArg Trie.failTrans (build_eq tb)]
  rw [List.getD_eq_getElem?_getD, List.getElem?_map,
    List.getElem?_range (by rw [linked_length]; omega)]
  rfl

theorem addPatternLoop_nil (tb : TrieBuilder) (s : Nat) :
    addPatternLoop tb s [] = (tb, s) := rfl

theorem eqNoPat_refl (a : BState) : EqNoPat a a :=
  ⟨rfl, rfl, rfl, rfl, rfl, rfl⟩

theorem builderOf_append (pats : List (List Nat)) (p : List Nat) :
    builderOf (pats ++ [p]) = (builderOf pats).addPattern p := by
  unfold builderOf TrieBuilder.addPatterns
  rw [List.foldl_append]
  rfl

/-! ### Emissions depend on `pattern` only at accepting states -/

theorem chainStates_congr {tr tr' : Trie}
    (hdl : ∀ u, tr.dictLink.getD u 0 = tr'.dictLink.getD u 0) :
    ∀ (fuel : Nat) (u : Nat), chainStates tr u fuel = chainStates tr' u fuel := by
  intro fuel
  induction fuel with
  | zero => intro u; rfl
  | succ fuel ih =>
    intro u
    rw [chainStates, chainStates]
    by_cases hu : u = nilState
    · rw [if_pos hu, if_pos hu]
    · rw [if_neg hu, if_neg hu, hdl u, ih]

theorem chain_emits_congr {tr tr' : Trie}
    (hd : ∀ u, tr.dict.getD u 0 = tr'.dict.getD u 0)
    (hdl : ∀ u, tr.dictLink.getD u 0 = tr'.dictLink.getD u 0)
    (hacc : ∀ j, tr.dictLink.getD j 0 ≠ 0 →
      tr.dict.getD (tr.dictLink.getD j 0) 0 ≠ 0)
    (hp : ∀ u, tr.dict.getD u 0 ≠ 0 →
      tr.pattern.getD u 0 = tr'.pattern.getD u 0) (i : Nat) :
    ∀ (fuel : Nat) (j : Nat),
      (chainStates tr (tr.dictLink.getD j 0) fuel).map
        (fun u => (i, tr.dict.getD u 0, tr.pattern.getD u 0)) =
      (chainStates tr (tr.dictLink.getD j 0) fuel).map
        (fun u => (i, tr'.dict.getD u 0, tr'.pattern.getD u 0)) := by
  intro fuel
  induction fuel with
  | zero => intro j; rfl
  | succ fuel ih =>
    intro j
    rw [chainStates]
    by_cases hu : tr.dictLink.getD j 0 = nilState
    · rw [if_pos hu]; rfl
    · rw [if_neg hu]
      have hu0 : tr.dictLink.getD j 0 ≠ 0 := hu
      have hdu : tr.dict.getD (tr.dictLink.getD j 0) 0 ≠ 0 := hacc j hu0
      rw [List.map_cons, List.map_cons]
      rw [hd (tr.dictLink.getD j 0), hp _ hdu]
      rw [ih (tr.dictLink.getD j 0)]

theorem stateEmits_congr {tr tr' : Trie}
    (hd : ∀ u, tr.dict.getD u 0 = tr'.dict.getD u 0)
    (hdl : ∀ u, tr.dictLink.getD u 0 = tr'.dictLink.getD u 0)
    (hlen : tr.dictLink.length = tr'.dictLink.length)
    (hacc : ∀ j, tr.dictLink.getD j 0 ≠ 0 →
      tr.dict.getD (tr.dictLink.getD j 0) 0 ≠ 0)
    (hp : ∀ u, tr.dict.getD u 0 ≠ 0 →
      tr.pattern.getD u 0 = tr'.pattern.getD u 0)
    (i : Nat) (s : Nat) :
    stateEmits tr i s = stateEmits tr' i s := by
  unfold stateEmits
  have hfix : ((chainStates tr (tr.dictLink.getD s 0) tr.dictLink.length).map
      (fun u => (i, tr.dict.getD u 0, tr.pattern.getD u 0))) =
      ((chainStates tr' (tr'.dictLink.getD s 0) tr'.dictLink.length).map
      (fun u => (i, tr'.dict.getD u 0, tr'.pattern.getD u 0))) := by
    have hchain := chain_emits_congr hd hdl hacc hp i tr.dictLink.length s
    refine hchain.trans ?_
    rw [chainStates_congr hdl, hdl s, hlen]
  rw [hfix]
  congr 1
  by_cases hds : tr.dict.getD s 0 = 0
  · have hds' : tr'.dict.getD s 0 = 0 := by rw [← hd s]; exact hds
    rw [if_neg (not_not_intro hds), if_neg (not_not_intro hds')]
  · have hds' : tr'.dict.getD s 0 ≠ 0 := by rw [← hd s]; exact hds
    rw [if_pos hds, if_pos hds', hd s, hp s hds]

theorem emitFrom_congr {tr tr' : Trie}
    (hft : ∀ s c, (tr.failTrans.getD s []).getD c 0 =
      (tr'.failTrans.getD s []).getD c 0)
    (hd : ∀ u, tr.dict.getD u 0 = tr'.dict.getD u 0)
    (hdl : ∀ u, tr.dictLink.getD u 0 = tr'.dictLink.getD u 0)
    (hlen : tr.dictLink.length = tr'.dictLink.length)
    (hacc : ∀ j, tr.dictLink.getD j 0 ≠ 0 →
      tr.dict.getD (tr.dictLink.getD j 0) 0 ≠ 0)
    (hp : ∀ u, tr.dict.getD u 0 ≠ 0 →
      tr.pattern.getD u 0 = tr'.pattern.getD u 0) :
    ∀ (input : List Nat) (i : Nat) (s : Nat),
      emitFrom tr input i s = emitFrom tr' input i s := by
  intro input
  induction input with
  | nil => intro i s; rfl
  | cons c rest ih =>
    intro i s
    rw [emitFrom, emitFrom]
    rw [show (tr.failTrans.getD s []).getD c 0 =
      (tr'.failTrans.getD s []).getD c 0 from hft s c]
    rw [stateEmits_congr hd hdl hlen hacc hp, ih]

/-- C10: adding the empty pattern leaves the automaton's match behavior
unchanged for every input — the root's dictionary-length field is assigned
the empty pattern's length, 0, so the root never becomes accepting and no
length-0 match is ever reported; the only observable effect is that the
pattern counter is incremented (shifting indices of later patterns). -/
theorem claim_C10_empty_pattern (pats : List (List Nat)) :
    (∀ input : List Nat,
      ((builderOf pats).addPattern []).build.matchAll input =
        (builderOf pats).build.matchAll input) ∧
    ((builderOf pats).addPattern []).numPatterns =
      (builderOf pats).numPatterns + 1 ∧
    (((builderOf pats).addPattern []).state 1).dict = 0 := by
  have hwB := builderOf_wf pats
  have hwE := (addPattern_wf (builderOf pats) [] hwB).1
  have hEeq : (builderOf pats).addPattern [] = builderOf (pats ++ [[]]) :=
    (builderOf_append pats []).symm
  have hlenE : ((builderOf pats).addPattern []).states.length =
      (builderOf pats).states.length := by
    rw [addPattern_length, addPatternLoop_nil]
  have hroot1 : (rootState : Nat) = 1 := rfl
  have hR : BuilderEqNoPat ((builderOf pats).addPattern []) (builderOf pats) := by
    refine ⟨hlenE, ?_⟩
    intro j
    rw [addPattern_state (builderOf pats) [] j, addPatternLoop_nil,
      state_modify_cases]
    by_cases hc : rootState = j ∧ rootState < (builderOf pats).states.length
    · rw [if_pos hc]
      obtain ⟨hj, _⟩ := hc
      subst hj
      refine ⟨rfl, rfl, rfl, ?_, rfl, rfl⟩
      show ([] : List Nat).length = ((builderOf pats).state rootState).dict
      rw [hroot1, hwB.root_dict]
      rfl
    · rw [if_neg hc]
      exact eqNoPat_refl _
  have hRL := linked_congr hR
  have hPat : ∀ j, j ≠ 1 →
      ((linked ((builderOf pats).addPattern [])).state j).pattern =
        ((linked (builderOf pats)).state j).pattern := by
    intro j hj
    rw [linked_pattern, linked_pattern, addPattern_state (builderOf pats) [] j,
      addPatternLoop_nil, state_modify_cases,
      if_neg (by rw [hroot1]; tauto)]
  have hlen' : ((builderOf pats).addPattern []).build.dictLink.length =
      (builderOf pats).build.dictLink.length := by
    rw [build_dictLink_length, build_dictLink_length, hlenE]
  have hd : ∀ u, ((builderOf pats).addPattern []).build.dict.getD u 0 =
      (builderOf pats).build.dict.getD u 0 := by
    intro u
    by_cases hu : u < (builderOf pats).states.length
    · rw [build_dict_getD _ u (by omega), build_dict_getD _ u hu]
      exact (hRL.2 u).2.2.2.1
    · rw [List.getD_eq_default _ _ (by rw [build_dict_length]; omega),
        List.getD_eq_default _ _ (by rw [build_dict_length]; omega)]
  have hdl : ∀ u, ((builderOf pats).addPattern []).build.dictLink.getD u 0 =
      (builderOf pats).build.dictLink.getD u 0 := by
    intro u
    by_cases hu : u < (builderOf pats).states.length
    · rw [build_dictLink_getD _ u (by omega), build_dictLink_getD _ u hu]
      rw [(hRL.2 u).2.2.2.2.2]
    · rw [List.getD_eq_default _ _ (by rw [build_dictLink_length]; omega),
        List.getD_eq_default _ _ (by rw [build_dictLink_length]; omega)]
  have hft : ∀ s c,
      (((builderOf pats).addPattern []).build.failTrans.getD s []).getD c 0 =
        ((builderOf pats).build.failTrans.getD s []).getD c 0 := by
    intro s c
    by_cases hs : s < (builderOf pats).states.length
    · by_cases hc : c < 256
      · rw [build_failTrans_entry _ s c (by omega) hc,
          build_failTrans_entry _ s c hs hc]
        unfold TrieBuilder.computeFailTransition
        rw [failSearch_congr hRL, hRL.1]
      · rw [build_failTrans_row _ s (by omega), build_failTrans_row _ s hs]
        rw [List.getD_eq_default _ _ (by simp; omega),
          List.getD_eq_default _ _ (by simp; omega)]
    · rw [List.getD_eq_default ((builderOf pats).addPattern []).build.failTrans
        []
        (show ((builderOf pats).addPattern []).build.failTrans.length ≤ s by
          rw [build_failTrans_length]; omega)]
      rw [List.getD_eq_default (builderOf pats).build.failTrans []
        (show (builderOf pats).build.failTrans.length ≤ s by
          rw [build_failTrans_length]; omega)]
  have haccE := built_dictLink_acc (pats ++ [[]])
  rw [← hEeq] at haccE
  have hacc : ∀ j,
      ((builderOf pats).addPattern []).build.dictLink.getD j 0 ≠ 0 →
      ((builderOf pats).addPattern []).build.dict.getD
        (((builderOf pats).addPattern []).build.dictLink.getD j 0) 0 ≠ 0 := by
    intro j hne
    by_cases hj : j < ((builderOf pats).addPattern []).states.length
    · rw [build_dictLink_getD _ j hj] at hne ⊢
      cases ho : ((linked ((builderOf pats).addPattern [])).state j).dictLink
        with
      | none => rw [ho] at hne; exact absurd rfl hne
      | some u =>
        rw [ho] at hne
        have hd1 := haccE j u ho
        have hu : u < ((builderOf pats).addPattern []).states.length := by
          by_contra hu
          have : (linked ((builderOf pats).addPattern [])).state u =
              BState.mk0 0 none := by
            refine state_of_ge _ _ ?_
            rw [linked_length]
            omega
          rw [this] at hd1
          simp [BState.mk0] at hd1
        rw [show (some u).getD 0 = u from rfl]
        rw [build_dict_getD _ u hu]
        omega
    · rw [List.getD_eq_default _ _
        (by rw [build_dictLink_length]; omega)] at hne
      exact absurd rfl hne
  have hp : ∀ u, ((builderOf pats).addPattern []).build.dict.getD u 0 ≠ 0 →
      ((builderOf pats).addPattern []).build.pattern.getD u 0 =
        (builderOf pats).build.pattern.getD u 0 := by
    intro u hdu
    by_cases hu : u < ((builderOf pats).addPattern []).states.length
    · have hu1 : u ≠ 1 := by
        intro h1
        subst h1
        rw [build_dict_getD _ 1 hu, linked_dict, hwE.root_dict] at hdu
        exact hdu rfl
      rw [build_pattern_getD _ u hu, build_pattern_getD _ u (by omega)]
      exact hPat u hu1
    · rw [List.getD_eq_default _ _
        (by rw [build_dict_length]; omega)] at hdu
      exact absurd rfl hdu
  refine ⟨?_, addPattern_numPatterns _ _, ?_⟩
  · intro input
    rw [matchAll_eq_emissions, matchAll_eq_emissions, emissions_eq_emitFrom,
      emissions_eq_emitFrom, emitFrom_congr hft hd hdl hlen' hacc hp]
  · exact hwE.root_dict

/-! ### The word spelled by a state -/

/-- The word spelled from the root to state `s`, following parent links
(ids strictly decrease along parents in well-formed builders). -/
def strOf (tb : TrieBuilder) (s : Nat) : List Nat :=
  if _ : s ≤ 1 then []
  else
    match (tb.state s).parent with
    | none => []
    | some p =>
      if h2 : p < s then strOf tb p ++ [(tb.state s).value] else []
termination_by s
decreasing_by exact h2

theorem strOf_le_one (tb : TrieBuilder) (s : Nat) (hs : s ≤ 1) :
    strOf tb s = [] := by
  rw [strOf, dif_pos hs]

theorem strOf_edge (tb : TrieBuilder) (h : WF tb) {p c t : Nat}
    (hl : ((tb.state p).trans).lookup c = some t) :
    strOf tb t = strOf tb p ++ [c] := by
  have h2 : 2 ≤ t := h.edge_lo p c t hl
  have hpar : (tb.state t).parent = some p := h.edge_parent p c t hl
  have hval : (tb.state t).value = c := h.edge_value p c t hl
  have hmono : p < t := h.edge_mono p c t hl
  rw [strOf, dif_neg (by omega), hpar]
  dsimp only
  rw [dif_pos hmono, hval]

theorem descend_strOf (tb : TrieBuilder) (h : WF tb) :
    ∀ (w : List Nat) (s t : Nat), descend tb s w = some t →
      strOf tb t = strOf tb s ++ w := by
  intro w
  induction w with
  | nil =>
    intro s t hd
    rw [descend] at hd
    cases hd
    simp
  | cons c rest ih =>
    intro s t hd
    rw [descend] at hd
    cases hl : ((tb.state s).trans).lookup c with
    | some u =>
      rw [hl] at hd
      rw [ih u t hd, strOf_edge tb h hl]
      simp
    | none => rw [hl] at hd; exact absurd hd (by simp)

theorem reach_strOf (tb : TrieBuilder) (h : WF tb) {w : List Nat} {t : Nat}
    (hr : reach tb w = some t) : strOf tb t = w := by
  have := descend_strOf tb h w rootState t hr
  rwa [strOf_le_one tb rootState (by norm_num [rootState]),
    List.nil_append] at this

theorem descend_append (tb : TrieBuilder) :
    ∀ (w1 w2 : List Nat) (s : Nat),
      descend tb s (w1 ++ w2) =
        match descend tb s w1 with
        | some m => descend tb m w2
        | none => none := by
  intro w1
  induction w1 with
  | nil => intro w2 s; rfl
  | cons c rest ih =>
    intro w2 s
    rw [List.cons_append, descend, descend]
    cases ((tb.state s).trans).lookup c with
    | some u => exact ih w2 u
    | none => rfl

theorem reach_snoc (tb : TrieBuilder) {w : List Nat} {m : Nat}
    (hr : reach tb w = some m) (c : Nat) :
    reach tb (w ++ [c]) =
      match ((tb.state m).trans).lookup c with
      | some t => some t
      | none => none := by
  rw [reach, descend_append, ← reach, hr]
  show descend tb m [c] = _
  simp only [descend]

/-- Prefix closure: a reachable word's prefixes are reachable. -/
theorem reach_take (tb : TrieBuilder) {w1 w2 : List Nat}
    (h : (reach tb (w1 ++ w2)).isSome) : (reach tb w1).isSome := by
  rw [reach, descend_append] at h
  cases hd : descend tb rootState w1 with
  | some m => rw [reach, hd]; rfl
  | none => rw [hd] at h; simp at h

theorem reach_nil (tb : TrieBuilder) : reach tb [] = some rootState := rfl

theorem descend_valid (tb : TrieBuilder) (h : WF tb) :
    ∀ (w : List Nat) (s t : Nat), descend tb s w = some t →
      1 ≤ s → s < tb.states.length → 1 ≤ t ∧ t < tb.states.length := by
  intro w
  induction w with
  | nil =>
    intro s t hd h1 h2
    rw [descend] at hd
    cases hd
    exact ⟨h1, h2⟩
  | cons c rest ih =>
    intro s t hd h1 h2
    rw [descend] at hd
    cases hl : ((tb.state s).trans).lookup c with
    | some u =>
      rw [hl] at hd
      exact ih u t hd (by have := h.edge_lo s c u hl; omega)
        (h.edge_hi s c u hl)
    | none => rw [hl] at hd; exact absurd hd (by simp)

theorem reach_valid (tb : TrieBuilder) (h : WF tb) {w : List Nat}
    {t : Nat} (hr : reach tb w = some t) : 1 ≤ t ∧ t < tb.states.length :=
  descend_valid tb h w rootState t hr (by norm_num [rootState])
    (by have := h.len2; rw [rootState]; omega)

theorem reach_root_iff_nil (tb : TrieBuilder) (h : WF tb) {w : List Nat}
    (hr : reach tb w = some 1) : w = [] := by
  cases w with
  | nil => rfl
  | cons c rest =>
    exfalso
    have hs := reach_strOf tb h hr
    rw [strOf_le_one tb 1 (le_refl 1)] at hs
    exact absurd hs.symm (by simp)

theorem strOf_length_le (tb : TrieBuilder) :
    ∀ (s : Nat), (strOf tb s).length ≤ s := by
  intro s
  induction s using Nat.strong_induction_on with
  | _ s ih =>
    rw [strOf]
    by_cases hs : s ≤ 1
    · rw [dif_pos hs]; simp
    · rw [dif_neg hs]
      cases hp : (tb.state s).parent with
      | none => simp
      | some p =>
        dsimp only
        by_cases h2 : p < s
        · rw [dif_pos h2]
          have := ih p h2
          simp only [List.length_append, List.length_cons, List.length_nil]
          omega
        · rw [dif_neg h2]; simp

/-! ### Longest present suffixes -/

/-- The longest suffix of `w` that is a word of the trie (the empty suffix
always is). -/
def lpsWord (tb : TrieBuilder) : List Nat → List Nat
  | [] => []
  | c :: w' => if (reach tb (c :: w')).isSome then c :: w' else lpsWord tb w'

/-- The state of the longest present suffix of `w`. -/
def sufState (tb : TrieBuilder) (w : List Nat) : Nat :=
  (reach tb (lpsWord tb w)).getD 1

/-- The state reached on byte `c` by the goto-else-follow-failure rule from
the state of `w`: the longest suffix `v` of `w` with `v ++ [c]` present,
else the root. -/
def extTrans (tb : TrieBuilder) (c : Nat) : List Nat → Nat
  | [] =>
    match reach tb [c] with
    | some t => t
    | none => rootState
  | a :: w' =>
    match reach tb (a :: (w' ++ [c])) with
    | some t => t
    | none => extTrans tb c w'

theorem lpsWord_present (tb : TrieBuilder) :
    ∀ w : List Nat, (reach tb (lpsWord tb w)).isSome := by
  intro w
  induction w with
  | nil => rw [lpsWord, reach_nil]; rfl
  | cons c w' ih =>
    rw [lpsWord]
    by_cases hp : (reach tb (c :: w')).isSome
    · rw [if_pos hp]; exact hp
    · rw [if_neg hp]; exact ih

theorem lpsWord_suffix (tb : TrieBuilder) :
    ∀ w : List Nat, lpsWord tb w <:+ w := by
  intro w
  induction w with
  | nil => exact List.suffix_refl _
  | cons c w' ih =>
    rw [lpsWord]
    by_cases hp : (reach tb (c :: w')).isSome
    · rw [if_pos hp]
    · rw [if_neg hp]
      exact ih.trans (List.suffix_cons c w')

theorem lpsWord_max (tb : TrieBuilder) :
    ∀ (w v : List Nat), v <:+ w → (reach tb v).isSome →
      v <:+ lpsWord tb w := by
  intro w
  induction w with
  | nil =>
    intro v hv _
    rw [List.suffix_nil] at hv
    subst hv
    exact List.suffix_refl _
  | cons c w' ih =>
    intro v hv hp
    rw [lpsWord]
    by_cases hw : (reach tb (c :: w')).isSome
    · rw [if_pos hw]; exact hv
    · rw [if_neg hw]
      rcases List.suffix_cons_iff.mp hv with hve | hvs
      · subst hve; exact absurd hp hw
      · exact ih v hvs hp

theorem lpsWord_of_present (tb : TrieBuilder) {w : List Nat}
    (h : (reach tb w).isSome) : lpsWord tb w = w := by
  cases w with
  | nil => rfl
  | cons c w' => rw [lpsWord, if_pos h]

theorem sufState_reach (tb : TrieBuilder) (w : List Nat) :
    reach tb (lpsWord tb w) = some (sufState tb w) := by
  have := lpsWord_present tb w
  cases hr : reach tb (lpsWord tb w) with
  | none => rw [hr] at this; exact absurd this (by simp)
  | some m => rw [sufState, hr]; rfl

theorem extTrans_of_present (tb : TrieBuilder) {w : List Nat} {c t : Nat}
    (h : reach tb (w ++ [c]) = some t) : extTrans tb c w = t := by
  cases w with
  | nil =>
    rw [show ([] : List Nat) ++ [c] = [c] from rfl] at h
    simp only [extTrans]
    rw [h]
  | cons a w' =>
    rw [List.cons_append] at h
    simp only [extTrans]
    rw [h]

theorem extTrans_eq_sufState_snoc (tb : TrieBuilder) (c : Nat) :
    ∀ w : List Nat, extTrans tb c w = sufState tb (w ++ [c]) := by
  intro w
  induction w with
  | nil =>
    simp only [extTrans, sufState, List.nil_append, lpsWord]
    cases hr : reach tb [c] with
    | some t =>
      rw [if_pos (show (Option.some t).isSome = true from rfl), hr]
      rfl
    | none =>
      rw [if_neg (by simp)]
      simp only [lpsWord, reach_nil]
      rfl
  | cons a w' ih =>
    simp only [extTrans, sufState, List.cons_append, List.append_eq, lpsWord]
    cases hr : reach tb (a :: (w' ++ [c])) with
    | some t =>
      rw [if_pos (show (Option.some t).isSome = true from rfl), hr]
      rfl
    | none =>
      rw [if_neg (by simp)]
      show extTrans tb c w' = _
      rw [ih, sufState]

theorem extTrans_lpsWord (tb : TrieBuilder) (c : Nat) :
    ∀ w : List Nat, extTrans tb c (lpsWord tb w) = extTrans tb c w := by
  intro w
  induction w with
  | nil => rfl
  | cons a w' ih =>
    rw [lpsWord]
    by_cases hp : (reach tb (a :: w')).isSome
    · rw [if_pos hp]
    · rw [if_neg hp, ih]
      have hnone : reach tb (a :: (w' ++ [c])) = none := by
        cases hr : reach tb (a :: (w' ++ [c])) with
        | none => rfl
        | some t =>
          exfalso
          have : (reach tb ((a :: w') ++ [c])).isSome := by
            rw [List.cons_append, hr]; rfl
          exact hp (reach_take tb this)
      rw [show extTrans tb c (a :: w') = extTrans tb c w' from by
        simp only [extTrans]
        rw [hnone]]

/-- The scan-step equation: the longest present suffix after appending a
byte is the goto-else-follow-failure step from the previous longest present
suffix. -/
theorem sufState_snoc (tb : TrieBuilder) (x : List Nat) (c : Nat) :
    sufState tb (x ++ [c]) = extTrans tb c (lpsWord tb x) := by
  rw [extTrans_lpsWord, extTrans_eq_sufState_snoc]

/-! ### The fail chase computes goto-else-follow-failure -/

/-- The correct fail value for a state spelling `z`: the state of the
longest proper suffix of `z` in the trie (root when `z` is a byte or
empty). -/
def failSpecW (tb : TrieBuilder) : List Nat → Nat
  | [] => rootState
  | _ :: z' => sufState tb z'

/-- The correct fail value for state `t`. -/
def failSpec (tb : TrieBuilder) (t : Nat) : Nat :=
  failSpecW tb (strOf tb t)

theorem chaseFrom (B tbc : TrieBuilder) (hw : WF B)
    (hEq : ∀ j, ((tbc.state j).trans) = ((B.state j).trans))
    (D : Nat)
    (hSet : ∀ u, 2 ≤ u → u < B.states.length →
      (strOf B u).length ≤ D → (tbc.state u).failLink = some (failSpec B u))
    (hRoot : (tbc.state 1).failLink = none) (c : Nat) :
    ∀ (n : Nat) (w : List Nat) (m : Nat) (fuel : Nat), w.length ≤ n →
      w.length ≤ D → w.length < fuel → reach B w = some m →
      failSearch tbc c (some m) fuel = extTrans B c w := by
  intro n
  induction n using Nat.strong_induction_on with
  | _ n ih =>
    intro w m fuel hn hD hfuel hr
    cases fuel with
    | zero => omega
    | succ fuel =>
      rw [failSearch, hEq m]
      cases hl : ((B.state m).trans).lookup c with
      | some t =>
        have : reach B (w ++ [c]) = some t := by
          rw [reach_snoc B hr c, hl]
        rw [extTrans_of_present B this]
      | none =>
        have hnone : reach B (w ++ [c]) = none := by
          rw [reach_snoc B hr c, hl]
        cases w with
        | nil =>
          rw [reach_nil] at hr
          cases hr
          rw [show ([] : List Nat) ++ [c] = [c] from rfl] at hnone
          show failSearch tbc c ((tbc.state 1).failLink) fuel = extTrans B c []
          rw [hRoot]
          simp only [extTrans]
          rw [hnone]
          cases fuel <;> rfl
        | cons a w' =>
          have hm2 : 2 ≤ m := by
            rcases reach_valid B hw hr with ⟨h1, _⟩
            rcases Nat.lt_or_ge m 2 with hlt | hge
            · interval_cases m
              exact absurd (reach_root_iff_nil B hw hr) (by simp)
            · exact hge
          have hmlen : m < B.states.length := (reach_valid B hw hr).2
          have hstr : strOf B m = a :: w' := reach_strOf B hw hr
          rw [hSet m hm2 hmlen (by rw [hstr]; omega)]
          rw [failSpec, hstr, failSpecW]
          have hu := sufState_reach B w'
          have hulen : (lpsWord B w').length ≤ w'.length :=
            (lpsWord_suffix B w').length_le
          have := ih w'.length (by simp at hn; omega) (lpsWord B w')
            (sufState B w') fuel hulen (by simp at hD; omega)
            (by simp at hfuel; omega) hu
          rw [this, extTrans_lpsWord]
          rw [List.cons_append] at hnone
          simp only [extTrans, hnone]

theorem chaseFail (B tbc : TrieBuilder) (hw : WF B)
    (hEq : ∀ j, ((tbc.state j).trans) = ((B.state j).trans))
    (D : Nat)
    (hSet : ∀ u, 2 ≤ u → u < B.states.length →
      (strOf B u).length ≤ D → (tbc.state u).failLink = some (failSpec B u))
    (hRoot : (tbc.state 1).failLink = none) (c : Nat)
    (w : List Nat) (m : Nat) (fuel : Nat) (hD : w.length ≤ D)
    (hfuel : w.length < fuel) (hr : reach B w = some m) :
    failSearch tbc c ((tbc.state m).failLink) fuel =
      failSpecW B (w ++ [c]) := by
  cases w with
  | nil =>
    rw [reach_nil] at hr
    cases hr
    show failSearch tbc c ((tbc.state 1).failLink) fuel = _
    rw [hRoot]
    rw [show ([] : List Nat) ++ [c] = [c] from rfl]
    simp only [failSpecW]
    rw [show sufState B [] = 1 from rfl]
    cases fuel <;> rfl
  | cons a w' =>
    have hm2 : 2 ≤ m := by
      rcases reach_valid B hw hr with ⟨h1, _⟩
      rcases Nat.lt_or_ge m 2 with hlt | hge
      · interval_cases m
        exact absurd (reach_root_iff_nil B hw hr) (by simp)
      · exact hge
    have hmlen : m < B.states.length := (reach_valid B hw hr).2
    have hstr : strOf B m = a :: w' := reach_strOf B hw hr
    rw [hSet m hm2 hmlen (by rw [hstr]; omega)]
    rw [failSpec, hstr, failSpecW]
    have hu := sufState_reach B w'
    have hulen : (lpsWord B w').length ≤ w'.length :=
      (lpsWord_suffix B w').length_le
    have := chaseFrom B tbc hw hEq D hSet hRoot c w'.length (lpsWord B w')
      (sufState B w') fuel hulen (by simp at hD; omega)
      (by simp at hfuel; omega) hu
    rw [this, extTrans_lpsWord, extTrans_eq_sufState_snoc]
    rw [show (a :: w') ++ [c] = a :: (w' ++ [c]) from rfl]
    simp only [failSpecW]

/-! ### BFS fail-link pass correctness -/

theorem strOf_parent (tb : TrieBuilder) (h : WF tb) {u : Nat}
    (h2 : 2 ≤ u) (hlen : u < tb.states.length) :
    ∃ p, ((tb.state u).parent) = some p ∧ 1 ≤ p ∧ p < u ∧
      p < tb.states.length ∧
      (((tb.state p).trans).lookup (tb.state u).value) = some u ∧
      strOf tb u = strOf tb p ++ [(tb.state u).value] := by
  obtain ⟨p, hp, hplt, hp0, hlk⟩ := h.parent_edge u h2 hlen
  exact ⟨p, hp, Nat.one_le_iff_ne_zero.mpr hp0, hplt,
    Nat.lt_trans hplt hlen, hlk, strOf_edge tb h hlk⟩

theorem strOf_reach (tb : TrieBuilder) (h : WF tb) :
    ∀ u, 1 ≤ u → u < tb.states.length →
      reach tb (strOf tb u) = some u := by
  intro u
  induction u using Nat.strong_induction_on with
  | _ u ih =>
    intro h1 hlen
    rcases Nat.lt_or_ge u 2 with hlt | h2
    · interval_cases u
      rw [strOf_le_one tb 1 (le_refl 1)]
      exact reach_nil tb
    · obtain ⟨p, hp, hp1, hplt, hpl, hlk, hstr⟩ := strOf_parent tb h h2 hlen
      rw [hstr, reach_snoc tb (ih p hplt hp1 hpl), hlk]

theorem trans_targets_nodup (tb : TrieBuilder) (h : WF tb) (s : Nat) :
    ((((tb.state s).trans).map Prod.snd)).Nodup := by
  have hk := h.keys_nodup s
  refine List.Nodup.map_on ?_ (List.Nodup.of_map _ hk)
  rintro ⟨cx, tx⟩ hx ⟨cy, ty⟩ hy hxy
  dsimp at hxy
  subst hxy
  have hvx := h.edge_value s cx tx (mem_lookup_of_nodup hk hx)
  have hvy := h.edge_value s cy tx (mem_lookup_of_nodup hk hy)
  rw [show cx = cy from by rw [← hvx, hvy]]

theorem nodup_mem_length (l : List Nat) (n : Nat) (hn : l.Nodup)
    (h1 : 1 ∈ l) (hv : ∀ x ∈ l, 1 ≤ x ∧ x < n) : l.length + 1 ≤ n := by
  have hsub : l.toFinset ⊆ Finset.Ico 1 n := by
    intro x hx
    rw [List.mem_toFinset] at hx
    exact Finset.mem_Ico.mpr (hv x hx)
  have hcard := Finset.card_le_card hsub
  rw [List.toFinset_card_of_nodup hn, Nat.card_Ico] at hcard
  have := (hv 1 h1).2
  omega

theorem pairwise_of_forall_mem {α : Type} {R : α → α → Prop} :
    ∀ (l : List α), (∀ a ∈ l, ∀ b ∈ l, R a b) → l.Pairwise R := by
  intro l
  induction l with
  | nil => intro _; exact List.Pairwise.nil
  | cons x xs ih =>
    intro h
    refine List.Pairwise.cons ?_ (ih ?_)
    · intro b hb; exact h x (by simp) b (by simp [hb])
    · intro a ha b hb; exact h a (by simp [ha]) b (by simp [hb])

/-- Layer completeness of the BFS front: if every node whose parent is
already popped is on the front or popped, and the whole front is at depth
`≥ d`, then every node of depth `≤ d` is popped or on the front. -/
theorem bfs_cover (B : TrieBuilder) (hw : WF B) (done queue : List Nat)
    (d : Nat) (hroot : 1 ∈ done ++ queue)
    (hext : ∀ u p, 2 ≤ u → u < B.states.length →
      ((B.state u).parent) = some p → p ∈ done → u ∈ done ++ queue)
    (hq : ∀ a ∈ queue, d ≤ (strOf B a).length) :
    ∀ u, 1 ≤ u → u < B.states.length → (strOf B u).length ≤ d →
      u ∈ done ++ queue := by
  intro u
  induction u using Nat.strong_induction_on with
  | _ u ih =>
    intro h1 hlen hd
    rcases Nat.lt_or_ge u 2 with hlt | h2
    · interval_cases u
      exact hroot
    · obtain ⟨p, hp, hp1, hplt, hpl, hlk, hstr⟩ := strOf_parent B hw h2 hlen
      have hdp : (strOf B p).length + 1 ≤ d := by
        rw [hstr] at hd; simp at hd; omega
      have hpmem : p ∈ done ++ queue := ih p hplt hp1 hpl (by omega)
      rcases List.mem_append.mp hpmem with hpd | hpq
      · exact hext u p h2 hlen hp hpd
      · exact absurd (hq p hpq) (by omega)

/-- One BFS pop: folding `failStep` over the popped state's edge list
appends exactly the child ids to the queue, writes each child's fail link
to its specified value, and touches nothing else. -/
theorem failStep_foldl_master (B : TrieBuilder) (hw : WF B) (s : Nat)
    (hrs : reach B (strOf B s) = some s) :
    ∀ (L : List (Nat × Nat)) (tbc : TrieBuilder) (acc : List Nat),
      tbc.states.length = B.states.length →
      (∀ j, ((tbc.state j).trans) = ((B.state j).trans)) →
      (∀ j, ((tbc.state j).value) = ((B.state j).value)) →
      ((tbc.state 1).failLink) = none →
      (∀ pr ∈ L, (((B.state s).trans).lookup pr.1) = some pr.2) →
      (∀ u, 2 ≤ u → u < B.states.length →
        (strOf B u).length ≤ (strOf B s).length →
        ((tbc.state u).failLink) = some (failSpec B u)) →
      ((L.foldl (failStep s) (tbc, acc)).2 = acc ++ L.map Prod.snd) ∧
      ((L.foldl (failStep s) (tbc, acc)).1.states.length =
        B.states.length) ∧
      (∀ j, (((L.foldl (failStep s) (tbc, acc)).1.state j).trans) =
        ((B.state j).trans)) ∧
      (∀ j, (((L.foldl (failStep s) (tbc, acc)).1.state j).value) =
        ((B.state j).value)) ∧
      (∀ j, ¬ j ∈ L.map Prod.snd →
        (((L.foldl (failStep s) (tbc, acc)).1.state j).failLink) =
          ((tbc.state j).failLink)) ∧
      (∀ pr ∈ L,
        (((L.foldl (failStep s) (tbc, acc)).1.state pr.2).failLink) =
          some (failSpec B pr.2)) := by
  intro L
  induction L with
  | nil =>
    intro tbc acc hlen htr hval hroot hL hSet
    exact ⟨by simp, hlen, htr, hval, fun j _ => rfl, by simp⟩
  | cons pr L' ih =>
    intro tbc acc hlen htr hval hroot hL hSet
    obtain ⟨c, t⟩ := pr
    have hlk : (((B.state s).trans).lookup c) = some t := hL (c, t) (by simp)
    have ht2 : 2 ≤ t := hw.edge_lo s c t hlk
    have htlen : t < B.states.length := hw.edge_hi s c t hlk
    have hslen : s < B.states.length :=
      Nat.lt_trans (hw.edge_mono s c t hlk) htlen
    have hstrT : strOf B t = strOf B s ++ [c] := strOf_edge B hw hlk
    have hvt : ((tbc.state t).value) = c := by
      rw [hval t]; exact hw.edge_value s c t hlk
    have hchase : failSearch tbc ((tbc.state t).value)
        ((tbc.state s).failLink) tbc.states.length = failSpec B t := by
      rw [hvt, hlen]
      have hc := chaseFail B tbc hw htr ((strOf B s).length) hSet hroot c
        (strOf B s) s B.states.length (le_refl _)
        (by have := strOf_length_le B s; omega) hrs
      rw [hc, failSpec, hstrT]
    have h1len : (tbc.modifyState t (fun st =>
        { st with failLink := some (failSearch tbc ((tbc.state t).value)
          ((tbc.state s).failLink) tbc.states.length) })).states.length =
        B.states.length := by
      rw [modifyState_length]; exact hlen
    have htlt : t < tbc.states.length := by rw [hlen]; exact htlen
    have h1tr : ∀ j, (((tbc.modifyState t (fun st =>
        { st with failLink := some (failSearch tbc ((tbc.state t).value)
          ((tbc.state s).failLink) tbc.states.length) })).state j).trans) =
        ((B.state j).trans) := by
      intro j
      rcases eq_or_ne t j with rfl | hne
      · rw [state_modify_self tbc t _ htlt]; exact htr t
      · rw [state_modify_ne tbc t j _ hne]; exact htr j
    have h1val : ∀ j, (((tbc.modifyState t (fun st =>
        { st with failLink := some (failSearch tbc ((tbc.state t).value)
          ((tbc.state s).failLink) tbc.states.length) })).state j).value) =
        ((B.state j).value) := by
      intro j
      rcases eq_or_ne t j with rfl | hne
      · rw [state_modify_self tbc t _ htlt]; exact hval t
      · rw [state_modify_ne tbc t j _ hne]; exact hval j
    have h1root : (((tbc.modifyState t (fun st =>
        { st with failLink := some (failSearch tbc ((tbc.state t).value)
          ((tbc.state s).failLink) tbc.states.length) })).state 1).failLink) =
        none := by
      rw [state_modify_ne tbc t 1 _ (by omega)]; exact hroot
    have h1L : ∀ pr ∈ L', (((B.state s).trans).lookup pr.1) = some pr.2 :=
      fun pr hpr => hL pr (List.mem_cons_of_mem _ hpr)
    have h1Set : ∀ u, 2 ≤ u → u < B.states.length →
        (strOf B u).length ≤ (strOf B s).length →
        (((tbc.modifyState t (fun st =>
          { st with failLink := some (failSearch tbc ((tbc.state t).value)
            ((tbc.state s).failLink) tbc.states.length) })).state u).failLink) =
        some (failSpec B u) := by
      intro u hu2 hulen hud
      have hne : t ≠ u := by
        rintro rfl
        rw [hstrT] at hud
        simp at hud
      rw [state_modify_ne tbc t u _ hne]
      exact hSet u hu2 hulen hud
    obtain ⟨q1, q2, q3, q4, q5, q6⟩ := ih (tbc.modifyState t (fun st =>
        { st with failLink := some (failSearch tbc ((tbc.state t).value)
          ((tbc.state s).failLink) tbc.states.length) })) (acc ++ [t])
      h1len h1tr h1val h1root h1L h1Set
    rw [show ((c, t) :: L').foldl (failStep s) (tbc, acc) =
        L'.foldl (failStep s) (tbc.modifyState t (fun st =>
          { st with failLink := some (failSearch tbc ((tbc.state t).value)
            ((tbc.state s).failLink) tbc.states.length) }), acc ++ [t])
      from rfl]
    refine ⟨by rw [q1]; simp, q2, q3, q4, ?_, ?_⟩
    · intro j hj
      rw [List.map_cons] at hj
      simp only [List.mem_cons] at hj
      push_neg at hj
      rw [q5 j hj.2, state_modify_ne tbc t j _ (fun he => hj.1 he.symm)]
    · rintro ⟨c2, t2⟩ hpr
      rcases List.mem_cons.mp hpr with heq | hmem
      · injection heq with hc2 ht2eq
        subst hc2
        rw [ht2eq]
        by_cases hmem2 : t ∈ L'.map Prod.snd
        · obtain ⟨pr2, hpr2, hsnd⟩ := List.mem_map.mp hmem2
          have hq6 := q6 pr2 hpr2
          rw [hsnd] at hq6
          exact hq6
        · rw [q5 t hmem2, state_modify_self tbc t _ htlt]
          show some (failSearch tbc ((tbc.state t).value)
            ((tbc.state s).failLink) tbc.states.length) = _
          rw [hchase]
      · exact q6 (c2, t2) hmem

/-- The BFS queue loop of `computeFailLinks`, under its full invariant:
when the loop finishes, every non-root node's fail link holds its
specified value and the root's stays unset. -/
theorem failLoop_master (B : TrieBuilder) (hw : WF B) :
    ∀ (fuel : Nat) (tbc : TrieBuilder) (queue done : List Nat),
      tbc.states.length = B.states.length →
      (∀ j, ((tbc.state j).trans) = ((B.state j).trans)) →
      (∀ j, ((tbc.state j).value) = ((B.state j).value)) →
      ((tbc.state 1).failLink) = none →
      (done ++ queue).Nodup →
      (∀ u ∈ done ++ queue, 1 ≤ u ∧ u < B.states.length) →
      1 ∈ done ++ queue →
      (∀ u p, 2 ≤ u → u < B.states.length →
        ((B.state u).parent) = some p → p ∈ done → u ∈ done ++ queue) →
      (∀ u ∈ done ++ queue, 2 ≤ u →
        ∃ p, ((B.state u).parent) = some p ∧ p ∈ done) →
      (∀ t ∈ done ++ queue, 2 ≤ t →
        ((tbc.state t).failLink) = some (failSpec B t)) →
      queue.Pairwise (fun a b => (strOf B a).length ≤ (strOf B b).length) →
      (∀ p ∈ done, ∀ a ∈ queue,
        (strOf B p).length ≤ (strOf B a).length) →
      B.states.length ≤ fuel + done.length + 1 →
      (∀ u, 2 ≤ u → u < B.states.length →
        (((failLoop tbc queue fuel).state u).failLink) =
          some (failSpec B u)) ∧
      (((failLoop tbc queue fuel).state 1).failLink) = none := by
  intro fuel
  induction fuel with
  | zero =>
    intro tbc queue done hlen htr hval hroot hnd hv h1 hext hmem hV hsort
      hdq hfuel
    have hq : queue = [] := by
      cases queue with
      | nil => rfl
      | cons a q2 =>
        exfalso
        have hcount := nodup_mem_length (done ++ a :: q2) B.states.length
          hnd h1 hv
        rw [List.length_append, List.length_cons] at hcount
        omega
    subst hq
    refine ⟨?_, hroot⟩
    intro u h2 hulen
    have hu : u ∈ done ++ [] := bfs_cover B hw done []
      ((strOf B u).length) h1 hext (by simp) u (by omega) hulen (le_refl _)
    exact hV u hu h2
  | succ fuel ih =>
    intro tbc queue done hlen htr hval hroot hnd hv h1 hext hmem hV hsort
      hdq hfuel
    cases queue with
    | nil =>
      refine ⟨?_, hroot⟩
      intro u h2 hulen
      have hu : u ∈ done ++ [] := bfs_cover B hw done []
        ((strOf B u).length) h1 hext (by simp) u (by omega) hulen (le_refl _)
      exact hV u hu h2
    | cons s rest =>
      have hsv := hv s (by simp)
      have hrs : reach B (strOf B s) = some s :=
        strOf_reach B hw s hsv.1 hsv.2
      have hqmin : ∀ a ∈ s :: rest,
          (strOf B s).length ≤ (strOf B a).length := by
        intro a ha
        rcases List.mem_cons.mp ha with rfl | ha2
        · exact le_refl _
        · exact (List.pairwise_cons.mp hsort).1 a ha2
      have hSet : ∀ u, 2 ≤ u → u < B.states.length →
          (strOf B u).length ≤ (strOf B s).length →
          ((tbc.state u).failLink) = some (failSpec B u) := by
        intro u h2 hulen hud
        exact hV u (bfs_cover B hw done (s :: rest) ((strOf B s).length)
          h1 hext hqmin u (by omega) hulen hud) h2
      obtain ⟨q1, q2, q3, q4, q5, q6⟩ := failStep_foldl_master B hw s hrs
        ((B.state s).trans) tbc rest hlen htr hval hroot
        (fun pr hpr => mem_lookup_of_nodup (hw.keys_nodup s) hpr) hSet
      -- facts about the child list
      have hchmem : ∀ a ∈ ((B.state s).trans).map Prod.snd,
          (((B.state s).trans).lookup (B.state a).value) = some a ∧
          2 ≤ a ∧ a < B.states.length ∧
          strOf B a = strOf B s ++ [(B.state a).value] := by
        intro a ha
        obtain ⟨pr, hpr, hsnd⟩ := List.mem_map.mp ha
        have hlk := mem_lookup_of_nodup (hw.keys_nodup s) hpr
        rw [hsnd] at hlk
        have hvala : ((B.state a).value) = pr.1 :=
          hw.edge_value s pr.1 a hlk
        refine ⟨by rw [hvala]; exact hlk, hw.edge_lo s pr.1 a hlk,
          hw.edge_hi s pr.1 a hlk, ?_⟩
        rw [hvala]
        exact strOf_edge B hw hlk
      have hchd : ∀ a ∈ ((B.state s).trans).map Prod.snd,
          (strOf B a).length = (strOf B s).length + 1 := by
        intro a ha
        rw [(hchmem a ha).2.2.2]
        simp
      have hsdone : ¬ s ∈ done := by
        intro hs
        rcases (List.nodup_append.mp hnd) with ⟨_, _, hdisj⟩
        exact hdisj hs (by simp)
      have hfresh : ∀ a ∈ ((B.state s).trans).map Prod.snd,
          ¬ a ∈ done ++ s :: rest := by
        intro a ha hmem2
        obtain ⟨p, hp, hpd⟩ := hmem a hmem2 (hchmem a ha).2.1
        have hpar : ((B.state a).parent) = some s :=
          hw.edge_parent s (B.state a).value a (hchmem a ha).1
        rw [hpar] at hp
        injection hp with hp2
        rw [← hp2] at hpd
        exact hsdone hpd
      have hset_eq : (done ++ [s]) ++ (rest ++
          ((B.state s).trans).map Prod.snd) =
          (done ++ s :: rest) ++ ((B.state s).trans).map Prod.snd := by
        simp
      -- apply the inductive hypothesis
      have hmain := ih (((B.state s).trans).foldl (failStep s)
          (tbc, rest)).1
        (rest ++ ((B.state s).trans).map Prod.snd) (done ++ [s])
        q2 q3 q4
        (by
          have h1ch : ¬ (1 : Nat) ∈ ((B.state s).trans).map Prod.snd := by
            intro hc
            have := (hchmem 1 hc).2.1
            omega
          rw [q5 1 h1ch]
          exact hroot)
        (by
          rw [hset_eq]
          refine List.Nodup.append hnd (trans_targets_nodup B hw s) ?_
          intro a ha hac
          exact hfresh a hac ha)
        (by
          intro u hu
          rw [hset_eq] at hu
          rcases List.mem_append.mp hu with hu1 | hu2
          · exact hv u hu1
          · exact ⟨by have := (hchmem u hu2).2.1; omega,
              (hchmem u hu2).2.2.1⟩)
        (by
          rw [hset_eq]
          exact List.mem_append_left _ h1)
        (by
          intro u p h2 hulen hp hpd
          rw [hset_eq]
          rcases List.mem_append.mp hpd with hpd1 | hps
          · exact List.mem_append_left _ (hext u p h2 hulen hp hpd1)
          · have hps2 : p = s := by
              rcases List.mem_singleton.mp hps with rfl
              rfl
            subst hps2
            obtain ⟨p2, hp2, hplt2, hp02, hlk2⟩ :=
              hw.parent_edge u h2 hulen
            rw [hp] at hp2
            injection hp2 with hp3
            rw [← hp3] at hlk2
            refine List.mem_append_right _ ?_
            exact List.mem_map.mpr ⟨((B.state u).value, u),
              lookup_mem hlk2, rfl⟩)
        (by
          intro u hu h2
          rw [hset_eq] at hu
          rcases List.mem_append.mp hu with hu1 | hu2
          · obtain ⟨p, hp, hpd⟩ := hmem u hu1 h2
            exact ⟨p, hp, List.mem_append_left _ hpd⟩
          · exact ⟨s, hw.edge_parent s (B.state u).value u (hchmem u hu2).1,
              by simp⟩)
        (by
          intro t ht h2
          rw [hset_eq] at ht
          rcases List.mem_append.mp ht with ht1 | ht2
          · rw [q5 t (fun hc => hfresh t hc ht1)]
            exact hV t ht1 h2
          · obtain ⟨pr, hpr, hsnd⟩ := List.mem_map.mp ht2
            have hq6 := q6 pr hpr
            rw [hsnd] at hq6
            exact hq6)
        (by
          rw [List.pairwise_append]
          refine ⟨(List.pairwise_cons.mp hsort).2, ?_, ?_⟩
          · refine pairwise_of_forall_mem _ ?_
            intro a ha b hb
            rw [hchd a ha, hchd b hb]
          · intro a ha b hb
            rw [hchd b hb]
            have hav := hv a (by simp [ha])
            rcases Nat.lt_or_ge a 2 with halt | ha2
            · have ha1 : a = 1 := by omega
              rw [ha1, strOf_le_one B 1 (le_refl 1)]
              simp
            · obtain ⟨p, hp, hpd⟩ := hmem a (by simp [ha]) ha2
              obtain ⟨p2, hp2, hp12, hplt2, hpl2, hlk2, hstr2⟩ :=
                strOf_parent B hw ha2 hav.2
              rw [hp] at hp2
              injection hp2 with hp3
              rw [hstr2]
              simp only [List.length_append, List.length_cons,
                List.length_nil]
              have hdqp := hdq p hpd s (by simp)
              rw [hp3] at hdqp
              omega)
        (by
          intro p hp a ha
          rcases List.mem_append.mp hp with hp1 | hps
          · rcases List.mem_append.mp ha with ha1 | ha2
            · exact hdq p hp1 a (List.mem_cons_of_mem _ ha1)
            · rw [hchd a ha2]
              have := hdq p hp1 s (by simp)
              omega
          · have hps2 : p = s := List.mem_singleton.mp hps
            subst hps2
            rcases List.mem_append.mp ha with ha1 | ha2
            · exact (List.pairwise_cons.mp hsort).1 a ha1
            · rw [hchd a ha2]
              omega)
        (by
          rw [List.length_append, List.length_cons, List.length_nil]
          omega)
      rw [show failLoop tbc (s :: rest) (fuel + 1) =
          failLoop (((tbc.state s).trans).foldl (failStep s)
            (tbc, rest)).1
            (((tbc.state s).trans).foldl (failStep s) (tbc, rest)).2
            fuel from rfl]
      rw [htr s, q1]
      exact hmain

/-- `computeFailLinks` on a freshly inserted builder: every non-root state
gets the fail state of its word's longest present proper suffix; the root's
fail link stays unset. -/
theorem computeFailLinks_sem (pats : List (List Nat)) :
    (∀ u, 2 ≤ u → u < (builderOf pats).states.length →
      (((builderOf pats).computeFailLinks.state u).failLink) =
        some (failSpec (builderOf pats) u)) ∧
    (((builderOf pats).computeFailLinks.state 1).failLink) = none := by
  have hw := builderOf_wf pats
  have h := failLoop_master (builderOf pats) hw
    (builderOf pats).states.length (builderOf pats) [1] []
    rfl (fun _ => rfl) (fun _ => rfl) (builderOf_failLink pats 1)
    (by simp)
    (by
      intro u hu
      rw [List.nil_append, List.mem_singleton] at hu
      subst hu
      exact ⟨le_refl 1, by have := hw.len2; omega⟩)
    (by simp)
    (by
      intro u p _ _ _ hpd
      exact absurd hpd (List.not_mem_nil p))
    (by
      intro u hu h2
      rw [List.nil_append, List.mem_singleton] at hu
      omega)
    (by
      intro t ht h2
      rw [List.nil_append, List.mem_singleton] at ht
      omega)
    (by simp)
    (by
      intro p hp
      exact absurd hp (List.not_mem_nil p))
    (by simp)
  exact h

/-! ### The compiled table computes goto-else-follow-failure -/

theorem sufState_valid (tb : TrieBuilder) (hw : WF tb) (w : List Nat) :
    1 ≤ sufState tb w ∧ sufState tb w < tb.states.length :=
  reach_valid tb hw (sufState_reach tb w)

/-- Every compiled table entry is the goto-else-follow-failure transition
on the state's word. -/
theorem failTrans_word (pats : List (List Nat)) (s c : Nat)
    (hs1 : 1 ≤ s) (hs : s < (builderOf pats).states.length)
    (hc : c < 256) :
    (((builderOf pats).build.failTrans.getD s []).getD c 0) =
      extTrans (builderOf pats) c (strOf (builderOf pats) s) := by
  have hw := builderOf_wf pats
  rw [build_failTrans_entry _ _ _ hs hc, TrieBuilder.computeFailTransition]
  refine chaseFrom (builderOf pats) (linked (builderOf pats)) hw
    (fun j => linked_trans _ j) ((builderOf pats).states.length)
    ?_ ?_ c ((strOf (builderOf pats) s).length) (strOf (builderOf pats) s)
    s (linked (builderOf pats)).states.length (le_refl _)
    (by have := strOf_length_le (builderOf pats) s; omega)
    (by
      rw [linked_length]
      have := strOf_length_le (builderOf pats) s
      omega)
    (strOf_reach (builderOf pats) hw s hs1 hs)
  · intro u h2 hulen _
    rw [linked_failLink]
    exact (computeFailLinks_sem pats).1 u h2 hulen
  · rw [linked_failLink]
    exact (computeFailLinks_sem pats).2

/-- C4: each compiled transition-table entry obeys the classic
goto-else-follow-failure rule: a direct trie transition's target when one
exists, otherwise the entry of the fail-link state (the chase continues
there), and the root when the fail chain is exhausted (at the root, whose
fail link is unset). -/
theorem claim_C4_failTrans (pats : List (List Nat)) (s c : Nat)
    (hs1 : 1 ≤ s) (hs : s < (builderOf pats).states.length)
    (hc : c < 256) :
    (((builderOf pats).build.failTrans.getD s []).getD c 0) =
      match (((builderOf pats).state s).trans).lookup c with
      | some t => t
      | none =>
        match (((builderOf pats).computeFailLinks.state s).failLink) with
        | some f =>
          (((builderOf pats).build.failTrans.getD f []).getD c 0)
        | none => rootState := by
  have hw := builderOf_wf pats
  rw [failTrans_word pats s c hs1 hs hc]
  cases hl : (((builderOf pats).state s).trans).lookup c with
  | some t =>
    have hp : reach (builderOf pats) (strOf (builderOf pats) s ++ [c]) =
        some t := by
      rw [reach_snoc (builderOf pats) (strOf_reach _ hw s hs1 hs) c, hl]
    rw [extTrans_of_present _ hp]
  | none =>
    rcases Nat.lt_or_ge s 2 with hlt | h2
    · interval_cases s
      rw [(computeFailLinks_sem pats).2]
      have hrc : reach (builderOf pats) [c] = none := by
        rw [reach, rootState, descend, hl]
      rw [strOf_le_one _ 1 (le_refl 1)]
      simp only [extTrans]
      rw [hrc]
    · have hfl := (computeFailLinks_sem pats).1 s h2 hs
      rw [hfl]
      have hne : reach (builderOf pats)
          (strOf (builderOf pats) s ++ [c]) = none := by
        rw [reach_snoc (builderOf pats) (strOf_reach _ hw s (by omega) hs) c,
          hl]
      show extTrans (builderOf pats) c (strOf (builderOf pats) s) =
        ((builderOf pats).build.failTrans.getD
          (failSpec (builderOf pats) s) []).getD c 0
      cases hsw : strOf (builderOf pats) s with
      | nil =>
        exfalso
        obtain ⟨p, hp, hp1, hplt, hpl, hpk, hstr⟩ :=
          strOf_parent _ hw h2 hs
        rw [hsw] at hstr
        exact absurd hstr.symm (by simp)
      | cons a z =>
        have hfs : failSpec (builderOf pats) s =
            sufState (builderOf pats) z := by
          rw [failSpec, hsw]
          rfl
        have hfv := sufState_valid (builderOf pats) hw z
        rw [failTrans_word pats (failSpec (builderOf pats) s) c
          (by rw [hfs]; exact hfv.1) (by rw [hfs]; exact hfv.2) hc]
        rw [hfs, reach_strOf _ hw (sufState_reach (builderOf pats) z),
          extTrans_lpsWord]
        rw [hsw, List.cons_append] at hne
        simp only [extTrans]
        rw [hne]

/-- Witness for C4 at the automaton of the single pattern [1], state 2,
byte 1. -/
theorem claim_C4_failTrans_witness :
    (((builderOf [[1]]).build.failTrans.getD 2 []).getD 1 0) =
      match (((builderOf [[1]]).state 2).trans).lookup 1 with
      | some t => t
      | none =>
        match (((builderOf [[1]]).computeFailLinks.state 2).failLink) with
        | some f =>
          (((builderOf [[1]]).build.failTrans.getD f []).getD 1 0)
        | none => rootState :=
  claim_C4_failTrans [[1]] 2 1 (by decide) (by decide) (by decide)

/-! ### Dictionary-link pass semantics -/

theorem dictSearch_eq_of_fields {tb tb' : TrieBuilder}
    (hd : ∀ j, ((tb.state j).dict) = ((tb'.state j).dict))
    (hf : ∀ j, ((tb.state j).failLink) = ((tb'.state j).failLink)) :
    ∀ (fuel : Nat) (os : Option Nat),
      dictSearch tb os fuel = dictSearch tb' os fuel := by
  intro fuel
  induction fuel with
  | zero => intro os; cases os <;> rfl
  | succ fuel ih =>
    intro os
    cases os with
    | none => rfl
    | some f =>
      rw [dictSearch, dictSearch, hd f, hf f]
      by_cases h : ((tb'.state f).dict) > 0
      · rw [if_pos h, if_pos h]
      · rw [if_neg h, if_neg h]
        exact ih _

theorem dictLoop_skip : ∀ (l : List Nat) (tb : TrieBuilder) (u : Nat),
    (¬ u ∈ l ∨ u = 1) →
    (((dictLoop tb l).state u).dictLink) = ((tb.state u).dictLink) := by
  intro l
  induction l with
  | nil => intro tb u _; rfl
  | cons i rest ih =>
    intro tb u hu
    by_cases hi : i = rootState
    · rw [dictLoop, if_pos hi]
      exact ih tb u (by
        rcases hu with hu | hu
        · exact Or.inl (fun hc => hu (List.mem_cons_of_mem _ hc))
        · exact Or.inr hu)
    · rw [dictLoop, if_neg hi]
      have hne : i ≠ u := by
        rcases hu with hu | hu
        · intro he; exact hu (he ▸ List.mem_cons_self i rest)
        · intro he; rw [he] at hi; exact hi (by rw [hu]; rfl)
      rw [ih _ u (by
        rcases hu with hu | hu
        · exact Or.inl (fun hc => hu (List.mem_cons_of_mem _ hc))
        · exact Or.inr hu)]
      rw [state_modify_ne tb i u _ hne]

theorem dictLoop_sem : ∀ (l : List Nat), l.Nodup →
    ∀ (tb : TrieBuilder) (u : Nat), u ∈ l → u ≠ 1 →
      u < tb.states.length →
      (((dictLoop tb l).state u).dictLink) =
        dictSearch tb ((tb.state u).failLink) tb.states.length := by
  intro l
  induction l with
  | nil => intro _ tb u hu; exact absurd hu (List.not_mem_nil u)
  | cons i rest ih =>
    intro hnd tb u hu hu1 hul
    rw [List.nodup_cons] at hnd
    by_cases hi : i = rootState
    · rw [dictLoop, if_pos hi]
      have hur : u ∈ rest := by
        rcases List.mem_cons.mp hu with rfl | h
        · exact absurd (hi ▸ rfl) hu1
        · exact h
      exact ih hnd.2 tb u hur hu1 hul
    · rw [dictLoop, if_neg hi]
      rcases List.mem_cons.mp hu with rfl | hur
      · rw [dictLoop_skip rest _ u (Or.inl (fun hc => hnd.1 hc))]
        rw [state_modify_self tb u _ hul]
      · have hne : i ≠ u := fun he => hnd.1 (he ▸ hur)
        have hil : (tb.modifyState i (fun st =>
            { st with dictLink :=
              dictSearch tb st.failLink tb.states.length })).states.length =
            tb.states.length := modifyState_length tb i _
        rw [ih hnd.2 _ u hur hu1 (by rw [hil]; exact hul)]
        rw [hil, state_modify_ne tb i u _ hne]
        refine dictSearch_eq_of_fields ?_ ?_ _ _
        · intro j
          rw [state_modify_cases tb i _ j]
          by_cases hcond : i = j ∧ i < tb.states.length
          · rw [if_pos hcond]
            cases hcond.1
            rfl
          · rw [if_neg hcond]
        · intro j
          rw [state_modify_cases tb i _ j]
          by_cases hcond : i = j ∧ i < tb.states.length
          · rw [if_pos hcond]
            cases hcond.1
            rfl
          · rw [if_neg hcond]

/-! ### Accepting suffix states -/

/-- The proper suffixes of a word, longest first (down to `[]`). -/
def sufsOf : List Nat → List (List Nat)
  | [] => []
  | _ :: w => w :: sufsOf w

/-- The accepting state spelling `v`, when `v` is present and its state
has a recorded pattern length. -/
def accOf (tb : TrieBuilder) (v : List Nat) : Option Nat :=
  match reach tb v with
  | some t => if 0 < (tb.state t).dict then some t else none
  | none => none

/-- The accepting states of the words of `l`, in order. -/
def accStates (tb : TrieBuilder) (l : List (List Nat)) : List Nat :=
  l.filterMap (accOf tb)

theorem sufsOf_length_lt : ∀ (w v : List Nat), v ∈ sufsOf w →
    v.length < w.length := by
  intro w
  induction w with
  | nil => intro v hv; exact absurd hv (List.not_mem_nil v)
  | cons a w ih =>
    intro v hv
    rw [sufsOf] at hv
    rcases List.mem_cons.mp hv with rfl | hv2
    · simp
    · have := ih v hv2
      simp only [List.length_cons]
      omega

theorem mem_sufsOf_iff : ∀ (w v : List Nat),
    v ∈ w :: sufsOf w ↔ v <:+ w := by
  intro w
  induction w with
  | nil =>
    intro v
    constructor
    · intro hv
      rw [sufsOf] at hv
      rcases List.mem_cons.mp hv with rfl | hv2
      · exact List.suffix_refl []
      · exact absurd hv2 (List.not_mem_nil v)
    · intro hv
      rw [List.suffix_nil] at hv
      rw [hv, sufsOf]
      simp
  | cons a w ih =>
    intro v
    constructor
    · intro hv
      rcases List.mem_cons.mp hv with rfl | hv2
      · exact List.suffix_refl _
      · rw [sufsOf] at hv2
        exact List.IsSuffix.trans ((ih v).mp hv2) (List.suffix_cons a w)
    · intro hv
      rcases List.suffix_cons_iff.mp hv with rfl | hv2
      · simp
      · rw [sufsOf]
        exact List.mem_cons_of_mem _ ((ih v).mpr hv2)

theorem accStates_sub_lps (tb : TrieBuilder) :
    ∀ (w : List Nat),
      accStates tb (w :: sufsOf w) =
        accStates tb (lpsWord tb w :: sufsOf (lpsWord tb w)) := by
  intro w
  induction w with
  | nil => rfl
  | cons a w ih =>
    by_cases hp : (reach tb (a :: w)).isSome
    · rw [lpsWord, if_pos hp]
    · rw [lpsWord, if_neg hp]
      have hnone : reach tb (a :: w) = none := by
        cases hr : reach tb (a :: w) with
        | none => rfl
        | some t => rw [hr] at hp; exact absurd rfl hp
      rw [show accStates tb ((a :: w) :: sufsOf (a :: w)) =
          accStates tb (w :: sufsOf w) from by
        rw [accStates, List.filterMap_cons, accOf, hnone]
        rfl]
      exact ih

theorem accStates_cons_of_reach (tb : TrieBuilder) {w : List Nat}
    {m : Nat} (hr : reach tb w = some m) (l : List (List Nat)) :
    accStates tb (w :: l) =
      (if 0 < (tb.state m).dict then [m] else []) ++ accStates tb l := by
  rw [accStates, List.filterMap_cons]
  simp only [accOf, hr]
  by_cases hd : 0 < (tb.state m).dict
  · rw [if_pos hd, if_pos hd]
    rfl
  · rw [if_neg hd, if_neg hd]
    rfl

theorem accStates_struct (tb : TrieBuilder) (hw : WF tb) :
    ∀ (w : List Nat) (v : Nat) (rest : List Nat),
      accStates tb (sufsOf w) = v :: rest →
      reach tb (strOf tb v) = some v ∧ 0 < (tb.state v).dict ∧
        (strOf tb v).length < w.length ∧
        accStates tb (sufsOf (strOf tb v)) = rest := by
  intro w
  induction w with
  | nil =>
    intro v rest h
    rw [sufsOf] at h
    exact absurd h (by rw [accStates]; simp)
  | cons a w ih =>
    intro v rest h
    rw [sufsOf] at h
    cases hr : reach tb w with
    | some m =>
      rw [accStates_cons_of_reach tb hr] at h
      by_cases hd : 0 < (tb.state m).dict
      · rw [if_pos hd] at h
        rw [List.singleton_append] at h
        injection h with h1 h2
        subst h1
        have hstr : strOf tb m = w := reach_strOf tb hw hr
        refine ⟨by rw [hstr]; exact hr, hd, ?_, ?_⟩
        · rw [hstr]; simp
        · rw [hstr, h2]
      · rw [if_neg hd, List.nil_append] at h
        obtain ⟨c1, c2, c3, c4⟩ := ih v rest h
        exact ⟨c1, c2, by simp only [List.length_cons]; omega, c4⟩
    | none =>
      rw [show accStates tb (w :: sufsOf w) = accStates tb (sufsOf w) from by
        rw [accStates, List.filterMap_cons, accOf, hr]
        rfl] at h
      obtain ⟨c1, c2, c3, c4⟩ := ih v rest h
      exact ⟨c1, c2, by simp only [List.length_cons]; omega, c4⟩

theorem accStates_mem (tb : TrieBuilder) (hw : WF tb) :
    ∀ (l : List (List Nat)) (u : Nat), u ∈ accStates tb l →
      1 ≤ u ∧ u < tb.states.length ∧ 0 < (tb.state u).dict ∧
        strOf tb u ∈ l := by
  intro l u hu
  rw [accStates] at hu
  obtain ⟨v, hv, hacc⟩ := List.mem_filterMap.mp hu
  rw [accOf] at hacc
  cases hr : reach tb v with
  | none => rw [hr] at hacc; exact absurd hacc (by simp)
  | some t =>
    rw [hr] at hacc
    dsimp only at hacc
    by_cases hd : 0 < (tb.state t).dict
    · rw [if_pos hd] at hacc
      injection hacc with hacc2
      subst hacc2
      have hvv := reach_valid tb hw hr
      exact ⟨hvv.1, hvv.2, hd, by rw [reach_strOf tb hw hr]; exact hv⟩
    · rw [if_neg hd] at hacc
      exact absurd hacc (by simp)

/-- The dictionary-link search along computed fail links finds exactly the
first accepting suffix state. -/
theorem dictSearch_sem (pats : List (List Nat)) :
    ∀ (n : Nat) (w : List Nat) (m fuel : Nat), w.length ≤ n →
      w.length < fuel → reach (builderOf pats) w = some m →
      dictSearch ((builderOf pats).computeFailLinks)
        (((builderOf pats).computeFailLinks.state m).failLink) fuel =
        (accStates (builderOf pats) (sufsOf w)).head? := by
  intro n
  induction n using Nat.strong_induction_on with
  | _ n ih =>
    intro w m fuel hn hfuel hr
    cases w with
    | nil =>
      rw [reach_nil] at hr
      injection hr with hr2
      subst hr2
      rw [show (((builderOf pats).computeFailLinks.state rootState).failLink)
        = none from (computeFailLinks_sem pats).2]
      rw [sufsOf]
      cases fuel <;> rfl
    | cons a w' =>
      have hw := builderOf_wf pats
      have hv := reach_valid _ hw hr
      have h1m := hv.1
      have h2 : 2 ≤ m := by
        rcases Nat.lt_or_ge m 2 with hlt | hge
        · interval_cases m
          exact absurd (reach_root_iff_nil _ hw hr) (by simp)
        · exact hge
      have hstr : strOf (builderOf pats) m = a :: w' := reach_strOf _ hw hr
      have hfl := (computeFailLinks_sem pats).1 m h2 hv.2
      have hfs : failSpec (builderOf pats) m =
          sufState (builderOf pats) w' := by
        rw [failSpec, hstr]
        rfl
      rw [hfl, hfs]
      cases fuel with
      | zero => exact absurd hfuel (by omega)
      | succ fu =>
        rw [dictSearch]
        have hdicteq : (((builderOf pats).computeFailLinks.state
            (sufState (builderOf pats) w')).dict) =
            (((builderOf pats).state
              (sufState (builderOf pats) w')).dict) :=
          computeFailLinks_field (fun st => st.dict) (fun _ _ => rfl) _ _
        have hRHS : accStates (builderOf pats) (sufsOf (a :: w')) =
            accStates (builderOf pats) (lpsWord (builderOf pats) w' ::
              sufsOf (lpsWord (builderOf pats) w')) := by
          rw [sufsOf]
          exact accStates_sub_lps (builderOf pats) w'
        rw [hRHS, accStates_cons_of_reach (builderOf pats)
          (sufState_reach (builderOf pats) w')]
        rw [hdicteq]
        by_cases hd : 0 < (((builderOf pats).state
            (sufState (builderOf pats) w')).dict)
        · rw [if_pos hd, if_pos hd]
          rfl
        · rw [if_neg hd, if_neg hd, List.nil_append]
          have hlps := sufState_reach (builderOf pats) w'
          have hlen2 : (lpsWord (builderOf pats) w').length ≤ w'.length :=
            (lpsWord_suffix _ w').length_le
          exact ih w'.length (by simp at hn; omega)
            (lpsWord (builderOf pats) w') (sufState (builderOf pats) w')
            fu hlen2 (by simp at hfuel; omega) hlps

/-- The stored dictionary link of any real state is the first accepting
proper-suffix state of its word (0, the sentinel, when there is none). -/
theorem build_dictLink_sem (pats : List (List Nat)) (m : Nat)
    (h1 : 1 ≤ m) (hm : m < (builderOf pats).states.length) :
    (builderOf pats).build.dictLink.getD m 0 =
      ((accStates (builderOf pats)
        (sufsOf (strOf (builderOf pats) m))).head?).getD 0 := by
  have hw := builderOf_wf pats
  rw [build_dictLink_getD _ _ hm]
  rcases Nat.lt_or_ge m 2 with hlt | h2
  · interval_cases m
    rw [linked, TrieBuilder.computeDictLinks]
    rw [dictLoop_skip _ _ 1 (Or.inr rfl)]
    have hstab : (((builderOf pats).computeFailLinks.state 1).dictLink) =
        (((builderOf pats).state 1).dictLink) :=
      computeFailLinks_field (fun st => st.dictLink) (fun _ _ => rfl) _ _
    rw [hstab, builderOf_dictLink]
    rw [strOf_le_one _ 1 (le_refl 1), sufsOf]
    rfl
  · rw [linked, TrieBuilder.computeDictLinks]
    have hlenF : (builderOf pats).computeFailLinks.states.length =
        (builderOf pats).states.length := computeFailLinks_length _
    rw [dictLoop_sem _ (List.nodup_range _) _ m
      (by rw [List.mem_range, hlenF]; exact hm) (by omega)
      (by rw [hlenF]; exact hm)]
    rw [dictSearch_sem pats ((strOf (builderOf pats) m).length)
      (strOf (builderOf pats) m) m _ (le_refl _)
      (by rw [hlenF]; have := strOf_length_le (builderOf pats) m; omega)
      (strOf_reach _ hw m h1 hm)]

/-- The dictionary-link chain walked from a state's stored link visits
exactly the accepting proper-suffix states, longest first. -/
theorem chainStates_sem (pats : List (List Nat)) :
    ∀ (n : Nat) (w : List Nat) (m fuel : Nat), w.length ≤ n →
      w.length < fuel → reach (builderOf pats) w = some m →
      chainStates ((builderOf pats).build)
        ((builderOf pats).build.dictLink.getD m 0) fuel =
        accStates (builderOf pats) (sufsOf w) := by
  intro n
  induction n using Nat.strong_induction_on with
  | _ n ih =>
    intro w m fuel hn hfuel hr
    have hw := builderOf_wf pats
    have hv := reach_valid _ hw hr
    have hstr : strOf (builderOf pats) m = w := reach_strOf _ hw hr
    rw [build_dictLink_sem pats m hv.1 hv.2, hstr]
    cases hacc : accStates (builderOf pats) (sufsOf w) with
    | nil =>
      cases fuel <;> rfl
    | cons v rest =>
      obtain ⟨c1, c2, c3, c4⟩ := accStates_struct _ hw w v rest hacc
      have hvv := reach_valid _ hw c1
      cases fuel with
      | zero => exact absurd hfuel (by omega)
      | succ fu =>
        show chainStates ((builderOf pats).build) v (fu + 1) = v :: rest
        rw [chainStates, if_neg (by have := hvv.1; rw [nilState]; omega)]
        rw [ih ((strOf (builderOf pats) v).length) (by omega)
          (strOf (builderOf pats) v) v fu (le_refl _) (by omega) c1, c4]

/-! ### The scan invariant and the emission characterization -/

/-- One scan step: the table moves the longest-present-suffix state of `w`
to that of `w ++ [c]`. -/
theorem scanStep (pats : List (List Nat)) (w : List Nat) (c : Nat)
    (hc : c < 256) :
    (((builderOf pats).build.failTrans.getD
      (sufState (builderOf pats) w) []).getD c 0) =
      sufState (builderOf pats) (w ++ [c]) := by
  have hw := builderOf_wf pats
  have hv := sufState_valid _ hw w
  rw [failTrans_word pats _ c hv.1 hv.2 hc]
  rw [reach_strOf _ hw (sufState_reach _ w)]
  rw [sufState_snoc]

/-- What `Walk` reports at one position in state `s`: one triple per
accepting suffix of `s`'s word (the state itself first, then the chain),
with that state's stored length and pattern index. -/
theorem stateEmits_sem (pats : List (List Nat)) (i s : Nat)
    (h1 : 1 ≤ s) (hs : s < (builderOf pats).states.length) :
    stateEmits ((builderOf pats).build) i s =
      (accStates (builderOf pats)
        (strOf (builderOf pats) s :: sufsOf (strOf (builderOf pats) s))).map
        (fun u => (i, ((builderOf pats).state u).dict,
          ((builderOf pats).state u).pattern)) := by
  have hw := builderOf_wf pats
  have hchain : chainStates ((builderOf pats).build)
      ((builderOf pats).build.dictLink.getD s 0)
      ((builderOf pats).build.dictLink.length) =
      accStates (builderOf pats) (sufsOf (strOf (builderOf pats) s)) := by
    rw [build_dictLink_length]
    exact chainStates_sem pats ((strOf (builderOf pats) s).length)
      (strOf (builderOf pats) s) s _ (le_refl _)
      (by have := strOf_length_le (builderOf pats) s; omega)
      (strOf_reach _ hw s h1 hs)
  rw [stateEmits, hchain]
  have hmap : (accStates (builderOf pats)
      (sufsOf (strOf (builderOf pats) s))).map
      (fun u => (i, (builderOf pats).build.dict.getD u 0,
        (builderOf pats).build.pattern.getD u 0)) =
      (accStates (builderOf pats)
        (sufsOf (strOf (builderOf pats) s))).map
      (fun u => (i, ((builderOf pats).state u).dict,
        ((builderOf pats).state u).pattern)) := by
    refine List.map_congr_left ?_
    intro u hu
    obtain ⟨u1, u2, _, _⟩ := accStates_mem _ hw _ u hu
    rw [build_dict_getD _ _ u2, linked_dict, build_pattern_getD _ _ u2,
      linked_pattern]
  rw [hmap]
  rw [accStates_cons_of_reach _ (strOf_reach _ hw s h1 hs),
    List.map_append]
  rw [build_dict_getD _ _ hs, linked_dict, build_pattern_getD _ _ hs,
    linked_pattern]
  by_cases hd : 0 < ((builderOf pats).state s).dict
  · rw [if_pos (show ((builderOf pats).state s).dict ≠ 0 from by omega),
      if_pos hd]
    rfl
  · rw [if_neg (show ¬ ((builderOf pats).state s).dict ≠ 0 from by omega),
      if_neg hd]
    rfl

/-- The specified emission sequence: at the position of each input byte,
one triple per accepting suffix of the consumed prefix, longest first. -/
def specEmits (tb : TrieBuilder) : List Nat → Nat → List Nat →
    List (Nat × Nat × Nat)
  | [], _, _ => []
  | c :: rest, i, w =>
    (accStates tb ((w ++ [c]) :: sufsOf (w ++ [c]))).map
      (fun u => (i, (tb.state u).dict, (tb.state u).pattern)) ++
      specEmits tb rest (i + 1) (w ++ [c])

theorem emitFrom_sem (pats : List (List Nat)) :
    ∀ (input : List Nat) (i : Nat) (w : List Nat),
      (∀ b ∈ input, b < 256) →
      emitFrom ((builderOf pats).build) input i
        (sufState (builderOf pats) w) =
      specEmits (builderOf pats) input i w := by
  intro input
  induction input with
  | nil => intro i w _; rfl
  | cons c rest ih =>
    intro i w hb
    have hw := builderOf_wf pats
    have hsv := sufState_valid _ hw (w ++ [c])
    simp only [emitFrom, specEmits]
    rw [scanStep pats w c (hb c (by simp))]
    rw [ih (i + 1) (w ++ [c]) (fun b hb2 => hb b (by simp [hb2]))]
    rw [stateEmits_sem pats i _ hsv.1 hsv.2]
    rw [reach_strOf _ hw (sufState_reach _ (w ++ [c]))]
    rw [show accStates (builderOf pats)
        (lpsWord (builderOf pats) (w ++ [c]) ::
          sufsOf (lpsWord (builderOf pats) (w ++ [c]))) =
        accStates (builderOf pats) ((w ++ [c]) :: sufsOf (w ++ [c])) from
      (accStates_sub_lps _ (w ++ [c])).symm]

/-- The full emission sequence of a scan from the root. -/
theorem emissions_spec (pats : List (List Nat)) (input : List Nat)
    (hb : ∀ b ∈ input, b < 256) :
    Trie.emissions ((builderOf pats).build) input =
      specEmits (builderOf pats) input 0 [] := by
  rw [emissions_eq_emitFrom]
  rw [show (rootState : Nat) = sufState (builderOf pats) [] from rfl]
  exact emitFrom_sem pats input 0 [] hb

/-! ### Dict and pattern fields under insertion -/

theorem extendStep_dp (tb : TrieBuilder) (s c : Nat)
    (hslen : s < tb.states.length) (j : Nat) :
    (((extendStep tb s c).state j).dict = ((tb.state j).dict)) ∧
    (((extendStep tb s c).state j).pattern = ((tb.state j).pattern)) := by
  by_cases hjs : j = s
  · subst hjs
    rw [extendStep_state_s _ _ _ hslen]
    exact ⟨rfl, rfl⟩
  · by_cases hjn : j = tb.states.length
    · subst hjn
      rw [extendStep_state_new _ _ _ hslen,
        state_of_ge tb _ (le_refl _)]
      exact ⟨rfl, rfl⟩
    · rw [extendStep_state_other _ _ _ _ hjs hjn]
      exact ⟨rfl, rfl⟩

theorem extendStep_pv (tb : TrieBuilder) (s c : Nat)
    (hslen : s < tb.states.length) (j : Nat) (hj : j < tb.states.length) :
    (((extendStep tb s c).state j).parent = ((tb.state j).parent)) ∧
    (((extendStep tb s c).state j).value = ((tb.state j).value)) := by
  by_cases hjs : j = s
  · subst hjs
    rw [extendStep_state_s _ _ _ hslen]
    exact ⟨rfl, rfl⟩
  · rw [extendStep_state_other _ _ _ _ hjs (by omega)]
    exact ⟨rfl, rfl⟩

theorem addPatternLoop_dp : ∀ (pat : List Nat) (tb : TrieBuilder) (s : Nat),
    WF tb → s ≠ 0 → s < tb.states.length → ∀ j,
    (((addPatternLoop tb s pat).1.state j).dict = ((tb.state j).dict)) ∧
    (((addPatternLoop tb s pat).1.state j).pattern =
      ((tb.state j).pattern)) := by
  intro pat
  induction pat with
  | nil => intro tb s _ _ _ j; exact ⟨rfl, rfl⟩
  | cons b rest ih =>
    intro tb s hw hs0 hslen j
    cases hl : ((tb.state s).trans).lookup b with
    | some u =>
      rw [addPatternLoop_cons_some rest hl]
      exact ih tb u hw (by have := hw.edge_lo s b u hl; omega)
        (hw.edge_hi s b u hl) j
    | none =>
      rw [addPatternLoop_cons_none rest hl]
      have hwf2 := extendStep_WF tb s b hw hs0 hslen
      have hn2 : 2 ≤ tb.states.length := hw.len2
      have hstep := extendStep_dp tb s b hslen j
      have hrec := ih (extendStep tb s b) tb.states.length (hwf2 hl)
        (by omega) (by rw [extendStep_length]; omega) j
      exact ⟨hrec.1.trans hstep.1, hrec.2.trans hstep.2⟩

theorem addPatternLoop_pv : ∀ (pat : List Nat) (tb : TrieBuilder) (s : Nat),
    WF tb → s ≠ 0 → s < tb.states.length → ∀ j, j < tb.states.length →
    (((addPatternLoop tb s pat).1.state j).parent =
      ((tb.state j).parent)) ∧
    (((addPatternLoop tb s pat).1.state j).value =
      ((tb.state j).value)) := by
  intro pat
  induction pat with
  | nil => intro tb s _ _ _ j _; exact ⟨rfl, rfl⟩
  | cons b rest ih =>
    intro tb s hw hs0 hslen j hj
    cases hl : ((tb.state s).trans).lookup b with
    | some u =>
      rw [addPatternLoop_cons_some rest hl]
      exact ih tb u hw (by have := hw.edge_lo s b u hl; omega)
        (hw.edge_hi s b u hl) j hj
    | none =>
      rw [addPatternLoop_cons_none rest hl]
      have hwf2 := extendStep_WF tb s b hw hs0 hslen hl
      have hn2 : 2 ≤ tb.states.length := hw.len2
      have hstep := extendStep_pv tb s b hslen j hj
      have hrec := ih (extendStep tb s b) tb.states.length hwf2
        (by omega) (by rw [extendStep_length]; omega) j
        (by rw [extendStep_length]; omega)
      exact ⟨hrec.1.trans hstep.1, hrec.2.trans hstep.2⟩

theorem addPattern_dp_other (tb : TrieBuilder) (pat : List Nat)
    (hw : WF tb) (j : Nat)
    (hjt : j ≠ (addPatternLoop tb rootState pat).2) :
    (((tb.addPattern pat).state j).dict = ((tb.state j).dict)) ∧
    (((tb.addPattern pat).state j).pattern = ((tb.state j).pattern)) := by
  have hdp := addPatternLoop_dp pat tb rootState hw (by norm_num [rootState])
    (by have := hw.len2; rw [rootState]; omega) j
  rw [show (tb.addPattern pat).state j =
      ((addPatternLoop tb rootState pat).1.modifyState
        (addPatternLoop tb rootState pat).2
        (fun st =>
          { st with dict := pat.length, pattern := tb.numPatterns })).state
            j from addPattern_state tb pat j]
  rw [state_modify_ne _ _ _ _ (fun he => hjt he.symm)]
  exact hdp

theorem addPattern_dp_term (tb : TrieBuilder) (pat : List Nat)
    (hw : WF tb) :
    (((tb.addPattern pat).state
      ((addPatternLoop tb rootState pat).2)).dict = pat.length) ∧
    (((tb.addPattern pat).state
      ((addPatternLoop tb rootState pat).2)).pattern = tb.numPatterns) := by
  have hwl := addPatternLoop_wf pat tb rootState hw (by norm_num [rootState])
    (by have := hw.len2; rw [rootState]; omega)
  rw [show (tb.addPattern pat).state ((addPatternLoop tb rootState pat).2) =
      ((addPatternLoop tb rootState pat).1.modifyState
        (addPatternLoop tb rootState pat).2
        (fun st =>
          { st with dict := pat.length, pattern := tb.numPatterns })).state
            ((addPatternLoop tb rootState pat).2) from
    addPattern_state tb pat _]
  rw [state_modify_self _ _ _ hwl.2.2.1]
  exact ⟨rfl, rfl⟩

theorem addPattern_pv (tb : TrieBuilder) (pat : List Nat) (hw : WF tb)
    (j : Nat) (hj : j < tb.states.length) :
    (((tb.addPattern pat).state j).parent = ((tb.state j).parent)) ∧
    (((tb.addPattern pat).state j).value = ((tb.state j).value)) := by
  have hpv := addPatternLoop_pv pat tb rootState hw (by norm_num [rootState])
    (by have := hw.len2; rw [rootState]; omega) j hj
  rw [show (tb.addPattern pat).state j =
      ((addPatternLoop tb rootState pat).1.modifyState
        (addPatternLoop tb rootState pat).2
        (fun st =>
          { st with dict := pat.length, pattern := tb.numPatterns })).state
            j from addPattern_state tb pat j]
  rw [state_modify_cases]
  by_cases hcond : (addPatternLoop tb rootState pat).2 = j ∧
      (addPatternLoop tb rootState pat).2 <
        (addPatternLoop tb rootState pat).1.states.length
  · rw [if_pos hcond]
    cases hcond.1
    exact hpv
  · rw [if_neg hcond]
    exact hpv

theorem strOf_addPattern_old (tb : TrieBuilder) (pat : List Nat)
    (hw : WF tb) :
    ∀ (u : Nat), u < tb.states.length →
      strOf (tb.addPattern pat) u = strOf tb u := by
  intro u
  induction u using Nat.strong_induction_on with
  | _ u ih =>
    intro hu
    by_cases h1 : u ≤ 1
    · rw [strOf_le_one _ _ h1, strOf_le_one _ _ h1]
    · rw [strOf, strOf, dif_neg h1, dif_neg h1]
      rw [(addPattern_pv tb pat hw u hu).1]
      cases hp : ((tb.state u).parent) with
      | none => rfl
      | some p =>
        dsimp only
        by_cases h2 : p < u
        · rw [dif_pos h2, dif_pos h2]
          rw [(addPattern_pv tb pat hw u hu).2, ih p h2 (by omega)]
        · rw [dif_neg h2, dif_neg h2]

theorem descend_addPattern_mono (tb : TrieBuilder) (pat : List Nat)
    (hw : WF tb) :
    ∀ (w : List Nat) (s u : Nat), descend tb s w = some u →
      descend (tb.addPattern pat) s w = some u := by
  have htr : ∀ j, (((tb.addPattern pat).state j).trans) =
      (((addPatternLoop tb rootState pat).1.state j).trans) := by
    intro j
    rw [addPattern_trans]
    rw [state_modify_cases]
    by_cases hcond : (addPatternLoop tb rootState pat).2 = j ∧
        (addPatternLoop tb rootState pat).2 <
          (addPatternLoop tb rootState pat).1.states.length
    · rw [if_pos hcond]
      cases hcond.1
      rfl
    · rw [if_neg hcond]
  intro w
  induction w with
  | nil =>
    intro s u h
    rw [descend] at h
    cases h
    rfl
  | cons c rest ih =>
    intro s u h
    rw [descend] at h ⊢
    cases hl : ((tb.state s).trans).lookup c with
    | some x =>
      rw [hl] at h
      have hmono := addPatternLoop_lookup_mono pat tb rootState hw
        (by norm_num [rootState])
        (by have := hw.len2; rw [rootState]; omega) s c x hl
      rw [htr s, hmono]
      exact ih x u h
    | none => rw [hl] at h; exact absurd h (by simp)

theorem reach_addPattern_mono (tb : TrieBuilder) (pat : List Nat)
    (hw : WF tb) {w : List Nat} {u : Nat} (h : reach tb w = some u) :
    reach (tb.addPattern pat) w = some u :=
  descend_addPattern_mono tb pat hw w rootState u h

theorem addPatterns_numPatterns : ∀ (l : List (List Nat))
    (tb : TrieBuilder),
    (TrieBuilder.addPatterns tb l).numPatterns =
      tb.numPatterns + l.length := by
  intro l
  induction l with
  | nil => intro tb; rfl
  | cons p rest ih =>
    intro tb
    show (TrieBuilder.addPatterns (tb.addPattern p) rest).numPatterns = _
    rw [ih, addPattern_numPatterns, List.length_cons]
    omega

theorem builderOf_numPatterns (pats : List (List Nat)) :
    (builderOf pats).numPatterns = pats.length := by
  rw [builderOf, addPatterns_numPatterns]
  show 0 + pats.length = pats.length
  omega

/-- The trans arrays of `addPattern`'s result are those of its descent
loop's result (the final write touches only `dict` and `pattern`). -/
theorem addPattern_trans_eq_loop (tb : TrieBuilder) (pat : List Nat)
    (j : Nat) :
    (((tb.addPattern pat).state j).trans) =
      (((addPatternLoop tb rootState pat).1.state j).trans) := by
  rw [addPattern_trans]
  rw [state_modify_cases]
  by_cases hcond : (addPatternLoop tb rootState pat).2 = j ∧
      (addPatternLoop tb rootState pat).2 <
        (addPatternLoop tb rootState pat).1.states.length
  · rw [if_pos hcond]
    cases hcond.1
    rfl
  · rw [if_neg hcond]

/-- Insertion semantics: an accepting state's stored length is its word's
length and its stored index points at an equal pattern; conversely every
nonempty pattern's terminal state is accepting and (for duplicate-free
pattern lists) stores that pattern's index. -/
theorem insertion_sem (pats : List (List Nat)) :
    (∀ u, u < (builderOf pats).states.length →
      0 < ((builderOf pats).state u).dict →
      ((builderOf pats).state u).dict =
        (strOf (builderOf pats) u).length ∧
      ((builderOf pats).state u).pattern < pats.length ∧
      pats.getD ((builderOf pats).state u).pattern [] =
        strOf (builderOf pats) u) ∧
    (∀ k, k < pats.length → pats.getD k [] ≠ [] →
      ∃ u, reach (builderOf pats) (pats.getD k []) = some u ∧
        0 < ((builderOf pats).state u).dict ∧
        (pats.Nodup → ((builderOf pats).state u).pattern = k)) := by
  induction pats using List.reverseRecOn with
  | nil =>
    constructor
    · intro u hu hd
      exfalso
      have hz : ((builderOf ([] : List (List Nat))).state u).dict = 0 := by
        rw [show builderOf ([] : List (List Nat)) = newTrieBuilder from rfl]
        rcases u with _ | _ | u2
        · rfl
        · rfl
        · rw [newTrieBuilder_state_ge]
          rfl
      omega
    · intro k hk
      exact absurd hk (by simp)
  | append_singleton ps p ih =>
    have hwB := builderOf_wf ps
    have hwB' := builderOf_wf (ps ++ [p])
    have heq : builderOf (ps ++ [p]) = (builderOf ps).addPattern p :=
      builderOf_append ps p
    rw [heq] at hwB'
    have hwl := addPatternLoop_wf p (builderOf ps) rootState hwB
      (by norm_num [rootState])
      (by have := hwB.len2; rw [rootState]; omega)
    have hreachp : reach ((builderOf ps).addPattern p) p =
        some ((addPatternLoop (builderOf ps) rootState p).2) := by
      have hd := addPatternLoop_descend p (builderOf ps) rootState hwB
        (by norm_num [rootState])
        (by have := hwB.len2; rw [rootState]; omega)
      rw [reach, descend_trans_congr (addPattern_trans_eq_loop _ p)]
      exact hd
    have hstrT : strOf ((builderOf ps).addPattern p)
        ((addPatternLoop (builderOf ps) rootState p).2) = p :=
      reach_strOf _ hwB' hreachp
    rw [heq]
    constructor
    · intro u hu hd
      by_cases hut : u = (addPatternLoop (builderOf ps) rootState p).2
      · subst hut
        refine ⟨?_, ?_, ?_⟩
        · rw [(addPattern_dp_term _ p hwB).1, hstrT]
        · rw [(addPattern_dp_term _ p hwB).2, builderOf_numPatterns,
            List.length_append]
          simp
        · rw [(addPattern_dp_term _ p hwB).2, builderOf_numPatterns,
            List.getD_append_right _ _ _ _ (le_refl _), hstrT]
          simp
      · have hdp := addPattern_dp_other (builderOf ps) p hwB u hut
        rw [hdp.1] at hd
        by_cases hult : u < (builderOf ps).states.length
        · have hstrold := strOf_addPattern_old (builderOf ps) p hwB u hult
          obtain ⟨i1, i2, i3⟩ := ih.1 u hult hd
          refine ⟨?_, ?_, ?_⟩
          · rw [hdp.1, hstrold]
            exact i1
          · rw [hdp.2, List.length_append]
            omega
          · rw [hdp.2, hstrold, List.getD_append _ _ _ _ i2]
            exact i3
        · exfalso
          rw [state_of_ge _ _ (by omega)] at hd
          exact absurd hd (by decide)
    · intro k hk hkne
      by_cases hklt : k < ps.length
      · have hgetD : (ps ++ [p]).getD k [] = ps.getD k [] :=
          List.getD_append _ _ _ _ hklt
        rw [hgetD] at hkne ⊢
        obtain ⟨u, j1, j2, j3⟩ := ih.2 k hklt hkne
        have hreachu : reach ((builderOf ps).addPattern p)
            (ps.getD k []) = some u := reach_addPattern_mono _ p hwB j1
        refine ⟨u, hreachu, ?_, ?_⟩
        · by_cases hut : u = (addPatternLoop (builderOf ps) rootState p).2
          · subst hut
            have hpk : p = ps.getD k [] := by
              have h1 := reach_strOf _ hwB' hreachu
              rw [hstrT] at h1
              exact h1
            rw [(addPattern_dp_term _ p hwB).1, hpk]
            exact List.length_pos.mpr hkne
          · rw [(addPattern_dp_other (builderOf ps) p hwB u hut).1]
            exact j2
        · intro hnd
          have hndp := List.nodup_append.mp hnd
          have hut : u ≠ (addPatternLoop (builderOf ps) rootState p).2 := by
            intro he
            subst he
            have h1 := reach_strOf _ hwB' hreachu
            rw [hstrT] at h1
            have hpIn : p ∈ ps := by
              rw [h1, List.getD_eq_getElem ps [] hklt]
              exact List.getElem_mem hklt
            exact hndp.2.2 hpIn (by simp)
          rw [(addPattern_dp_other (builderOf ps) p hwB u hut).2]
          exact j3 hndp.1
      · have hkeq : k = ps.length := by
          rw [List.length_append] at hk
          simp at hk
          omega
        subst hkeq
        have hgetD : (ps ++ [p]).getD ps.length [] = p := by
          rw [List.getD_append_right _ _ _ _ (le_refl _)]
          simp
        rw [hgetD] at hkne ⊢
        refine ⟨(addPatternLoop (builderOf ps) rootState p).2, hreachp,
          ?_, fun _ => ?_⟩
        · rw [(addPattern_dp_term _ p hwB).1]
          exact List.length_pos.mpr hkne
        · rw [(addPattern_dp_term _ p hwB).2, builderOf_numPatterns]

/-! ### Emission ordering (C5) -/

theorem accStates_sufs_pairwise (pats : List (List Nat)) :
    ∀ (n : Nat) (w : List Nat), w.length ≤ n →
      (accStates (builderOf pats) (sufsOf w)).Pairwise
        (fun a b => (strOf (builderOf pats) b).length <
          (strOf (builderOf pats) a).length) := by
  have hw := builderOf_wf pats
  intro n
  induction n using Nat.strong_induction_on with
  | _ n ih =>
    intro w hn
    cases hacc : accStates (builderOf pats) (sufsOf w) with
    | nil => exact List.Pairwise.nil
    | cons v rest =>
      obtain ⟨c1, c2, c3, c4⟩ := accStates_struct _ hw w v rest hacc
      refine List.Pairwise.cons ?_ ?_
      · intro b hb
        rw [← c4] at hb
        obtain ⟨_, _, _, hmem⟩ := accStates_mem _ hw _ b hb
        exact sufsOf_length_lt _ _ hmem
      · rw [← c4]
        exact ih ((strOf (builderOf pats) v).length) (by omega) _ (le_refl _)

theorem accStates_block_pairwise (pats : List (List Nat)) (w : List Nat) :
    (accStates (builderOf pats) (w :: sufsOf w)).Pairwise
      (fun a b => (strOf (builderOf pats) b).length <
        (strOf (builderOf pats) a).length) := by
  have hw := builderOf_wf pats
  cases hr : reach (builderOf pats) w with
  | none =>
    rw [show accStates (builderOf pats) (w :: sufsOf w) =
        accStates (builderOf pats) (sufsOf w) from by
      rw [accStates, List.filterMap_cons, accOf, hr]
      rfl]
    exact accStates_sufs_pairwise pats w.length w (le_refl _)
  | some m =>
    rw [accStates_cons_of_reach _ hr]
    by_cases hd : 0 < (((builderOf pats).state m).dict)
    · rw [if_pos hd, List.singleton_append]
      refine List.Pairwise.cons ?_
        (accStates_sufs_pairwise pats w.length w (le_refl _))
      intro b hb
      obtain ⟨_, _, _, hmem⟩ := accStates_mem _ hw _ b hb
      have hlt := sufsOf_length_lt _ _ hmem
      rw [reach_strOf _ hw hr]
      omega
    · rw [if_neg hd, List.nil_append]
      exact accStates_sufs_pairwise pats w.length w (le_refl _)

theorem specEmits_ordered (pats : List (List Nat)) :
    ∀ (input : List Nat) (i : Nat) (w : List Nat),
      ((specEmits (builderOf pats) input i w).Pairwise
        (fun a b => a.1 < b.1 ∨ (a.1 = b.1 ∧ b.2.1 < a.2.1))) ∧
      (∀ t ∈ specEmits (builderOf pats) input i w, i ≤ t.1) := by
  have hw := builderOf_wf pats
  intro input
  induction input with
  | nil =>
    intro i w
    refine ⟨List.Pairwise.nil, ?_⟩
    intro t ht
    exact absurd ht (List.not_mem_nil t)
  | cons c rest ih =>
    intro i w
    have hblockmem : ∀ t ∈ (accStates (builderOf pats)
        ((w ++ [c]) :: sufsOf (w ++ [c]))).map
        (fun u => (i, ((builderOf pats).state u).dict,
          ((builderOf pats).state u).pattern)), t.1 = i := by
      intro t ht
      obtain ⟨u, _, rfl⟩ := List.mem_map.mp ht
      rfl
    constructor
    · rw [specEmits]
      rw [List.pairwise_append]
      refine ⟨?_, (ih (i + 1) (w ++ [c])).1, ?_⟩
      · rw [List.pairwise_map]
        refine List.Pairwise.imp_of_mem ?_
          (accStates_block_pairwise pats (w ++ [c]))
        intro a b ha hb hlt
        obtain ⟨a1, a2, a3, _⟩ := accStates_mem _ hw _ a ha
        obtain ⟨b1, b2, b3, _⟩ := accStates_mem _ hw _ b hb
        right
        refine ⟨rfl, ?_⟩
        rw [((insertion_sem pats).1 a a2 a3).1,
          ((insertion_sem pats).1 b b2 b3).1]
        exact hlt
      · intro a ha b hb
        left
        rw [hblockmem a ha]
        have := (ih (i + 1) (w ++ [c])).2 b hb
        omega
    · intro t ht
      rw [specEmits] at ht
      rcases List.mem_append.mp ht with ht1 | ht2
      · rw [hblockmem t ht1]
      · have := (ih (i + 1) (w ++ [c])).2 t ht2
        omega

/-- C5: the emission sequence of a scan (the sequence of callback
invocations `Walk` makes with a never-aborting callback, and the triples
behind the `Match` list) is ordered by ascending end position, and within
one end position by strictly decreasing reported pattern length — the
direct match at the current state (the longest accepting suffix) first,
then the dictionary-link chain; `Match` returns exactly these triples in
this order and any `Walk` callback sees a prefix of them. -/
theorem claim_C5_ordering (pats : List (List Nat)) (input : List Nat)
    (hb : ∀ b ∈ input, b < 256) :
    (((builderOf pats).build.emissions input).Pairwise
      (fun a b => a.1 < b.1 ∨ (a.1 = b.1 ∧ b.2.1 < a.2.1))) ∧
    ((builderOf pats).build.matchAll input =
      ((builderOf pats).build.emissions input).map (tripleToMatch input)) ∧
    (∀ f, (builderOf pats).build.walkTrace input f =
      stopAfterFalse f ((builderOf pats).build.emissions input)) := by
  refine ⟨?_, matchAll_eq_emissions _ input,
    fun f => walkTrace_eq_stopAfterFalse _ input f⟩
  rw [emissions_spec pats input hb]
  exact (specEmits_ordered pats input 0 []).1

/-- Witness for C5 at the patterns [1], [2,1] and the input [2,1,1]. -/
theorem claim_C5_ordering_witness :
    (((builderOf [[1], [2, 1]]).build.emissions [2, 1, 1]).Pairwise
      (fun a b => a.1 < b.1 ∨ (a.1 = b.1 ∧ b.2.1 < a.2.1))) ∧
    ((builderOf [[1], [2, 1]]).build.matchAll [2, 1, 1] =
      ((builderOf [[1], [2, 1]]).build.emissions [2, 1, 1]).map
        (tripleToMatch [2, 1, 1])) ∧
    (∀ f, (builderOf [[1], [2, 1]]).build.walkTrace [2, 1, 1] f =
      stopAfterFalse f ((builderOf [[1], [2, 1]]).build.emissions
        [2, 1, 1])) :=
  claim_C5_ordering [[1], [2, 1]] [2, 1, 1] (by decide)

/-! ### Exact match-set correctness (C1) -/

/-- Pattern `pat` occurs in `input` at byte offset `start`. -/
def occursAt (input pat : List Nat) (start : Nat) : Prop :=
  start + pat.length ≤ input.length ∧
    (input.drop start).take pat.length = pat

instance (input pat : List Nat) (start : Nat) :
    Decidable (occursAt input pat start) := by
  unfold occursAt
  infer_instance

theorem suffix_slice {input p : List Nat} {e : Nat}
    (he : e < input.length) (hs : p <:+ input.take (e + 1)) :
    p.length ≤ e + 1 ∧ occursAt input p (e + 1 - p.length) := by
  obtain ⟨pre, hpre⟩ := hs
  have hlen : pre.length + p.length = e + 1 := by
    have := congrArg List.length hpre
    rw [List.length_append, List.length_take] at this
    omega
  have hstart : e + 1 - p.length = pre.length := by omega
  refine ⟨by omega, ?_, ?_⟩
  · omega
  · rw [hstart]
    have h1 : (input.take (e + 1)).drop pre.length = p := by
      rw [← hpre, List.drop_left]
    rw [List.drop_take] at h1
    rw [show e + 1 - pre.length = p.length from by omega] at h1
    exact h1

theorem slice_suffix {input p : List Nat} {s : Nat}
    (hocc : occursAt input p s) (hne : p ≠ []) :
    s + p.length - 1 < input.length ∧
      p <:+ input.take (s + p.length) := by
  obtain ⟨h1, h2⟩ := hocc
  have hp1 : 1 ≤ p.length := List.length_pos.mpr hne
  refine ⟨by omega, ?_⟩
  refine ⟨input.take s, ?_⟩
  rw [List.take_add, h2]

theorem specEmits_mem_iff (pats : List (List Nat)) :
    ∀ (input : List Nat) (i : Nat) (w : List Nat) (t : Nat × Nat × Nat),
      t ∈ specEmits (builderOf pats) input i w ↔
      ∃ j u, j < input.length ∧
        u ∈ accStates (builderOf pats)
          ((w ++ input.take (j + 1)) ::
            sufsOf (w ++ input.take (j + 1))) ∧
        t = (i + j, ((builderOf pats).state u).dict,
          ((builderOf pats).state u).pattern) := by
  intro input
  induction input with
  | nil =>
    intro i w t
    constructor
    · intro ht
      exact absurd ht (List.not_mem_nil t)
    · rintro ⟨j, u, hj, _, _⟩
      exact absurd hj (by simp)
  | cons c rest ih =>
    intro i w t
    simp only [specEmits]
    constructor
    · intro ht
      rcases List.mem_append.mp ht with ht1 | ht2
      · obtain ⟨u, hu, rfl⟩ := List.mem_map.mp ht1
        refine ⟨0, u, by simp, ?_, by simp⟩
        rw [show (c :: rest).take (0 + 1) = [c] from rfl]
        exact hu
      · obtain ⟨j, u, hj, hu, hteq⟩ := (ih (i + 1) (w ++ [c]) t).mp ht2
        refine ⟨j + 1, u, by simp only [List.length_cons]; omega, ?_, ?_⟩
        · rw [show (c :: rest).take (j + 1 + 1) = c :: rest.take (j + 1)
            from rfl]
          rw [show w ++ c :: rest.take (j + 1) =
            (w ++ [c]) ++ rest.take (j + 1) from by simp]
          exact hu
        · rw [hteq]
          rw [show i + (j + 1) = i + 1 + j from by omega]
    · rintro ⟨j, u, hj, hu, rfl⟩
      cases j with
      | zero =>
        refine List.mem_append.mpr (Or.inl ?_)
        refine List.mem_map.mpr ⟨u, ?_, by rw [show i + 0 = i from rfl]⟩
        rw [show (c :: rest).take (0 + 1) = [c] from rfl] at hu
        exact hu
      | succ j2 =>
        refine List.mem_append.mpr (Or.inr ?_)
        refine (ih (i + 1) (w ++ [c]) _).mpr ⟨j2, u,
          by simp only [List.length_cons] at hj; omega, ?_, ?_⟩
        · rw [show (c :: rest).take (j2 + 1 + 1) =
            c :: rest.take (j2 + 1) from rfl] at hu
          rw [show w ++ c :: rest.take (j2 + 1) =
            (w ++ [c]) ++ rest.take (j2 + 1) from by simp] at hu
          exact hu
        · rw [show i + 1 + j2 = i + (j2 + 1) from by omega]

theorem emissions_mem_iff (pats : List (List Nat)) (input : List Nat)
    (hb : ∀ b ∈ input, b < 256) (t : Nat × Nat × Nat) :
    t ∈ (builderOf pats).build.emissions input ↔
      ∃ j u, j < input.length ∧
        u ∈ accStates (builderOf pats)
          ((input.take (j + 1)) :: sufsOf (input.take (j + 1))) ∧
        t = (j, ((builderOf pats).state u).dict,
          ((builderOf pats).state u).pattern) := by
  rw [emissions_spec pats input hb]
  have h := specEmits_mem_iff pats input 0 [] t
  simpa using h

theorem emissions_coherent (pats : List (List Nat)) (input : List Nat)
    (hb : ∀ b ∈ input, b < 256) :
    ∀ t ∈ (builderOf pats).build.emissions input,
      t.2.2 < pats.length ∧ 0 < t.2.1 ∧
      t.2.1 = (pats.getD t.2.2 []).length ∧
      t.1 < input.length ∧ t.2.1 ≤ t.1 + 1 := by
  have hw := builderOf_wf pats
  intro t ht
  obtain ⟨j, u, hj, hu, rfl⟩ := (emissions_mem_iff pats input hb t).mp ht
  obtain ⟨u1, u2, u3, hsuf⟩ := accStates_mem _ hw _ u hu
  obtain ⟨d1, d2, d3⟩ := (insertion_sem pats).1 u u2 u3
  have hsuffix : strOf (builderOf pats) u <:+ input.take (j + 1) :=
    (mem_sufsOf_iff _ _).mp hsuf
  have hlen : (strOf (builderOf pats) u).length ≤ j + 1 := by
    have h2 := hsuffix.length_le
    rw [List.length_take] at h2
    omega
  refine ⟨d2, u3, ?_, hj, ?_⟩
  · show ((builderOf pats).state u).dict =
      (pats.getD ((builderOf pats).state u).pattern []).length
    rw [d3]
    exact d1
  · show ((builderOf pats).state u).dict ≤ j + 1
    omega

/-- C1 (amended): for duplicate-free, nonempty byte patterns and byte
input, `Match` returns exactly the occurrence set — a (start, patternIndex)
pair is reported iff that pattern occurs at that start — every reported
start is non-negative, and no pair is reported twice.  The original claim
is refuted by `claim_C1_counterexample`: an empty pattern occurs at every
position of every text but is never reported (its terminal state, the
root, keeps `dict = 0`); duplicated patterns likewise lose their earlier
index (C7). -/
theorem claim_C1_match_set (pats : List (List Nat)) (input : List Nat)
    (hnd : pats.Nodup) (hne : ∀ p ∈ pats, p ≠ [])
    (hb : ∀ b ∈ input, b < 256) :
    (∀ (s k : Nat),
      ((s : Int), k) ∈ ((builderOf pats).build.matchAll input).map
        (fun m => (m.pos, m.pattern)) ↔
      (k < pats.length ∧ occursAt input (pats.getD k []) s)) ∧
    (∀ m ∈ (builderOf pats).build.matchAll input, 0 ≤ m.pos) ∧
    (((builderOf pats).build.matchAll input).map
      (fun m => (m.pos, m.pattern))).Nodup := by
  have hw := builderOf_wf pats
  have hpairs : ((builderOf pats).build.matchAll input).map
      (fun m => (m.pos, m.pattern)) =
      ((builderOf pats).build.emissions input).map
        (fun t => (((t.1 : Int) - (t.2.1 : Int) + 1), t.2.2)) := by
    rw [matchAll_eq_emissions, List.map_map]
    rfl
  have hco := emissions_coherent pats input hb
  refine ⟨?_, ?_, ?_⟩
  · intro s k
    rw [hpairs]
    constructor
    · intro hin
      obtain ⟨t, ht, hteq⟩ := List.mem_map.mp hin
      obtain ⟨j, u, hj, hu, rfl⟩ := (emissions_mem_iff pats input hb t).mp ht
      obtain ⟨u1, u2, u3, hsuf⟩ := accStates_mem _ hw _ u hu
      obtain ⟨d1, d2, d3⟩ := (insertion_sem pats).1 u u2 u3
      injection hteq with hpos hk
      subst hk
      have hsuffix : strOf (builderOf pats) u <:+ input.take (j + 1) :=
        (mem_sufsOf_iff _ _).mp hsuf
      obtain ⟨hlen, hocc⟩ := suffix_slice hj hsuffix
      have hsv : s = j + 1 - (strOf (builderOf pats) u).length := by
        rw [show ((j, ((builderOf pats).state u).dict,
          ((builderOf pats).state u).pattern) :
            Nat × Nat × Nat).2.1 = ((builderOf pats).state u).dict
          from rfl, d1] at hpos
        omega
      refine ⟨d2, ?_⟩
      show occursAt input (pats.getD ((builderOf pats).state u).pattern []) s
      rw [d3, hsv]
      exact hocc
    · rintro ⟨hk, hocc⟩
      have hpne : pats.getD k [] ≠ [] := hne _ (by
        rw [List.getD_eq_getElem pats [] hk]
        exact List.getElem_mem hk)
      obtain ⟨u, r1, r2, r3⟩ := (insertion_sem pats).2 k hk hpne
      have hpat := r3 hnd
      obtain ⟨he, hsuf⟩ := slice_suffix hocc hpne
      have hn1 : 1 ≤ (pats.getD k []).length := List.length_pos.mpr hpne
      have huv := reach_valid _ hw r1
      have hstru : strOf (builderOf pats) u = pats.getD k [] :=
        reach_strOf _ hw r1
      have hju : u ∈ accStates (builderOf pats)
          ((input.take ((s + (pats.getD k []).length - 1) + 1)) ::
            sufsOf (input.take ((s + (pats.getD k []).length - 1) + 1))) := by
        rw [show s + (pats.getD k []).length - 1 + 1 =
          s + (pats.getD k []).length from by omega]
        refine List.mem_filterMap.mpr ⟨pats.getD k [], ?_, ?_⟩
        · exact (mem_sufsOf_iff _ _).mpr hsuf
        · rw [accOf, r1]
          dsimp only
          rw [if_pos r2]
      have htmem : ((s + (pats.getD k []).length - 1),
          ((builderOf pats).state u).dict,
          ((builderOf pats).state u).pattern) ∈
          (builderOf pats).build.emissions input :=
        (emissions_mem_iff pats input hb _).mpr
          ⟨s + (pats.getD k []).length - 1, u, he, hju, rfl⟩
      refine List.mem_map.mpr ⟨_, htmem, ?_⟩
      have hd1 := ((insertion_sem pats).1 u huv.2 r2).1
      rw [hstru] at hd1
      dsimp only
      rw [hd1, hpat]
      rw [show ((s + (pats.getD k []).length - 1 : Nat) : Int) -
        ((pats.getD k []).length : Int) + 1 = (s : Int) from by omega]
  · intro m hm
    rw [matchAll_eq_emissions] at hm
    obtain ⟨t, ht, rfl⟩ := List.mem_map.mp hm
    have hc := hco t ht
    show (0 : Int) ≤ (t.1 : Int) - (t.2.1 : Int) + 1
    have h5 := hc.2.2.2.2
    omega
  · rw [hpairs]
    have hord : ((builderOf pats).build.emissions input).Pairwise
        (fun a b => a.1 < b.1 ∨ (a.1 = b.1 ∧ b.2.1 < a.2.1)) := by
      rw [emissions_spec pats input hb]
      exact (specEmits_ordered pats input 0 []).1
    have hstrong : ((builderOf pats).build.emissions input).Pairwise
        (fun a b => (((a.1 : Int) - (a.2.1 : Int) + 1), a.2.2) ≠
          (((b.1 : Int) - (b.2.1 : Int) + 1), b.2.2)) := by
      refine List.Pairwise.imp_of_mem ?_ hord
      intro a b ha hb2 hR hfeq
      injection hfeq with h1 h2
      have hca := hco a ha
      have hcb := hco b hb2
      have hn : a.2.1 = b.2.1 := by
        rw [hca.2.2.1, hcb.2.2.1, h2]
      rcases hR with hlt | ⟨heq, hlt2⟩
      · rw [hn] at h1
        have : a.1 = b.1 := by omega
        omega
      · omega
    exact List.Pairwise.map _ (fun a b h => h) hstrong

/-- Counterexample to verbatim C1: the empty pattern occurs at offset 0 of
the text [0] (the empty byte range equals it), yet `Match` reports
nothing. -/
theorem claim_C1_counterexample :
    occursAt [0] (([[]] : List (List Nat)).getD 0 []) 0 ∧
    (builderOf [[]]).build.matchAll [0] = [] := by decide

/-- Witness for the amended C1 at the patterns [1], [2] and the input
[2, 1]. -/
theorem claim_C1_match_set_witness :
    (∀ (s k : Nat),
      ((s : Int), k) ∈ ((builderOf [[1], [2]]).build.matchAll [2, 1]).map
        (fun m => (m.pos, m.pattern)) ↔
      (k < ([[1], [2]] : List (List Nat)).length ∧
        occursAt [2, 1] (([[1], [2]] : List (List Nat)).getD k []) s)) ∧
    (∀ m ∈ (builderOf [[1], [2]]).build.matchAll [2, 1], 0 ≤ m.pos) ∧
    (((builderOf [[1], [2]]).build.matchAll [2, 1]).map
      (fun m => (m.pos, m.pattern))).Nodup :=
  claim_C1_match_set [[1], [2]] [2, 1] (by decide) (by decide) (by decide)

end AhoCorasick
